import Mathlib

/-!
# codeprep: include/exclude matching and tree rendering

A shallow embedding of `main.go` (package `main` of codeprep) together with the
parts of the Go standard library it calls (`strings`, `unicode/utf8`, `unicode`,
`path/filepath` on a Unix target, `sort`).

Go strings are byte sequences, so a string is a list of bytes here; string
literals of the program are written `str "..."`, their UTF-8 encoding.
Loops whose bound is not structural carry an explicit iteration budget and
return `none` when it runs out; the budget handed in by the callers is shown
to be sufficient.
-/

set_option autoImplicit false

namespace Codeprep

/-! ## Bytes and strings -/

/-- One byte of a Go string. -/
abbrev Byte := Fin 256

/-- A Go `string`: an immutable sequence of bytes. -/
abbrev GoString := List Byte

/-- The byte with value `n` (truncated to 8 bits). -/
def byteOf (n : Nat) : Byte := ⟨n % 256, Nat.mod_lt n (by decide)⟩

/-- UTF-8 encoding of one code point, as the Go compiler encodes source literals. -/
def encodeRune (c : Nat) : GoString :=
  if c < 0x80 then [byteOf c]
  else if c < 0x800 then [byteOf (0xC0 + c / 0x40), byteOf (0x80 + c % 0x40)]
  else if c < 0x10000 then
    [byteOf (0xE0 + c / 0x1000), byteOf (0x80 + c / 0x40 % 0x40), byteOf (0x80 + c % 0x40)]
  else
    [byteOf (0xF0 + c / 0x40000), byteOf (0x80 + c / 0x1000 % 0x40),
     byteOf (0x80 + c / 0x40 % 0x40), byteOf (0x80 + c % 0x40)]

/-- The bytes of a string literal. -/
def str (s : String) : GoString := (s.data.map (fun c => encodeRune c.toNat)).flatten

/-- The byte `'/'`: `filepath.Separator` on Unix. -/
abbrev Separator : Byte := 0x2F
/-- The byte `'*'`. -/
abbrev chStar : Byte := 0x2A
/-- The byte `'?'`. -/
abbrev chQuestion : Byte := 0x3F
/-- The byte `'['`. -/
abbrev chLBracket : Byte := 0x5B
/-- The byte `']'`. -/
abbrev chRBracket : Byte := 0x5D
/-- The byte `'\\'`. -/
abbrev chBackslash : Byte := 0x5C
/-- The byte `'^'`. -/
abbrev chCaret : Byte := 0x5E
/-- The byte `'-'`. -/
abbrev chDash : Byte := 0x2D
/-- The byte `'.'`. -/
abbrev chDot : Byte := 0x2E
/-- The byte `','`. -/
abbrev chComma : Byte := 0x2C
/-- The byte `' '`. -/
abbrev chSpace : Byte := 0x20
/-- The byte `'\n'`. -/
abbrev chNewline : Byte := 0x0A

/-! ## unicode/utf8 -/

namespace utf8

/-- The constant `utf8.RuneError` (U+FFFD). -/
def RuneError : Nat := 0xFFFD

/-- The constant `utf8.RuneSelf`: bytes below it are single-byte runes. -/
def RuneSelf : Nat := 0x80

/-- The constant `utf8.UTFMax`. -/
def UTFMax : Nat := 4

/-- The table `utf8.first`: information about the first byte of an encoding.
`0xF0` (as) is ASCII, `0xF1` (xx) is invalid, otherwise the low three bits
are the size and the high four bits index `acceptRanges`. -/
def first (b : Byte) : Nat :=
  if b.val < 0x80 then 0xF0
  else if b.val < 0xC2 then 0xF1
  else if b.val < 0xE0 then 0x02
  else if b.val = 0xE0 then 0x13
  else if b.val < 0xED then 0x03
  else if b.val = 0xED then 0x23
  else if b.val < 0xF0 then 0x03
  else if b.val = 0xF0 then 0x34
  else if b.val < 0xF4 then 0x04
  else if b.val = 0xF4 then 0x44
  else 0xF1

/-- The table `utf8.acceptRanges`: the accepted range `(lo, hi)` of the second byte. -/
def acceptRanges (i : Nat) : Nat × Nat :=
  match i with
  | 0 => (0x80, 0xBF)
  | 1 => (0xA0, 0xBF)
  | 2 => (0x80, 0x9F)
  | 3 => (0x90, 0xBF)
  | 4 => (0x80, 0x8F)
  | _ => (0, 0)

/-- The function `utf8.DecodeRuneInString`: the first rune of `s` and its width in bytes;
`(RuneError, 0)` on the empty string and `(RuneError, 1)` on an invalid encoding. -/
def DecodeRuneInString (s : GoString) : Nat × Nat :=
  match s with
  | [] => (RuneError, 0)
  | s0 :: _ =>
    let x := first s0
    if x ≥ 0xF0 then
      -- mask is all ones exactly when x is xx (odd)
      (if x % 2 = 0 then s0.val else RuneError, 1)
    else
      let sz := x &&& 7
      let accept := acceptRanges (x >>> 4)
      if s.length < sz then (RuneError, 1)
      else
        let s1 := (s.getD 1 0).val
        if s1 < accept.1 ∨ accept.2 < s1 then (RuneError, 1)
        else if sz ≤ 2 then (((s0.val &&& 0x1F) <<< 6) ||| (s1 &&& 0x3F), 2)
        else
          let s2 := (s.getD 2 0).val
          if s2 < 0x80 ∨ 0xBF < s2 then (RuneError, 1)
          else if sz ≤ 3 then
            (((s0.val &&& 0x0F) <<< 12) ||| ((s1 &&& 0x3F) <<< 6) ||| (s2 &&& 0x3F), 3)
          else
            let s3 := (s.getD 3 0).val
            if s3 < 0x80 ∨ 0xBF < s3 then (RuneError, 1)
            else
              (((s0.val &&& 0x07) <<< 18) ||| ((s1 &&& 0x3F) <<< 12) |||
                ((s2 &&& 0x3F) <<< 6) ||| (s3 &&& 0x3F), 4)

/-- The function `utf8.RuneStart`: the byte is not a continuation byte. -/
def RuneStart (b : Byte) : Bool := b.val &&& 0xC0 != 0x80

/-- The backwards scan of `DecodeLastRuneInString`: starting at index `start`,
step down while `start ≥ lim` and the byte there is not a rune start.
Returns the index where the scan stops, `none` standing for `-1`. -/
def scanBack (s : GoString) (lim : Nat) : Nat → Option Nat
  | 0 => if lim = 0 then (if RuneStart (s.getD 0 0) then some 0 else none) else some 0
  | start + 1 =>
    if start + 1 < lim then some (start + 1)
    else if RuneStart (s.getD (start + 1) 0) then some (start + 1)
    else scanBack s lim start

/-- The start index that `DecodeLastRuneInString` finds for a string ending in a non-ASCII
byte: `start := end - 1`, then `for start--; start >= lim; start--` until a rune start,
then `if start < 0 { start = 0 }`. -/
def lastRuneStart (s : GoString) : Nat :=
  match s.length - 1 with
  | 0 => 0
  | k + 1 => (scanBack s (s.length - UTFMax) k).getD 0

/-- The function `utf8.DecodeLastRuneInString`: the last rune of `s` and its width. -/
def DecodeLastRuneInString (s : GoString) : Nat × Nat :=
  let stop := s.length
  if stop = 0 then (RuneError, 0)
  else
    let r := (s.getD (stop - 1) 0).val
    if r < RuneSelf then (r, 1)
    else
      let start := lastRuneStart s
      let d := DecodeRuneInString (s.drop start)
      if start + d.2 ≠ stop then (RuneError, 1) else d

end utf8

/-! ## unicode -/

namespace unicode

/-- The function `unicode.IsSpace`: Latin-1 spaces are listed, the rest is the
`White_Space` range table. -/
def IsSpace (r : Nat) : Bool :=
  if r ≤ 0xFF then
    r = 0x09 ∨ r = 0x0A ∨ r = 0x0B ∨ r = 0x0C ∨ r = 0x0D ∨ r = 0x20 ∨ r = 0x85 ∨ r = 0xA0
  else
    r = 0x1680 ∨ (0x2000 ≤ r ∧ r ≤ 0x200A) ∨ (0x2028 ≤ r ∧ r ≤ 0x2029) ∨ r = 0x202F ∨
      r = 0x205F ∨ r = 0x3000

end unicode

/-! ## strings -/

namespace strings

/-- The function `strings.Contains(s, sep)` for a one-byte `sep`
(the program only asks for `"/"`). -/
def Contains (s : GoString) (sep : Byte) : Bool := s.any (fun c => c = sep)

/-- The function `strings.Count(s, sep)` for a one-byte `sep`. -/
def Count (s : GoString) (sep : Byte) : Nat := (s.filter (fun c => c = sep)).length

/-- The function `strings.Repeat`. -/
def Repeat (s : GoString) : Nat → GoString
  | 0 => []
  | n + 1 => s ++ Repeat s n

/-- The scan of `strings.Split`: `cur` is the segment read so far. -/
def splitFrom (sep : Byte) (cur : GoString) : GoString → List GoString
  | [] => [cur]
  | c :: cs => if c = sep then cur :: splitFrom sep [] cs else splitFrom sep (cur ++ [c]) cs

/-- The function `strings.Split(s, sep)` for a one-byte `sep` (the program only splits
at `","` and at `"/"`): the segments between separators, one more than the
separators; the empty string gives one empty segment. -/
def Split (s : GoString) (sep : Byte) : List GoString := splitFrom sep [] s

/-- The table `strings.asciiSpace`: tab, newline, vertical tab, form feed, carriage
return and space. -/
def asciiSpace (c : Byte) : Bool :=
  c.val = 0x09 ∨ c.val = 0x0A ∨ c.val = 0x0B ∨ c.val = 0x0C ∨ c.val = 0x0D ∨ c.val = 0x20

/-- The loop of `strings.indexFunc(s, f, false)`, `for i, r := range s`: the
remainder of `s` from the first rune that does not satisfy `f` (the empty string
when there is none); a `range` step decodes one rune and advances by its width. -/
def trimLeftLoop (f : Nat → Bool) : Nat → GoString → Option GoString
  | 0, _ => none
  | fuel + 1, s =>
    if s = [] then some []
    else
      let (r, n) := utf8.DecodeRuneInString s
      if f r = false then some s else trimLeftLoop f fuel (s.drop n)

/-- The function `strings.TrimLeftFunc`. -/
def TrimLeftFunc (s : GoString) (f : Nat → Bool) : GoString :=
  (trimLeftLoop f (s.length + 1) s).getD []

/-- The loop of `strings.lastIndexFunc(s, f, false)` over the prefix `s[0:i]`, given
as `pre`: the index of the last rune that does not satisfy `f`, `none` for `-1`. -/
def lastIndexLoop (f : Nat → Bool) : Nat → GoString → Option (Option Nat)
  | 0, _ => none
  | fuel + 1, pre =>
    if pre.length = 0 then some none
    else
      let (r, size) := utf8.DecodeLastRuneInString pre
      let i := pre.length - size
      if f r = false then some (some i) else lastIndexLoop f fuel (pre.take i)

/-- The function `strings.TrimRightFunc`. -/
def TrimRightFunc (s : GoString) (f : Nat → Bool) : GoString :=
  match (lastIndexLoop f (s.length + 1) s).getD none with
  | some i =>
    if (s.getD i 0).val ≥ utf8.RuneSelf then
      s.take (i + (utf8.DecodeRuneInString (s.drop i)).2)
    else s.take (i + 1)
  | none => s.take 0

/-- The function `strings.TrimFunc`. -/
def TrimFunc (s : GoString) (f : Nat → Bool) : GoString :=
  TrimRightFunc (TrimLeftFunc s f) f

/-- The second loop of `strings.TrimSpace`, reading `s[start:stop]` from its end;
the argument is that slice reversed. -/
def trimSpaceBack : GoString → GoString
  | [] => []
  | c :: rest =>
    if c.val ≥ utf8.RuneSelf then TrimRightFunc (c :: rest).reverse unicode.IsSpace
    else if asciiSpace c then trimSpaceBack rest
    else (c :: rest).reverse

/-- The function `strings.TrimSpace`: an ASCII fast path from both ends that falls back
to the rune-wise `TrimFunc` / `TrimRightFunc` at the first non-ASCII byte. -/
def TrimSpace : GoString → GoString
  | [] => []
  | c :: cs =>
    if c.val ≥ utf8.RuneSelf then TrimFunc (c :: cs) unicode.IsSpace
    else if asciiSpace c then TrimSpace cs
    else trimSpaceBack (c :: cs).reverse

end strings

/-! ## path/filepath (Unix) -/

namespace filepath

/-- The back-off of `Clean` at a `..` element, on the write index `w` of the
output buffer `out`: `for out.w > dotdot && !os.IsPathSeparator(out.index(out.w)) { out.w-- }`. -/
def backtrack (out : GoString) (dotdot : Nat) : Nat → Nat
  | 0 => 0
  | w + 1 => if dotdot < w + 1 ∧ out.getD (w + 1) 0 ≠ Separator then backtrack out dotdot w else w + 1

/-- The main loop of `filepath.Clean`: `path` is the unread input `path[r:]`, `out` the
bytes written so far (`out.w` is its length), `dotdot` the index where `..` must stop. -/
def cleanLoop (rooted : Bool) : Nat → GoString → GoString → Nat → Option GoString
  | 0, _, _, _ => none
  | fuel + 1, path, out, dotdot =>
    match path with
    | [] => some out
    | c :: rest =>
      if c = Separator then
        -- empty path element
        cleanLoop rooted fuel rest out dotdot
      else if c = chDot ∧ (rest = [] ∨ rest.head? = some Separator) then
        -- . element
        cleanLoop rooted fuel rest out dotdot
      else if c = chDot ∧ rest.head? = some chDot ∧
          (rest.tail = [] ∨ rest.tail.head? = some Separator) then
        -- .. element: remove to last separator
        if dotdot < out.length then
          cleanLoop rooted fuel rest.tail (out.take (backtrack out dotdot (out.length - 1))) dotdot
        else if rooted = false then
          let out1 := if 0 < out.length then out ++ [Separator] else out
          let out2 := out1 ++ [chDot, chDot]
          cleanLoop rooted fuel rest.tail out2 out2.length
        else cleanLoop rooted fuel rest.tail out dotdot
      else
        -- real path element: add slash if needed, copy element
        let out1 :=
          if (rooted = true ∧ out.length ≠ 1) ∨ (rooted = false ∧ out.length ≠ 0) then
            out ++ [Separator]
          else out
        cleanLoop rooted fuel (path.dropWhile (fun b => b ≠ Separator))
          (out1 ++ path.takeWhile (fun b => b ≠ Separator)) dotdot

/-- The function `filepath.Clean` (no volume names on Unix). -/
def Clean (path : GoString) : GoString :=
  match path with
  | [] => str "."
  | c :: rest =>
    let rooted : Bool := c = Separator
    let r :=
      if rooted then cleanLoop rooted (path.length + 1) rest [Separator] 1
      else cleanLoop rooted (path.length + 1) path [] 0
    let out := r.getD []
    -- Turn empty string into "."
    if out.length = 0 then str "." else out

/-- The function `strings.Join(elems, "/")`. -/
def joinSep : List GoString → GoString
  | [] => []
  | [e] => e
  | e :: es => e ++ Separator :: joinSep es

/-- The function `filepath.Join`: leading empty elements are ignored, the rest is joined
with the separator and cleaned; all empty gives the empty string. -/
def Join : List GoString → GoString
  | [] => []
  | e :: es => if e ≠ [] then Clean (joinSep (e :: es)) else Join es

/-- The function `filepath.Base`: the last element of `path`, trailing separators removed
first; `"."` for the empty path and `"/"` for a path of separators only. -/
def Base (path : GoString) : GoString :=
  if path = [] then str "."
  else
    -- Strip trailing slashes.
    let path1 := (path.reverse.dropWhile (fun b => b = Separator)).reverse
    -- Find the last element
    let path2 := (path1.reverse.takeWhile (fun b => b ≠ Separator)).reverse
    -- If empty now, it had only slashes.
    if path2 = [] then [Separator] else path2

/-- The function `filepath.Dir`: all but the last element of `path`, cleaned. -/
def Dir (path : GoString) : GoString :=
  Clean (path.reverse.dropWhile (fun b => b ≠ Separator)).reverse

/-- The scan loop of `scanChunk`: splits `pattern` before the first `*` that is outside
a bracket expression; a backslash protects the next byte. -/
def scanSplit : Bool → GoString → GoString × GoString
  | _, [] => ([], [])
  | inrange, c :: cs =>
    if c = chBackslash then
      match cs with
      | [] => ([c], [])
      | d :: ds => let r := scanSplit inrange ds; (c :: d :: r.1, r.2)
    else if c = chLBracket then
      let r := scanSplit true cs; (c :: r.1, r.2)
    else if c = chRBracket then
      let r := scanSplit false cs; (c :: r.1, r.2)
    else if c = chStar ∧ inrange = false then ([], c :: cs)
    else
      let r := scanSplit inrange cs; (c :: r.1, r.2)

/-- The function `scanChunk`: `(star, chunk, rest)`, the next segment of the pattern, a
non-star string possibly preceded by stars. -/
def scanChunk (pattern : GoString) : Bool × GoString × GoString :=
  let stripped := pattern.dropWhile (fun b => b = chStar)
  let star : Bool := pattern.head? = some chStar
  let r := scanSplit false stripped
  (star, r.1, r.2)

/-- The function `getEsc`: `(r, nchunk, err)`, a possibly escaped character of a character
class; `err` stands for `ErrBadPattern`. -/
def getEsc (chunk : GoString) : Nat × GoString × Bool :=
  match chunk with
  | [] => (0, [], true)
  | c :: rest =>
    if c = chDash ∨ c = chRBracket then (0, [], true)
    else if c = chBackslash ∧ rest = [] then (0, [], true)
    else
      let chunk1 := if c = chBackslash then rest else chunk
      let (r, n) := utf8.DecodeRuneInString chunk1
      let err1 : Bool := r = utf8.RuneError ∧ n = 1
      let nchunk := chunk1.drop n
      (r, nchunk, err1 || nchunk.isEmpty)

/-- The range loop of a character class in `matchChunk` (`for { ... }`):
`some (chunk, match, err)` on leaving the loop, where `err` stands for the
return of `ErrBadPattern`. -/
def classLoop (r : Nat) : Nat → GoString → Bool → Nat → Option (GoString × Bool × Bool)
  | 0, _, _, _ => none
  | fuel + 1, chunk, mtch, nrange =>
    if chunk.head? = some chRBracket ∧ 0 < nrange then some (chunk.tail, mtch, false)
    else
      let (lo, chunk1, err1) := getEsc chunk
      if err1 then some ([], false, true)
      else if chunk1.head? = some chDash then
        let (hi, chunk2, err2) := getEsc chunk1.tail
        if err2 then some ([], false, true)
        else classLoop r fuel chunk2 (mtch || (decide (lo ≤ r) && decide (r ≤ hi))) (nrange + 1)
      else classLoop r fuel chunk1 (mtch || (decide (lo ≤ r) && decide (r ≤ lo))) (nrange + 1)

/-- The loop of `matchChunk` (as of Go 1.16): `some (rest, ok, err)`. `failed` records that
the match has failed; the loop then goes on checking the chunk without reading `s`. -/
def matchChunkLoop : Nat → GoString → GoString → Bool → Option (GoString × Bool × Bool)
  | 0, _, _, _ => none
  | fuel + 1, chunk, s, failed0 =>
    match chunk with
    | [] => some (if failed0 then ([], false, false) else (s, true, false))
    | c :: chunk1 =>
      let failed : Bool := failed0 || s.isEmpty
      if c = chLBracket then
        -- character class
        let d := utf8.DecodeRuneInString s
        let r := if failed then 0 else d.1
        let s1 := if failed then s else s.drop d.2
        -- possibly negated
        let negated : Bool := chunk1.head? = some chCaret
        let chunk2 := if negated then chunk1.tail else chunk1
        -- parse all ranges
        match classLoop r (chunk2.length + 1) chunk2 false 0 with
        | none => none
        | some (chunk3, mtch, err) =>
          if err then some ([], false, true)
          else matchChunkLoop fuel chunk3 s1 (failed || (mtch == negated))
      else if c = chQuestion then
        let failed1 : Bool := failed || (s.head? = some Separator)
        let s1 := if failed then s else s.drop (utf8.DecodeRuneInString s).2
        matchChunkLoop fuel chunk1 s1 failed1
      else if c = chBackslash ∧ chunk1 = [] then some ([], false, true)
      else
        -- a backslash is dropped, the byte after it is taken literally
        let chunk2 := if c = chBackslash then chunk1 else chunk
        let failed1 : Bool := failed || (chunk2.head? ≠ s.head?)
        let s1 := if failed then s else s.drop 1
        matchChunkLoop fuel chunk2.tail s1 failed1

/-- The function `matchChunk`: whether `chunk` matches the beginning of `s`, and then the
remainder of `s`. -/
def matchChunk (chunk s : GoString) : Option (GoString × Bool × Bool) :=
  matchChunkLoop (chunk.length + 1) chunk s false

/-- How the star loop of `Match` ends. -/
inductive StarResult where
  /-- `continue Pattern` with `name = t`. -/
  | found (t : GoString)
  /-- `return false, err`. -/
  | bad
  /-- The loop ran to its end. -/
  | exhausted
  deriving DecidableEq, Repr

/-- The star loop of `Match`: look for a match of `chunk` skipping `i+1` bytes of `name`,
never skipping a separator. `lastChunk` is `len(pattern) == 0`. -/
def starLoop (chunk : GoString) (lastChunk : Bool) : GoString → Option StarResult
  | [] => some .exhausted
  | c :: rest =>
    if c = Separator then some .exhausted
    else
      match matchChunk chunk rest with
      | none => none
      | some (t, ok, err) =>
        if ok then
          -- if we're the last chunk, make sure we exhausted the name
          if lastChunk ∧ t ≠ [] then starLoop chunk lastChunk rest
          else some (.found t)
        else if err then some .bad
        else starLoop chunk lastChunk rest

/-- The loop `Pattern:` of `filepath.Match`: `some (matched, err)`. When no match is found
at the current chunk the function returns `false, nil` without looking at the rest of
the pattern. -/
def matchLoop : Nat → GoString → GoString → Option (Bool × Bool)
  | 0, _, _ => none
  | fuel + 1, pattern, name =>
    if pattern = [] then some (name.isEmpty, false)
    else
      let (star, chunk, rest) := scanChunk pattern
      if star ∧ chunk = [] then
        -- Trailing * matches rest of string unless it has a /.
        some (!strings.Contains name Separator, false)
      else
        -- Look for match at current position.
        match matchChunk chunk name with
        | none => none
        | some (t, ok, err) =>
          if ok ∧ (t = [] ∨ rest ≠ []) then matchLoop fuel rest t
          else if err then some (false, true)
          else
            match (if star then starLoop chunk (rest = []) name else some .exhausted) with
            | none => none
            | some (.found t1) => matchLoop fuel rest t1
            | some .bad => some (false, true)
            | some .exhausted => some (false, false)

/-- The function `filepath.Match(pattern, name)`: `(matched, err)`, where `err` stands for
`ErrBadPattern`, the only error it returns. The error is reported only when the scan
reaches the malformed chunk, so it depends on the name as well as on the pattern. -/
def Match (pattern name : GoString) : Bool × Bool :=
  (matchLoop (pattern.length + 1) pattern name).getD (false, true)

end filepath

/-! ## main.go -/

/-- The function `splitPatterns`. -/
def splitPatterns (s : GoString) : List GoString :=
  if s = [] then []
  else (strings.Split s chComma).map strings.TrimSpace

/-- The function `matches`. -/
def «matches» (pattern fullPath fileName : GoString) : Bool :=
  if strings.Contains pattern Separator then (filepath.Match pattern fullPath).1
  else (filepath.Match pattern fileName).1

/-- The function `isIncluded`. -/
def isIncluded (relPath : GoString) (incl excl : List GoString) : Bool :=
  let fileName := filepath.Base relPath
  -- Check exclude patterns
  if excl.any (fun pattern => «matches» pattern relPath fileName) then false
  -- Include all if no include patterns
  else if incl.length = 0 then true
  -- Check include patterns
  else incl.any (fun pattern => «matches» pattern relPath fileName)

/-! ### sort -/

namespace sort

/-- The comparison `a < b` of Go strings: lexicographic by bytes. -/
def stringLess : GoString → GoString → Bool
  | [], [] => false
  | [], _ :: _ => true
  | _ :: _, [] => false
  | a :: x, b :: y => if a < b then true else if b < a then false else stringLess x y

/-- Insertion of one string into an ascending list. -/
def insertString (x : GoString) : List GoString → List GoString
  | [] => [x]
  | y :: ys => if stringLess x y then x :: y :: ys else y :: insertString x ys

/-- The function `sort.Strings`: the list in ascending order. The order is total and equal
strings are indistinguishable, so every sorting algorithm gives this list. -/
def Strings : List GoString → List GoString
  | [] => []
  | x :: xs => insertString x (Strings xs)

end sort

/-! ### The entry map `allEntries` -/

/-- The Go map `allEntries` of type `map[string]bool` (path to `isDirectory`): a list of
key/value pairs without repeated keys. The order of the list is not observable:
the program reads the map by key and by sorting its keys. -/
abbrev EntryMap := List (GoString × Bool)

/-- The assignment `allEntries[k] = v`. -/
def EntryMap.set : EntryMap → GoString → Bool → EntryMap
  | [], k, v => [(k, v)]
  | (k1, v1) :: rest, k, v => if k1 = k then (k, v) :: rest else (k1, v1) :: EntryMap.set rest k v

/-- The read `allEntries[k]`: the zero value `false` for a missing key. -/
def EntryMap.get : EntryMap → GoString → Bool
  | [], _ => false
  | (k1, v1) :: rest, k => if k1 = k then v1 else EntryMap.get rest k

/-- The keys of the map, as `for path := range allEntries` collects them (in some order). -/
def EntryMap.keys (m : EntryMap) : List GoString := m.map Prod.fst

/-! ### The walk callback -/

/-- Lines 50-57: the loop over the components of the directory part, registering every
ancestor directory; `current` is the path joined so far. -/
def recordDirs : List GoString → GoString → EntryMap → EntryMap
  | [], _, allEntries => allEntries
  | comp :: rest, current, allEntries =>
    if comp = str "." then recordDirs rest current allEntries
    else
      let current1 := filepath.Join [current, comp]
      recordDirs rest current1 (allEntries.set current1 true)

/-- Lines 47-58: what the callback does with a selected file: append it to `files` and
record its ancestors and itself in `allEntries`. -/
def recordFile (st : List GoString × EntryMap) (relPath : GoString) : List GoString × EntryMap :=
  let files := st.1 ++ [relPath]
  let dirPath := filepath.Dir relPath
  let components := strings.Split dirPath Separator
  let allEntries := recordDirs components [] st.2
  (files, allEntries.set relPath false)

/-- One call of the walk function by `filepath.Walk`. -/
structure WalkEvent where
  /-- The result of `filepath.Rel(*dir, path)`. -/
  relPath : GoString
  /-- The value of `info.IsDir()`. -/
  isDir : Bool
  /-- The walk hands in an error, or `filepath.Rel` fails. -/
  err : Bool
  deriving DecidableEq, Repr

/-- Lines 29-61: the walk over the events in order; `none` when an error aborts it,
otherwise `(files, allEntries)`. -/
def walk (incl excl : List GoString) :
    List WalkEvent → List GoString × EntryMap → Option (List GoString × EntryMap)
  | [], st => some st
  | e :: rest, st =>
    if e.err then none
    else if e.isDir then walk incl excl rest st
    else if isIncluded e.relPath incl excl = false then walk incl excl rest st
    else walk incl excl rest (recordFile st e.relPath)

/-! ### Tree and content -/

/-- Lines 80-87: the text written to `treeBuilder` for one path. -/
def renderLine (allEntries : EntryMap) (path : GoString) : GoString :=
  let depth := strings.Count path Separator
  let indent := strings.Repeat (str "    ") depth
  let name := filepath.Base path
  if allEntries.get path then indent ++ name ++ str "/\n"
  else indent ++ name ++ str "\n"

/-- Lines 72-76: the keys of the map, sorted. -/
def sortedPaths (allEntries : EntryMap) : List GoString := sort.Strings allEntries.keys

/-- Lines 78-88: the tree text, `treeBuilder.String()`. -/
def renderTree (allEntries : EntryMap) : GoString :=
  (sortedPaths allEntries).foldl (fun b path => b ++ renderLine allEntries path) []

/-- Lines 97-99: the block written to `contentBuilder` for a file that was read. -/
def contentBlock (file content : GoString) : GoString :=
  str "\n=== File: " ++ file ++ str " ===\n" ++ content ++ str "\n"

/-- Lines 90-100: the content section, `contentBuilder.String()`. `readFile` stands for
`ioutil.ReadFile`, `none` being a read error. -/
def assembleContent (readFile : GoString → Option GoString) (dir : GoString)
    (files : List GoString) : GoString :=
  files.foldl
    (fun b file =>
      match readFile (filepath.Join [dir, file]) with
      | none => b
      | some content => b ++ contentBlock file content)
    []

/-- How a run of `main` ends. -/
inductive Outcome where
  /-- Exit code 1 after "Error walking directory". -/
  | walkError
  /-- Exit code 0 after "No matching files found"; nothing is written. -/
  | noMatchingFiles
  /-- The output file is written with this content; exit code 0. -/
  | written (outputContent : GoString)
  /-- Exit code 1 after "Error writing output file". -/
  | writeError
  deriving DecidableEq, Repr

/-- The function `main` after flag parsing: `dir`, `include` and `exclude` are the flag
values, `events` what the walk visits, `readFile` and `writeOk` the file system. -/
def run (dir incl excl : GoString) (events : List WalkEvent)
    (readFile : GoString → Option GoString) (writeOk : Bool) : Outcome :=
  let includePatterns := splitPatterns incl
  let excludePatterns := splitPatterns excl
  match walk includePatterns excludePatterns events ([], []) with
  | none => .walkError
  | some (files, allEntries) =>
    if files.length = 0 then .noMatchingFiles
    else
      let outputContent :=
        renderTree allEntries ++ str "\n" ++ assembleContent readFile dir files
      if writeOk then .written outputContent else .writeError

end Codeprep

/-! ## Vocabulary of the statements -/

namespace Codeprep

/-- A name of a directory entry: non-empty, without separator, neither `.` nor `..`. -/
def validName (c : GoString) : Prop :=
  c ≠ [] ∧ Separator ∉ c ∧ c ≠ str "." ∧ c ≠ str ".."

instance : DecidablePred validName := fun c => by
  unfold validName
  infer_instance

/-- The components of the root-relative path of a file below the root, as `filepath.Rel`
gives it: at least one name, all of them valid. The path itself is
`filepath.joinSep comps`. -/
def validComps (comps : List GoString) : Prop :=
  comps ≠ [] ∧ ∀ c ∈ comps, validName c

instance : DecidablePred validComps := fun c => by
  unfold validComps
  infer_instance

/-- The final path component: what follows the last separator. -/
def lastComponent (path : GoString) : GoString :=
  ((strings.Split path Separator).getLast?).getD []

end Codeprep

namespace Codeprep

/-- The ancestor directories of the file with components `comps`: the paths of the
non-empty proper prefixes of `comps`, shortest first. -/
def ancestorDirs (comps : List GoString) : List GoString :=
  comps.dropLast.inits.tail.map filepath.joinSep

end Codeprep

namespace Codeprep

/-- The entries a selected file with components `comps` contributes to `allEntries`:
its ancestor directories as directories, then the file itself as a file. -/
def fileEntries (comps : List GoString) : List (GoString × Bool) :=
  (ancestorDirs comps).map (fun k => (k, true)) ++ [(filepath.joinSep comps, false)]

/-- The relative paths of the walked non-directory entries that `isIncluded` accepts,
in the order of the walk. -/
def selectedPaths (incl excl : List GoString) (events : List WalkEvent) : List GoString :=
  (events.filter (fun e => !e.isDir && isIncluded e.relPath incl excl)).map WalkEvent.relPath

end Codeprep

namespace Codeprep

/-- Removal of leading and trailing ASCII white space (tab, newline, vertical tab, form
feed, carriage return, space), byte by byte. -/
def trimAsciiSpace (s : GoString) : GoString :=
  ((s.dropWhile strings.asciiSpace).reverse.dropWhile strings.asciiSpace).reverse

end Codeprep

namespace Codeprep

/-- The white space code points of Unicode (property `White_Space`). -/
def whiteSpaceRunes : List Nat :=
  [0x09, 0x0A, 0x0B, 0x0C, 0x0D, 0x20, 0x85, 0xA0, 0x1680,
   0x2000, 0x2001, 0x2002, 0x2003, 0x2004, 0x2005, 0x2006, 0x2007, 0x2008, 0x2009, 0x200A,
   0x2028, 0x2029, 0x202F, 0x205F, 0x3000]

/-- A string of white space: the UTF-8 encodings of white space code points, one after
the other. -/
def isWhiteSpace (s : GoString) : Prop :=
  ∃ rs : List Nat, (∀ r ∈ rs, r ∈ whiteSpaceRunes) ∧ s = (rs.map encodeRune).flatten

end Codeprep

namespace Codeprep

/-- The string starts with a valid encoding of two to four bytes: `DecodeRuneInString`
gives a rune `w` of width `n ≥ 2`, the `n` bytes read are the encoding of `w`, all but the
first of them are continuation bytes, and the result depends on these bytes only. -/
def startsWithMultiByteRune (s : GoString) : Prop :=
  ∃ w n, 2 ≤ n ∧ n ≤ s.length ∧ utf8.DecodeRuneInString s = (w, n) ∧
    encodeRune w = s.take n ∧
    (∀ b ∈ (s.take n).tail, 0x80 ≤ b.val ∧ b.val ≤ 0xBF) ∧
    ∀ rest, utf8.DecodeRuneInString (s.take n ++ rest) = (w, n)

end Codeprep

namespace Codeprep

/-- The exit code of the process: 1 after `os.Exit(1)` on a walk or write error, 0 after
`os.Exit(0)` on an empty selection and when `main` returns. -/
def Outcome.exitCode : Outcome → Nat
  | .walkError => 1
  | .noMatchingFiles => 0
  | .written _ => 0
  | .writeError => 1

/-- The parent path: the path without its final component and the separator before it. -/
def parentPath (path : GoString) : GoString :=
  ((path.reverse.dropWhile (fun b => b ≠ Separator)).drop 1).reverse

/-- A pattern built from literal characters, `*` and `?` only: it has no `[` and no
backslash. -/
def plainPattern (pattern : GoString) : Prop :=
  chLBracket ∉ pattern ∧ chBackslash ∉ pattern

instance : DecidablePred plainPattern := fun p => by
  unfold plainPattern
  infer_instance

/-- A string made only of white space and commas: the UTF-8 encodings of white space code
points and of commas, one after the other. -/
def isWhiteSpaceOrComma (s : GoString) : Prop :=
  ∃ rs : List Nat, (∀ r ∈ rs, r ∈ whiteSpaceRunes ∨ r = 0x2C) ∧ s = (rs.map encodeRune).flatten

end Codeprep

namespace Codeprep

/-- The syntax check of a pattern, chunk by chunk: `some true` when `matchChunk` reports
`ErrBadPattern` for one of the chunks that `scanChunk` cuts the pattern into, `some false`
when it reports it for none. The chunks are read against the empty string, on which
`matchChunk` parses the whole chunk without reading a name. -/
def syntaxCheck : Nat → GoString → Option Bool
  | 0, _ => none
  | fuel + 1, pattern =>
    if pattern = [] then some false
    else
      let (_, chunk, rest) := filepath.scanChunk pattern
      match filepath.matchChunk chunk [] with
      | none => none
      | some (_, _, err) => if err then some true else syntaxCheck fuel rest

/-- A malformed pattern: one of its chunks is not well formed (a bracket expression that
is not closed or has a bad range, or a backslash at the end). -/
def malformedPattern (pattern : GoString) : Prop :=
  syntaxCheck (pattern.length + 1) pattern = some true

instance : DecidablePred malformedPattern := fun p => by
  unfold malformedPattern
  infer_instance

end Codeprep

/-! ## The selection policy -/

namespace Codeprep

/-- C1: exclude always wins. If some pattern of the exclude list matches the path (or its
base name), `isIncluded` is false, whatever the include list is. -/
theorem exclude_always_wins (x : GoString) (inc exc : List GoString) (p : GoString)
    (hp : p ∈ exc) (hm : «matches» p x (filepath.Base x) = true) :
    isIncluded x inc exc = false := by
  have h : exc.any (fun pattern => «matches» pattern x (filepath.Base x)) = true :=
    List.any_eq_true.mpr ⟨p, hp, hm⟩
  simp [isIncluded, h]

/-- C1 at `src/main.go`, include `*.go`, exclude `*.md,src/*`: the include pattern
matches too, and the file is not selected. -/
theorem exclude_always_wins_witness :
    str "src/*" ∈ [str "*.md", str "src/*"] ∧
    «matches» (str "src/*") (str "src/main.go") (filepath.Base (str "src/main.go")) = true ∧
    «matches» (str "*.go") (str "src/main.go") (filepath.Base (str "src/main.go")) = true ∧
    isIncluded (str "src/main.go") [str "*.go"] [str "*.md", str "src/*"] = false :=
  ⟨by decide, by decide, by decide,
    exclude_always_wins (str "src/main.go") [str "*.go"] [str "*.md", str "src/*"] (str "src/*")
      (by decide) (by decide)⟩

/-- C2: default include-everything. With an empty include list a path that no exclude
pattern matches is selected. -/
theorem include_everything_by_default (x : GoString) (exc : List GoString)
    (hexc : ∀ p ∈ exc, «matches» p x (filepath.Base x) = false) :
    isIncluded x [] exc = true := by
  have h : exc.any (fun pattern => «matches» pattern x (filepath.Base x)) = false := by
    rw [List.any_eq_false]
    intro p hp
    simp [hexc p hp]
  simp [isIncluded, h]

/-- C2 at `src/main.go` with exclude `*.md,docs/*`. -/
theorem include_everything_by_default_witness :
    (∀ p ∈ [str "*.md", str "docs/*"],
      «matches» p (str "src/main.go") (filepath.Base (str "src/main.go")) = false) ∧
    isIncluded (str "src/main.go") [] [str "*.md", str "docs/*"] = true :=
  ⟨by decide, include_everything_by_default (str "src/main.go") [str "*.md", str "docs/*"] (by decide)⟩

/-- A walk whose entries are all rejected by `isIncluded` (and that meets no error)
leaves `files` and `allEntries` as they were. -/
theorem walk_nothing_selected (inc exc : List GoString) (events : List WalkEvent)
    (st : List GoString × EntryMap)
    (h : ∀ e ∈ events, isIncluded e.relPath inc exc = false)
    (r : List GoString × EntryMap) (hr : walk inc exc events st = some r) : r = st := by
  induction events with
  | nil => simpa [walk] using hr.symm
  | cons e rest ih =>
    have he := h e (List.mem_cons_self _ _)
    have hrest : ∀ e1 ∈ rest, isIncluded e1.relPath inc exc = false :=
      fun e1 h1 => h e1 (List.mem_cons_of_mem _ h1)
    unfold walk at hr
    by_cases herr : e.err = true
    · simp [herr] at hr
    · by_cases hdir : e.isDir = true
      · simp [herr, hdir] at hr
        exact ih hrest hr
      · simp [herr, hdir, he] at hr
        exact ih hrest hr

/-- C3: with a non-empty include list, `isIncluded` is true exactly when no exclude
pattern matches and some include pattern matches; when no include pattern matches it is
false, and a walk over files none of which an include pattern matches selects no file. -/
theorem isIncluded_nonempty_include (x : GoString) (inc exc : List GoString) (hinc : inc ≠ []) :
    (isIncluded x inc exc = true ↔
      (∀ p ∈ exc, «matches» p x (filepath.Base x) = false) ∧
      ∃ p ∈ inc, «matches» p x (filepath.Base x) = true) ∧
    ((∀ p ∈ inc, «matches» p x (filepath.Base x) = false) → isIncluded x inc exc = false) ∧
    (∀ events : List WalkEvent,
      (∀ e ∈ events, ∀ p ∈ inc, «matches» p e.relPath (filepath.Base e.relPath) = false) →
      ∀ r, walk inc exc events ([], []) = some r → r.1 = []) := by
  have hlen : inc.length ≠ 0 := fun h => hinc (List.length_eq_zero.mp h)
  have key : ∀ y : GoString, (∀ p ∈ inc, «matches» p y (filepath.Base y) = false) →
      isIncluded y inc exc = false := by
    intro y hy
    have h2 : inc.any (fun pattern => «matches» pattern y (filepath.Base y)) = false := by
      rw [List.any_eq_false]
      intro p hp
      simp [hy p hp]
    unfold isIncluded
    by_cases h1 : exc.any (fun pattern => «matches» pattern y (filepath.Base y)) = true
    · simp [h1]
    · simp [h1, hlen, h2]
  refine ⟨?_, key x, ?_⟩
  · unfold isIncluded
    by_cases h1 : exc.any (fun pattern => «matches» pattern x (filepath.Base x)) = true
    · have h1c := h1
      rw [List.any_eq_true] at h1
      obtain ⟨q, hq, hqm⟩ := h1
      simp only [h1c, if_true]
      constructor
      · intro h; cases h
      · rintro ⟨hall, -⟩
        rw [hall q hq] at hqm
        cases hqm
    · have h1f : exc.any (fun pattern => «matches» pattern x (filepath.Base x)) = false := by
        simpa using h1
      have hall : ∀ p ∈ exc, «matches» p x (filepath.Base x) = false := by
        rw [List.any_eq_false] at h1f
        intro p hp
        simpa using h1f p hp
      simp only [h1f, hlen, if_false, Bool.false_eq_true]
      rw [List.any_eq_true]
      constructor
      · intro h; exact ⟨hall, h⟩
      · rintro ⟨-, h⟩; exact h
  · intro events hev r hr
    have := walk_nothing_selected inc exc events ([], [])
      (fun e he => key e.relPath (hev e he)) r hr
    rw [this]

/-- C3 at `src/main.go`, include `*.go`, exclude `*.md`. -/
theorem isIncluded_nonempty_include_witness :
    [str "*.go"] ≠ [] ∧
    (isIncluded (str "src/main.go") [str "*.go"] [str "*.md"] = true ↔
      (∀ p ∈ [str "*.md"], «matches» p (str "src/main.go") (filepath.Base (str "src/main.go")) = false) ∧
      ∃ p ∈ [str "*.go"], «matches» p (str "src/main.go") (filepath.Base (str "src/main.go")) = true) :=
  ⟨by decide, (isIncluded_nonempty_include (str "src/main.go") [str "*.go"] [str "*.md"] (by decide)).1⟩

/-- The base name of `d/name` is `name`, for a non-empty `name` without separator. -/
theorem Base_append_sep (d name : GoString) (hne : name ≠ []) (hns : Separator ∉ name) :
    filepath.Base (d ++ Separator :: name) = name := by
  have hrev : (d ++ Separator :: name).reverse = name.reverse ++ Separator :: d.reverse := by
    simp
  have hne2 : name.reverse ≠ [] := by simpa using hne
  obtain ⟨c, t, hct⟩ := List.exists_cons_of_ne_nil hne2
  have hc : c ≠ Separator := by
    intro h
    apply hns
    have : c ∈ name.reverse := by rw [hct]; exact List.mem_cons_self _ _
    rw [← h]
    exact List.mem_reverse.mp this
  have hall : ∀ b ∈ name.reverse, (fun b : Byte => decide (b ≠ Separator)) b = true := by
    intro b hb
    have : b ≠ Separator := fun h => hns (h ▸ List.mem_reverse.mp hb)
    simpa using this
  unfold filepath.Base
  have h0 : d ++ Separator :: name ≠ [] := by simp
  rw [if_neg h0]
  simp only [hrev]
  have hdrop : (name.reverse ++ Separator :: d.reverse).dropWhile (fun b => decide (b = Separator))
      = name.reverse ++ Separator :: d.reverse := by
    rw [hct]
    simp [List.dropWhile, hc]
  rw [hdrop]
  rw [List.reverse_reverse, List.takeWhile_append_of_pos hall]
  simp [List.takeWhile, hne]

/-- C4: a pattern without separator is matched against the base name only, a pattern with
a separator against the whole relative path. So `*.go` matches `main.go` under every
directory prefix `d`, and `src/*.go` matches `src/main.go` but not `lib/main.go`. -/
theorem name_only_and_path_patterns :
    (∀ p full name : GoString, «matches» p full name =
      (filepath.Match p (if strings.Contains p Separator then full else name)).1) ∧
    «matches» (str "*.go") (str "main.go") (filepath.Base (str "main.go")) = true ∧
    (∀ d : GoString, filepath.Base (d ++ str "/main.go") = str "main.go" ∧
      «matches» (str "*.go") (d ++ str "/main.go") (filepath.Base (d ++ str "/main.go")) = true) ∧
    «matches» (str "*.go") (str "src/main.go") (filepath.Base (str "src/main.go")) = true ∧
    «matches» (str "*.go") (str "a/b/c/main.go") (filepath.Base (str "a/b/c/main.go")) = true ∧
    «matches» (str "src/*.go") (str "src/main.go") (filepath.Base (str "src/main.go")) = true ∧
    «matches» (str "src/*.go") (str "lib/main.go") (filepath.Base (str "lib/main.go")) = false := by
  refine ⟨?_, by decide, ?_, by decide, by decide, by decide, by decide⟩
  · intro p full name
    unfold «matches»
    split <;> rfl
  · intro d
    have hs : str "/main.go" = Separator :: str "main.go" := by decide
    have hb : filepath.Base (d ++ str "/main.go") = str "main.go" := by
      rw [hs]
      exact Base_append_sep d (str "main.go") (by decide) (by decide)
    refine ⟨hb, ?_⟩
    rw [hb]
    have hc : strings.Contains (str "*.go") Separator = false := by decide
    unfold «matches»
    rw [hc]
    simp only [Bool.false_eq_true, if_false]
    decide

end Codeprep

/-! ## The loops of `filepath.Match` end within their budget -/

namespace Codeprep

/-- The first rune of a non-empty string is one to four bytes wide. -/
theorem DecodeRuneInString_width (s : GoString) (hs : s ≠ []) :
    1 ≤ (utf8.DecodeRuneInString s).2 ∧ (utf8.DecodeRuneInString s).2 ≤ 4 := by
  cases s with
  | nil => exact absurd rfl hs
  | cons s0 t =>
    unfold utf8.DecodeRuneInString
    simp only []
    split_ifs <;> simp

/-- A call of `getEsc` without error consumes at least one byte of the chunk. -/
theorem getEsc_shorter (chunk : GoString) (r : Nat) (nchunk : GoString)
    (h : filepath.getEsc chunk = (r, nchunk, false)) : nchunk.length < chunk.length := by
  cases chunk with
  | nil => simp [filepath.getEsc] at h
  | cons c rest =>
    unfold filepath.getEsc at h
    simp only [] at h
    by_cases h1 : c = chDash ∨ c = chRBracket
    · simp [h1] at h
    · rw [if_neg h1] at h
      by_cases h2 : c = chBackslash ∧ rest = []
      · simp [h2] at h
      · rw [if_neg h2] at h
        by_cases h3 : c = chBackslash
        · have hw := (DecodeRuneInString_width rest (fun hr => h2 ⟨h3, hr⟩)).1
          rw [if_pos h3] at h
          simp only [Prod.mk.injEq] at h
          obtain ⟨-, rfl, -⟩ := h
          simp only [List.length_drop, List.length_cons]
          omega
        · have hw := (DecodeRuneInString_width (c :: rest) (by simp)).1
          rw [if_neg h3] at h
          simp only [Prod.mk.injEq] at h
          obtain ⟨-, rfl, -⟩ := h
          simp only [List.length_drop, List.length_cons]
          omega


/-- The range loop of a character class ends within a budget above the length of the
chunk, and leaves no more of the chunk than it was given. -/
theorem classLoop_total (r : Nat) (fuel : Nat) :
    ∀ (chunk : GoString) (m : Bool) (k : Nat), chunk.length < fuel →
      ∃ res, filepath.classLoop r fuel chunk m k = some res ∧ res.1.length ≤ chunk.length := by
  induction fuel with
  | zero => intro chunk m k h; omega
  | succ fuel ih =>
    intro chunk m k hlen
    unfold filepath.classLoop
    by_cases h1 : chunk.head? = some chRBracket ∧ 0 < k
    · rw [if_pos h1]
      exact ⟨_, rfl, by simp⟩
    · rw [if_neg h1]
      generalize hg : filepath.getEsc chunk = g
      obtain ⟨lo, chunk1, err1⟩ := g
      simp only []
      cases err1 with
      | true => exact ⟨([], false, true), by simp, by simp⟩
      | false =>
        have hs1 := getEsc_shorter chunk lo chunk1 hg
        simp only [Bool.false_eq_true, if_false]
        by_cases h2 : chunk1.head? = some chDash
        · rw [if_pos h2]
          generalize hg2 : filepath.getEsc chunk1.tail = g2
          obtain ⟨hi, chunk2, err2⟩ := g2
          simp only []
          cases err2 with
          | true => exact ⟨([], false, true), by simp, by simp⟩
          | false =>
            have hs2 := getEsc_shorter chunk1.tail hi chunk2 hg2
            simp only [Bool.false_eq_true, if_false]
            have hl : chunk1.tail.length ≤ chunk1.length := by simp
            obtain ⟨res, hres, hle⟩ := ih chunk2
              (m || (decide (lo ≤ r) && decide (r ≤ hi))) (k + 1) (by omega)
            exact ⟨res, hres, by omega⟩
        · rw [if_neg h2]
          obtain ⟨res, hres, hle⟩ := ih chunk1
            (m || (decide (lo ≤ r) && decide (r ≤ lo))) (k + 1) (by omega)
          exact ⟨res, hres, by omega⟩

/-- Where the range loop of a character class stops, and whether it reports a bad pattern,
does not depend on the rune that is matched. -/
theorem classLoop_indep (r r2 : Nat) (fuel : Nat) :
    ∀ (chunk : GoString) (m m2 : Bool) (k : Nat) (c3 : GoString) (m1 e : Bool),
      filepath.classLoop r fuel chunk m k = some (c3, m1, e) →
      ∃ m3, filepath.classLoop r2 fuel chunk m2 k = some (c3, m3, e) := by
  induction fuel with
  | zero => intro chunk m m2 k c3 m1 e h; simp [filepath.classLoop] at h
  | succ fuel ih =>
    intro chunk m m2 k c3 m1 e h
    unfold filepath.classLoop at h ⊢
    by_cases h1 : chunk.head? = some chRBracket ∧ 0 < k
    · rw [if_pos h1] at h ⊢
      simp only [Option.some.injEq, Prod.mk.injEq] at h
      obtain ⟨rfl, -, rfl⟩ := h
      exact ⟨_, rfl⟩
    · rw [if_neg h1] at h ⊢
      generalize hg : filepath.getEsc chunk = g at h ⊢
      obtain ⟨lo, chunk1, err1⟩ := g
      simp only [] at h ⊢
      cases err1 with
      | true =>
        simp only [if_true, Option.some.injEq, Prod.mk.injEq] at h ⊢
        obtain ⟨rfl, -, rfl⟩ := h
        exact ⟨false, rfl, rfl, rfl⟩
      | false =>
        simp only [Bool.false_eq_true, if_false] at h ⊢
        by_cases h2 : chunk1.head? = some chDash
        · rw [if_pos h2] at h ⊢
          generalize hg2 : filepath.getEsc chunk1.tail = g2 at h ⊢
          obtain ⟨hi, chunk2, err2⟩ := g2
          simp only [] at h ⊢
          cases err2 with
          | true =>
            simp only [if_true, Option.some.injEq, Prod.mk.injEq] at h ⊢
            obtain ⟨rfl, -, rfl⟩ := h
            exact ⟨false, rfl, rfl, rfl⟩
          | false =>
            simp only [Bool.false_eq_true, if_false] at h ⊢
            exact ih chunk2 _ _ (k + 1) c3 m1 e h
        · rw [if_neg h2] at h ⊢
          exact ih chunk1 _ _ (k + 1) c3 m1 e h


/-- The loop of `matchChunk` ends within a budget above the length of the chunk. -/
theorem matchChunkLoop_total (fuel : Nat) :
    ∀ (chunk s : GoString) (failed : Bool), chunk.length < fuel →
      ∃ res, filepath.matchChunkLoop fuel chunk s failed = some res := by
  induction fuel with
  | zero => intro chunk s failed h; omega
  | succ fuel ih =>
    intro chunk s failed hlen
    cases chunk with
    | nil => exact ⟨if failed = true then ([], false, false) else (s, true, false), by simp only [filepath.matchChunkLoop]⟩
    | cons c chunk1 =>
      have hl1 : chunk1.length < fuel := by simpa using hlen
      unfold filepath.matchChunkLoop
      simp only []
      by_cases h1 : c = chLBracket
      · rw [if_pos h1]
        generalize hc2 : (if (decide (chunk1.head? = some chCaret)) = true then chunk1.tail
          else chunk1) = chunk2
        have hl2 : chunk2.length ≤ chunk1.length := by
          rw [← hc2]; split <;> simp
        generalize (if (failed || s.isEmpty) = true then 0 else (utf8.DecodeRuneInString s).1) = r
        obtain ⟨res, hres, hle⟩ := classLoop_total r (chunk2.length + 1) chunk2 false 0 (by omega)
        obtain ⟨chunk3, mtch, err⟩ := res
        rw [hres]
        simp only []
        cases err with
        | true => exact ⟨([], false, true), by simp⟩
        | false =>
          simp only [Bool.false_eq_true, if_false]
          exact ih chunk3 _ _ (by simp only [] at hle; omega)
      · rw [if_neg h1]
        by_cases h2 : c = chQuestion
        · rw [if_pos h2]
          exact ih chunk1 _ _ hl1
        · rw [if_neg h2]
          by_cases h3 : c = chBackslash ∧ chunk1 = []
          · rw [if_pos h3]
            exact ⟨_, rfl⟩
          · rw [if_neg h3]
            apply ih
            split
            · have : chunk1.tail.length ≤ chunk1.length := by simp
              omega
            · simpa using hl1

/-- The function `matchChunk` returns on every input. -/
theorem matchChunk_total (chunk s : GoString) :
    ∃ res, filepath.matchChunk chunk s = some res :=
  matchChunkLoop_total (chunk.length + 1) chunk s false (Nat.lt_succ_self _)

/-- Whether `matchChunk` reports a bad pattern depends on the chunk only, not on the
string it is matched against. -/
theorem matchChunkLoop_err_indep (fuel : Nat) :
    ∀ (chunk s s2 : GoString) (failed failed2 : Bool) (t : GoString) (ok e : Bool),
      filepath.matchChunkLoop fuel chunk s failed = some (t, ok, e) →
      ∃ t2 ok2, filepath.matchChunkLoop fuel chunk s2 failed2 = some (t2, ok2, e) := by
  induction fuel with
  | zero => intro chunk s s2 failed failed2 t ok e h; simp [filepath.matchChunkLoop] at h
  | succ fuel ih =>
    intro chunk s s2 failed failed2 t ok e h
    cases chunk with
    | nil =>
      simp only [filepath.matchChunkLoop, Option.some.injEq] at h ⊢
      have he : e = false := by
        cases failed <;> simp at h <;> exact h.2.2
      subst he
      cases failed2 <;> simp
    | cons c chunk1 =>
      unfold filepath.matchChunkLoop at h ⊢
      simp only [] at h ⊢
      by_cases h1 : c = chLBracket
      · rw [if_pos h1] at h ⊢
        generalize hc2 : (if (decide (chunk1.head? = some chCaret)) = true then chunk1.tail
          else chunk1) = chunk2 at h ⊢
        generalize (if (failed || s.isEmpty) = true then 0 else (utf8.DecodeRuneInString s).1) = r
          at h
        generalize (if (failed2 || s2.isEmpty) = true then 0 else (utf8.DecodeRuneInString s2).1)
          = r2
        cases hcl : filepath.classLoop r (chunk2.length + 1) chunk2 false 0 with
        | none => rw [hcl] at h; simp at h
        | some res =>
          obtain ⟨chunk3, mtch, err⟩ := res
          obtain ⟨m3, hm3⟩ := classLoop_indep r r2 _ chunk2 false false 0 chunk3 mtch err hcl
          rw [hcl] at h
          rw [hm3]
          simp only [] at h ⊢
          cases err with
          | true =>
            simp only [if_true, Option.some.injEq, Prod.mk.injEq] at h ⊢
            obtain ⟨-, -, rfl⟩ := h
            exact ⟨_, _, rfl, rfl, rfl⟩
          | false =>
            simp only [Bool.false_eq_true, if_false] at h ⊢
            exact ih chunk3 _ _ _ _ t ok e h
      · rw [if_neg h1] at h ⊢
        by_cases h2 : c = chQuestion
        · rw [if_pos h2] at h ⊢
          exact ih chunk1 _ _ _ _ t ok e h
        · rw [if_neg h2] at h ⊢
          by_cases h3 : c = chBackslash ∧ chunk1 = []
          · rw [if_pos h3] at h ⊢
            simp only [Option.some.injEq, Prod.mk.injEq] at h ⊢
            obtain ⟨-, -, rfl⟩ := h
            exact ⟨_, _, rfl, rfl, rfl⟩
          · rw [if_neg h3] at h ⊢
            exact ih _ _ _ _ _ t ok e h

/-- A successful `matchChunk` reports no error. -/
theorem matchChunkLoop_ok_no_err (fuel : Nat) :
    ∀ (chunk s : GoString) (failed : Bool) (t : GoString) (e : Bool),
      filepath.matchChunkLoop fuel chunk s failed = some (t, true, e) → e = false := by
  induction fuel with
  | zero => intro chunk s failed t e h; simp [filepath.matchChunkLoop] at h
  | succ fuel ih =>
    intro chunk s failed t e h
    cases chunk with
    | nil =>
      simp only [filepath.matchChunkLoop, Option.some.injEq] at h
      cases failed <;> simp at h
      exact h.2
    | cons c chunk1 =>
      unfold filepath.matchChunkLoop at h
      simp only [] at h
      by_cases h1 : c = chLBracket
      · rw [if_pos h1] at h
        split at h
        · simp at h
        · rename_i chunk3 mtch err hcl
          cases err with
          | true => simp at h
          | false =>
            simp only [Bool.false_eq_true, if_false] at h
            exact ih _ _ _ t e h
      · rw [if_neg h1] at h
        by_cases h2 : c = chQuestion
        · rw [if_pos h2] at h
          exact ih _ _ _ t e h
        · rw [if_neg h2] at h
          by_cases h3 : c = chBackslash ∧ chunk1 = []
          · rw [if_pos h3] at h
            simp at h
          · rw [if_neg h3] at h
            exact ih _ _ _ t e h


/-- The scan loop of `scanChunk` splits the pattern in two. -/
theorem scanSplit_append (n : Nat) :
    ∀ (b : Bool) (p : GoString), p.length ≤ n →
      (filepath.scanSplit b p).1 ++ (filepath.scanSplit b p).2 = p := by
  induction n with
  | zero =>
    intro b p h
    have : p = [] := List.length_eq_zero.mp (by omega)
    subst this
    simp [filepath.scanSplit]
  | succ n ih =>
    intro b p h
    cases p with
    | nil => simp [filepath.scanSplit]
    | cons c cs =>
      have hcs : cs.length ≤ n := by simpa using h
      unfold filepath.scanSplit
      by_cases h1 : c = chBackslash
      · rw [if_pos h1]
        cases cs with
        | nil => simp
        | cons d ds =>
          have hds : ds.length ≤ n := by simp at hcs; omega
          simp only [List.cons_append, ih b ds hds]
      · rw [if_neg h1]
        by_cases h2 : c = chLBracket
        · rw [if_pos h2]
          simp only [List.cons_append, ih true cs hcs]
        · rw [if_neg h2]
          by_cases h3 : c = chRBracket
          · rw [if_pos h3]
            simp only [List.cons_append, ih false cs hcs]
          · rw [if_neg h3]
            by_cases h4 : c = chStar ∧ b = false
            · rw [if_pos h4]
              simp
            · rw [if_neg h4]
              simp only [List.cons_append, ih b cs hcs]

/-- A pattern that does not start with a star has a non-empty first chunk. -/
theorem scanSplit_nonempty (c : Byte) (cs : GoString) (hc : c ≠ chStar) :
    (filepath.scanSplit false (c :: cs)).1 ≠ [] := by
  unfold filepath.scanSplit
  by_cases h1 : c = chBackslash
  · rw [if_pos h1]
    cases cs <;> simp
  · rw [if_neg h1]
    by_cases h2 : c = chLBracket
    · rw [if_pos h2]; simp
    · rw [if_neg h2]
      by_cases h3 : c = chRBracket
      · rw [if_pos h3]; simp
      · rw [if_neg h3]
        rw [if_neg (fun h => hc h.1)]
        simp

/-- After the leading stars are stripped the pattern does not start with a star. -/
theorem dropWhile_star_head (p : GoString) :
    (p.dropWhile (fun b => decide (b = chStar))).head? ≠ some chStar := by
  induction p with
  | nil => simp
  | cons c cs ih =>
    by_cases h : c = chStar
    · simp only [List.dropWhile_cons, h, decide_True, if_true]
      exact ih
    · simp [List.dropWhile_cons, h]

/-- The function `scanChunk` consumes at least one byte of a non-empty pattern. -/
theorem scanChunk_shorter (pattern : GoString) (h : pattern ≠ []) :
    (filepath.scanChunk pattern).2.2.length < pattern.length := by
  unfold filepath.scanChunk
  simp only []
  have hhead := dropWhile_star_head pattern
  have hdl : (pattern.dropWhile (fun b => decide (b = chStar))).length ≤ pattern.length :=
    (List.dropWhile_sublist _).length_le
  generalize pattern.dropWhile (fun b => decide (b = chStar)) = q at hhead hdl ⊢
  have hlen := congrArg List.length (scanSplit_append _ false q (le_refl _))
  rw [List.length_append] at hlen
  cases q with
  | nil =>
    have : 0 < pattern.length := List.length_pos.mpr h
    simp only [List.length_nil] at hlen
    omega
  | cons c cs =>
    have hc : c ≠ chStar := by simpa using hhead
    have hpos : 0 < (filepath.scanSplit false (c :: cs)).1.length :=
      List.length_pos.mpr (scanSplit_nonempty c cs hc)
    omega

/-- The syntax check of a pattern ends within a budget above its length. -/
theorem syntaxCheck_total (fuel : Nat) :
    ∀ (p : GoString), p.length < fuel → ∃ v, syntaxCheck fuel p = some v := by
  induction fuel with
  | zero => intro p h; omega
  | succ fuel ih =>
    intro p h
    unfold syntaxCheck
    by_cases hp : p = []
    · rw [if_pos hp]; exact ⟨_, rfl⟩
    · rw [if_neg hp]
      have hs := scanChunk_shorter p hp
      generalize filepath.scanChunk p = sc at hs ⊢
      obtain ⟨star, chunk, rest⟩ := sc
      simp only [] at hs ⊢
      obtain ⟨res, hres⟩ := matchChunk_total chunk []
      obtain ⟨t, ok, err⟩ := res
      rw [hres]
      simp only []
      cases err with
      | true => exact ⟨true, by simp⟩
      | false =>
        simp only [Bool.false_eq_true, if_false]
        exact ih rest (by omega)

/-- A larger budget does not change the result of the syntax check. -/
theorem syntaxCheck_mono (fuel : Nat) :
    ∀ (p : GoString) (v : Bool) (fuel2 : Nat), syntaxCheck fuel p = some v →
      fuel ≤ fuel2 → syntaxCheck fuel2 p = some v := by
  induction fuel with
  | zero => intro p v fuel2 h; simp [syntaxCheck] at h
  | succ fuel ih =>
    intro p v fuel2 h hle
    obtain ⟨k, rfl⟩ : ∃ k, fuel2 = k + 1 := ⟨fuel2 - 1, by omega⟩
    unfold syntaxCheck at h ⊢
    by_cases hp : p = []
    · rw [if_pos hp] at h ⊢; exact h
    · rw [if_neg hp] at h ⊢
      generalize filepath.scanChunk p = sc at h ⊢
      obtain ⟨star, chunk, rest⟩ := sc
      simp only [] at h ⊢
      cases hmc : filepath.matchChunk chunk [] with
      | none => rw [hmc] at h; simp at h
      | some res =>
        obtain ⟨t, ok, err⟩ := res
        rw [hmc] at h
        simp only [] at h ⊢
        cases err with
        | true => simpa using h
        | false =>
          simp only [Bool.false_eq_true, if_false] at h ⊢
          exact ih rest v k h (by omega)


/-- An empty chunk is the last one: nothing of the pattern follows it. -/
theorem scanChunk_empty_chunk (pattern : GoString)
    (h : (filepath.scanChunk pattern).2.1 = []) : (filepath.scanChunk pattern).2.2 = [] := by
  unfold filepath.scanChunk at h ⊢
  simp only [] at h ⊢
  have hhead := dropWhile_star_head pattern
  generalize pattern.dropWhile (fun b => decide (b = chStar)) = q at hhead h ⊢
  cases q with
  | nil => simp [filepath.scanSplit]
  | cons c cs =>
    have hc : c ≠ chStar := by simpa using hhead
    exact absurd h (scanSplit_nonempty c cs hc)

/-- The star loop of `Match` ends on every name. -/
theorem starLoop_total (chunk : GoString) (last : Bool) :
    ∀ name : GoString, ∃ r, filepath.starLoop chunk last name = some r := by
  intro name
  induction name with
  | nil => exact ⟨_, rfl⟩
  | cons c rest ih =>
    unfold filepath.starLoop
    by_cases h1 : c = Separator
    · rw [if_pos h1]; exact ⟨_, rfl⟩
    · rw [if_neg h1]
      obtain ⟨res, hres⟩ := matchChunk_total chunk rest
      obtain ⟨t, ok, err⟩ := res
      rw [hres]
      simp only []
      cases ok with
      | true =>
        simp only [if_true]
        split
        · exact ih
        · exact ⟨_, rfl⟩
      | false =>
        simp only [Bool.false_eq_true, if_false]
        cases err with
        | true => exact ⟨.bad, by simp⟩
        | false => simpa using ih

/-- The star loop reports a bad pattern only when `matchChunk` does. -/
theorem starLoop_bad (chunk : GoString) (last : Bool) :
    ∀ name : GoString, filepath.starLoop chunk last name = some .bad →
      ∃ s t ok, filepath.matchChunk chunk s = some (t, ok, true) := by
  intro name
  induction name with
  | nil => intro h; simp [filepath.starLoop] at h
  | cons c rest ih =>
    intro h
    unfold filepath.starLoop at h
    by_cases h1 : c = Separator
    · rw [if_pos h1] at h; simp at h
    · rw [if_neg h1] at h
      cases hmc : filepath.matchChunk chunk rest with
      | none => rw [hmc] at h; simp at h
      | some res =>
        obtain ⟨t, ok, err⟩ := res
        rw [hmc] at h
        simp only [] at h
        cases ok with
        | true =>
          simp only [if_true] at h
          split at h
          · exact ih h
          · simp at h
        | false =>
          simp only [Bool.false_eq_true, if_false] at h
          cases err with
          | true => exact ⟨rest, t, false, hmc⟩
          | false =>
            simp only [Bool.false_eq_true, if_false] at h
            exact ih h

/-- Whether `matchChunk` reports a bad pattern does not depend on the string. -/
theorem matchChunk_err_indep (chunk s s2 t : GoString) (ok e : Bool)
    (h : filepath.matchChunk chunk s = some (t, ok, e)) :
    ∃ t2 ok2, filepath.matchChunk chunk s2 = some (t2, ok2, e) :=
  matchChunkLoop_err_indep _ chunk s s2 false false t ok e h

/-- The loop of `Match` ends within a budget above the length of the pattern. -/
theorem matchLoop_total (fuel : Nat) :
    ∀ (p name : GoString), p.length < fuel → ∃ r, filepath.matchLoop fuel p name = some r := by
  induction fuel with
  | zero => intro p name h; omega
  | succ fuel ih =>
    intro p name h
    unfold filepath.matchLoop
    by_cases hp : p = []
    · rw [if_pos hp]; exact ⟨_, rfl⟩
    · rw [if_neg hp]
      have hs := scanChunk_shorter p hp
      generalize filepath.scanChunk p = sc at hs ⊢
      obtain ⟨star, chunk, rest⟩ := sc
      simp only [] at hs ⊢
      have hrest : rest.length < fuel := by omega
      by_cases h1 : star = true ∧ chunk = []
      · rw [if_pos h1]; exact ⟨_, rfl⟩
      · rw [if_neg h1]
        obtain ⟨res, hres⟩ := matchChunk_total chunk name
        obtain ⟨t, ok, err⟩ := res
        rw [hres]
        simp only []
        by_cases h2 : ok = true ∧ (t = [] ∨ rest ≠ [])
        · rw [if_pos h2]; exact ih rest t hrest
        · rw [if_neg h2]
          cases err with
          | true => exact ⟨(false, true), by simp⟩
          | false =>
            simp only [Bool.false_eq_true, if_false]
            cases star with
            | false =>
              simp only [Bool.false_eq_true, if_false]
              exact ⟨_, rfl⟩
            | true =>
              simp only [if_true]
              obtain ⟨sr, hsr⟩ := starLoop_total chunk (decide (rest = [])) name
              rw [hsr]
              cases sr with
              | found t1 => exact ih rest t1 hrest
              | bad => exact ⟨_, rfl⟩
              | exhausted => exact ⟨_, rfl⟩

/-- What `filepath.Match` reports is in step with the syntax check of the pattern: an error
is reported only for a pattern that fails the check, and a match is found only for a
pattern that passes it, and comes without error. -/
theorem matchLoop_syntaxCheck (fuel : Nat) :
    ∀ (p name : GoString) (b e : Bool), p.length < fuel →
      filepath.matchLoop fuel p name = some (b, e) →
      (e = true → syntaxCheck fuel p = some true) ∧
      (b = true → syntaxCheck fuel p = some false ∧ e = false) := by
  induction fuel with
  | zero => intro p name b e h; omega
  | succ fuel ih =>
    intro p name b e hlen h
    unfold filepath.matchLoop at h
    unfold syntaxCheck
    by_cases hp : p = []
    · rw [if_pos hp] at h ⊢
      simp only [Option.some.injEq, Prod.mk.injEq] at h
      obtain ⟨-, rfl⟩ := h
      simp
    · rw [if_neg hp] at h ⊢
      have hs := scanChunk_shorter p hp
      have hempty := scanChunk_empty_chunk p
      generalize filepath.scanChunk p = sc at hs hempty h ⊢
      obtain ⟨star, chunk, rest⟩ := sc
      simp only [] at hs hempty h ⊢
      have hrest : rest.length < fuel := by omega
      by_cases h1 : star = true ∧ chunk = []
      · rw [if_pos h1] at h
        simp only [Option.some.injEq, Prod.mk.injEq] at h
        obtain ⟨-, rfl⟩ := h
        have hr := hempty h1.2
        subst hr
        rw [h1.2]
        obtain ⟨k, rfl⟩ : ∃ k, fuel = k + 1 := ⟨fuel - 1, by simp at hrest; omega⟩
        simp [filepath.matchChunk, filepath.matchChunkLoop, syntaxCheck]
      · rw [if_neg h1] at h
        cases hmc : filepath.matchChunk chunk name with
        | none => rw [hmc] at h; simp at h
        | some res =>
          obtain ⟨t, ok, err⟩ := res
          obtain ⟨t0, ok0, hmc0⟩ := matchChunk_err_indep chunk name [] t ok err hmc
          rw [hmc] at h
          rw [hmc0]
          simp only [] at h ⊢
          by_cases h2 : ok = true ∧ (t = [] ∨ rest ≠ [])
          · rw [if_pos h2] at h
            have herr : err = false := by
              have hok := h2.1
              subst hok
              exact matchChunkLoop_ok_no_err _ chunk name false t err hmc
            subst herr
            simp only [Bool.false_eq_true, if_false]
            exact ih rest t b e hrest h
          · rw [if_neg h2] at h
            cases err with
            | true =>
              simp only [if_true, Option.some.injEq, Prod.mk.injEq] at h ⊢
              obtain ⟨rfl, rfl⟩ := h
              simp
            | false =>
              simp only [Bool.false_eq_true, if_false] at h ⊢
              have hfin : some (false, false) = some (b, e) →
                  (e = true → syntaxCheck fuel rest = some true) ∧
                  (b = true → syntaxCheck fuel rest = some false ∧ e = false) := by
                intro h3
                simp only [Option.some.injEq, Prod.mk.injEq] at h3
                obtain ⟨rfl, rfl⟩ := h3
                exact ⟨fun he => Bool.noConfusion he, fun hb => Bool.noConfusion hb⟩
              cases star with
              | false =>
                simp only [Bool.false_eq_true, if_false] at h
                exact hfin h
              | true =>
                simp only [if_true] at h
                cases hsl : filepath.starLoop chunk (decide (rest = [])) name with
                | none => rw [hsl] at h; simp at h
                | some sr =>
                  rw [hsl] at h
                  cases sr with
                  | found t1 => exact ih rest t1 b e hrest h
                  | bad =>
                    obtain ⟨s, t2, ok2, hbad⟩ := starLoop_bad chunk _ name hsl
                    obtain ⟨t3, ok3, h3⟩ := matchChunk_err_indep chunk s [] t2 ok2 true hbad
                    rw [hmc0] at h3
                    simp at h3
                  | exhausted => exact hfin h

/-- The loop of `filepath.Match` always ends within the budget `len(pattern) + 1`. -/
theorem Match_eq (p name : GoString) :
    filepath.matchLoop (p.length + 1) p name = some (filepath.Match p name) := by
  obtain ⟨r, hr⟩ := matchLoop_total (p.length + 1) p name (Nat.lt_succ_self _)
  simp [filepath.Match, hr]

/-- A pattern for which `filepath.Match` reports `ErrBadPattern` on some name is
malformed. -/
theorem Match_err_malformed (p n0 : GoString) (h : (filepath.Match p n0).2 = true) :
    malformedPattern p := by
  have hm : filepath.Match p n0 = ((filepath.Match p n0).1, true) := by rw [← h]
  have h1 := Match_eq p n0
  rw [hm] at h1
  exact (matchLoop_syntaxCheck _ p n0 _ _ (Nat.lt_succ_self _) h1).1 rfl

/-- A malformed pattern matches no name. -/
theorem malformed_never_matches (p name : GoString) (h : malformedPattern p) :
    (filepath.Match p name).1 = false := by
  cases hb : (filepath.Match p name).1 with
  | false => rfl
  | true =>
    have hm : filepath.Match p name = (true, (filepath.Match p name).2) := by rw [← hb]
    have h1 := Match_eq p name
    rw [hm] at h1
    have h3 := ((matchLoop_syntaxCheck _ p name _ _ (Nat.lt_succ_self _) h1).2 rfl).1
    unfold malformedPattern at h
    rw [h] at h3
    cases Option.some.inj h3

/-- An exclude pattern that does not match the path can be left out. -/
theorem isIncluded_drop_non_matching (x p : GoString) (inc exc1 exc2 : List GoString)
    (h : «matches» p x (filepath.Base x) = false) :
    isIncluded x inc (exc1 ++ p :: exc2) = isIncluded x inc (exc1 ++ exc2) := by
  unfold isIncluded
  simp only [List.any_append, List.any_cons, h, Bool.false_or]

/-- C6: a malformed pattern is a non-match, never an error. A pattern is malformed when
one of its chunks is not well formed, which covers every pattern for which
`filepath.Match` reports `ErrBadPattern` on some name. A malformed pattern `p` matches no
name, `matches` is `false` for it on every path, as an exclude pattern it excludes nothing,
and the matching loop ends with a result on every input, so that `isIncluded` gives a
boolean. The patterns `[a` and `src/[` are malformed; `filepath.Match` reports the error
for `a*[` on the name `a` and no error on the name `b`, without a match in both cases. -/
theorem malformed_pattern_is_non_match (p : GoString) (hbad : malformedPattern p) :
    (∀ name : GoString, (filepath.Match p name).1 = false) ∧
    (∀ x : GoString, «matches» p x (filepath.Base x) = false) ∧
    (∀ (x : GoString) (inc exc1 exc2 : List GoString),
      isIncluded x inc (exc1 ++ p :: exc2) = isIncluded x inc (exc1 ++ exc2)) ∧
    (∀ pattern name : GoString,
      filepath.matchLoop (pattern.length + 1) pattern name =
        some (filepath.Match pattern name)) ∧
    (∀ q n0 : GoString, (filepath.Match q n0).2 = true →
      malformedPattern q ∧
      (∀ name : GoString, (filepath.Match q name).1 = false) ∧
      ∀ x : GoString, «matches» q x (filepath.Base x) = false) ∧
    malformedPattern (str "[a") ∧ malformedPattern (str "src/[") ∧
    (filepath.Match (str "[a") []).2 = true ∧ (filepath.Match (str "src/[") []).2 = true ∧
    filepath.Match (str "a*[") (str "a") = (false, true) ∧
    filepath.Match (str "a*[") (str "b") = (false, false) := by
  have hm : ∀ q : GoString, malformedPattern q →
      ∀ x : GoString, «matches» q x (filepath.Base x) = false := by
    intro q hq x
    unfold «matches»
    split
    · exact malformed_never_matches q _ hq
    · exact malformed_never_matches q _ hq
  refine ⟨fun name => malformed_never_matches p name hbad, hm p hbad, ?_, Match_eq, ?_,
    by decide, by decide, by decide, by decide, by decide, by decide⟩
  · intro x inc exc1 exc2
    exact isIncluded_drop_non_matching x p inc exc1 exc2 (hm p hbad x)
  · intro q n0 hq
    have hq2 := Match_err_malformed q n0 hq
    exact ⟨hq2, fun name => malformed_never_matches q name hq2, hm q hq2⟩

/-- C6 at the pattern `[a`: it is malformed, it does not match the file `a`, and as an
exclude pattern it leaves `a` selected. -/
theorem malformed_pattern_is_non_match_witness :
    malformedPattern (str "[a") ∧
    (filepath.Match (str "[a") (str "a")).2 = true ∧
    «matches» (str "[a") (str "a") (filepath.Base (str "a")) = false ∧
    isIncluded (str "a") [] ([] ++ str "[a" :: []) = isIncluded (str "a") [] ([] ++ []) :=
  ⟨by decide, by decide,
    (malformed_pattern_is_non_match (str "[a") (by decide)).2.1 (str "a"),
    (malformed_pattern_is_non_match (str "[a") (by decide)).2.2.1 (str "a") [] [] []⟩

end Codeprep

/-! ## The loops of `filepath.Clean` and `strings.TrimFunc` end within their budget -/

namespace Codeprep

/-- The loop of `filepath.Clean` ends within a budget above the length of the unread path. -/
theorem cleanLoop_total (rooted : Bool) (fuel : Nat) :
    ∀ (path out : GoString) (dotdot : Nat), path.length < fuel →
      ∃ r, filepath.cleanLoop rooted fuel path out dotdot = some r := by
  induction fuel with
  | zero => intro path out dotdot h; omega
  | succ fuel ih =>
    intro path out dotdot h
    cases path with
    | nil => exact ⟨out, by rw [filepath.cleanLoop]⟩
    | cons c rest =>
      have hrest : rest.length < fuel := by simpa using h
      have htail : rest.tail.length < fuel := by
        have : rest.tail.length ≤ rest.length := by simp
        omega
      rw [filepath.cleanLoop]
      split
      · exact ih _ _ _ hrest
      · split
        · exact ih _ _ _ hrest
        · split
          · split
            · exact ih _ _ _ htail
            · split
              · exact ih _ _ _ htail
              · exact ih _ _ _ htail
          · apply ih
            have : ((c :: rest).dropWhile (fun b => decide (b ≠ Separator))).length ≤
                (c :: rest).length := (List.dropWhile_sublist _).length_le
            rename_i hc _ _
            have hd : (c :: rest).dropWhile (fun b => decide (b ≠ Separator)) =
                rest.dropWhile (fun b => decide (b ≠ Separator)) := by
              simp [List.dropWhile_cons, hc]
            rw [hd]
            have : (rest.dropWhile (fun b => decide (b ≠ Separator))).length ≤ rest.length :=
              (List.dropWhile_sublist _).length_le
            omega

/-- The budget of `filepath.Clean` is sufficient: the result is the output of the loop, with
the empty output turned into `.`. -/
theorem Clean_total (path : GoString) (hne : path ≠ []) :
    ∃ out, (if path.head? = some Separator
        then filepath.cleanLoop true (path.length + 1) path.tail [Separator] 1
        else filepath.cleanLoop false (path.length + 1) path [] 0) = some out ∧
      filepath.Clean path = if out.length = 0 then str "." else out := by
  obtain ⟨c, rest, rfl⟩ := List.exists_cons_of_ne_nil hne
  by_cases hc : c = Separator
  · obtain ⟨r, hr⟩ := cleanLoop_total true ((c :: rest).length + 1) rest [Separator] 1
      (by simp only [List.length_cons]; omega)
    subst hc
    refine ⟨r, by simp only [List.head?_cons, if_true, List.tail_cons]; exact hr, ?_⟩
    unfold filepath.Clean
    simp only [decide_True, if_true, hr, Option.getD_some]
  · obtain ⟨r, hr⟩ := cleanLoop_total false ((c :: rest).length + 1) (c :: rest) [] 0
      (by simp only [List.length_cons]; omega)
    have hc2 : ¬ some c = some Separator := fun h => hc (Option.some.inj h)
    refine ⟨r, by simp only [List.head?_cons, hc2, if_false]; exact hr, ?_⟩
    unfold filepath.Clean
    simp only [hc, decide_False, Bool.false_eq_true, if_false, hr, Option.getD_some]

/-- The loop of `strings.TrimLeftFunc` ends within its budget. -/
theorem trimLeftLoop_total (f : Nat → Bool) (fuel : Nat) :
    ∀ s : GoString, s.length < fuel → ∃ r, strings.trimLeftLoop f fuel s = some r := by
  induction fuel with
  | zero => intro s h; omega
  | succ fuel ih =>
    intro s h
    rw [strings.trimLeftLoop]
    by_cases hs : s = []
    · rw [if_pos hs]; exact ⟨_, rfl⟩
    · rw [if_neg hs]
      have hw := (DecodeRuneInString_width s hs).1
      simp only []
      split
      · exact ⟨_, rfl⟩
      · apply ih
        have : 0 < s.length := List.length_pos.mpr hs
        simp only [List.length_drop]
        omega

/-- The backwards scan stops at or below its start index. -/
theorem scanBack_le (s : GoString) (lim : Nat) :
    ∀ k j, utf8.scanBack s lim k = some j → j ≤ k := by
  intro k
  induction k with
  | zero =>
    intro j h
    rw [utf8.scanBack] at h
    split at h
    · split at h
      · simp at h; omega
      · simp at h
    · simp at h; omega
  | succ k ih =>
    intro j h
    rw [utf8.scanBack] at h
    split at h
    · simp at h; omega
    · split at h
      · simp at h; omega
      · have := ih j h
        omega

/-- The start index of the last rune lies inside the string. -/
theorem lastRuneStart_lt (s : GoString) (hs : s ≠ []) : utf8.lastRuneStart s < s.length := by
  have hlen : 0 < s.length := List.length_pos.mpr hs
  unfold utf8.lastRuneStart
  split
  · exact hlen
  · rename_i k hk
    cases hsb : utf8.scanBack s (s.length - utf8.UTFMax) k with
    | none => simp; exact hlen
    | some j =>
      have := scanBack_le s _ k j hsb
      simp only [Option.getD_some]
      omega

/-- The last rune of a non-empty string has a width of at least one byte and at most the
length of the string. -/
theorem DecodeLastRuneInString_width (s : GoString) (hs : s ≠ []) :
    1 ≤ (utf8.DecodeLastRuneInString s).2 ∧ (utf8.DecodeLastRuneInString s).2 ≤ s.length := by
  have hlen : 0 < s.length := List.length_pos.mpr hs
  have hstart := lastRuneStart_lt s hs
  have hdrop : s.drop (utf8.lastRuneStart s) ≠ [] := by
    intro h
    have := congrArg List.length h
    simp only [List.length_drop, List.length_nil] at this
    omega
  have hw := DecodeRuneInString_width _ hdrop
  unfold utf8.DecodeLastRuneInString
  simp only []
  rw [if_neg (by omega)]
  split
  · exact ⟨le_refl _, hlen⟩
  · split
    · exact ⟨le_refl _, hlen⟩
    · rename_i hne
      simp only [ne_eq, Decidable.not_not] at hne
      refine ⟨hw.1, ?_⟩
      omega

/-- The loop of `strings.TrimRightFunc` ends within its budget. -/
theorem lastIndexLoop_total (f : Nat → Bool) (fuel : Nat) :
    ∀ pre : GoString, pre.length < fuel → ∃ r, strings.lastIndexLoop f fuel pre = some r := by
  induction fuel with
  | zero => intro s h; omega
  | succ fuel ih =>
    intro pre h
    rw [strings.lastIndexLoop]
    by_cases hs : pre.length = 0
    · rw [if_pos hs]; exact ⟨_, rfl⟩
    · rw [if_neg hs]
      have hne : pre ≠ [] := fun hh => hs (by rw [hh]; rfl)
      have hw := DecodeLastRuneInString_width pre hne
      simp only []
      split
      · exact ⟨_, rfl⟩
      · apply ih
        simp only [List.length_take]
        omega


/-- The budget of `strings.TrimLeftFunc` is sufficient. -/
theorem TrimLeftFunc_eq (s : GoString) (f : Nat → Bool) :
    strings.trimLeftLoop f (s.length + 1) s = some (strings.TrimLeftFunc s f) := by
  obtain ⟨r, hr⟩ := trimLeftLoop_total f (s.length + 1) s (Nat.lt_succ_self _)
  simp [strings.TrimLeftFunc, hr]

/-- The budget of `strings.TrimRightFunc` is sufficient. -/
theorem TrimRightFunc_budget (s : GoString) (f : Nat → Bool) :
    ∃ i, strings.lastIndexLoop f (s.length + 1) s = some i :=
  lastIndexLoop_total f (s.length + 1) s (Nat.lt_succ_self _)

end Codeprep

/-! ## Clean relative paths -/

namespace Codeprep

/-- Joining at least two elements. -/
theorem joinSep_cons_cons (c d : GoString) (cs : List GoString) :
    filepath.joinSep (c :: d :: cs) = c ++ Separator :: filepath.joinSep (d :: cs) := by
  simp [filepath.joinSep]

/-- Joining one more element at the end. -/
theorem joinSep_append_singleton (pre : List GoString) (c : GoString) (h : pre ≠ []) :
    filepath.joinSep (pre ++ [c]) = filepath.joinSep pre ++ Separator :: c := by
  induction pre with
  | nil => exact absurd rfl h
  | cons a rest ih =>
    cases rest with
    | nil => simp [filepath.joinSep]
    | cons b rest2 =>
      have := ih (by simp)
      simp only [List.cons_append] at this ⊢
      rw [joinSep_cons_cons, this, joinSep_cons_cons]
      simp

/-- Reading a name up to the next separator. -/
theorem takeWhile_name (c rest : GoString) (h : Separator ∉ c)
    (hr : rest = [] ∨ rest.head? = some Separator) :
    (c ++ rest).takeWhile (fun b => decide (b ≠ Separator)) = c ∧
    (c ++ rest).dropWhile (fun b => decide (b ≠ Separator)) = rest := by
  have hall : ∀ b ∈ c, (fun b : Byte => decide (b ≠ Separator)) b = true := by
    intro b hb
    have : b ≠ Separator := fun hh => h (hh ▸ hb)
    simpa using this
  have hrest : rest.takeWhile (fun b => decide (b ≠ Separator)) = [] ∧
      rest.dropWhile (fun b => decide (b ≠ Separator)) = rest := by
    rcases hr with hr | hr
    · subst hr; simp
    · cases rest with
      | nil => simp
      | cons a t =>
        simp only [List.head?_cons, Option.some.injEq] at hr
        subst hr
        simp [List.takeWhile, List.dropWhile]
  constructor
  · rw [List.takeWhile_append_of_pos hall, hrest.1, List.append_nil]
  · rw [List.dropWhile_append_of_pos hall, hrest.2]

/-- One `Clean` step at the start of a valid name `c`: the name is copied to the output. -/
theorem cleanLoop_name (fuel : Nat) (c rest out : GoString) (hc : validName c)
    (hr : rest = [] ∨ rest.head? = some Separator) :
    filepath.cleanLoop false (fuel + 1) (c ++ rest) out 0 =
      filepath.cleanLoop false fuel rest
        ((if out.length ≠ 0 then out ++ [Separator] else out) ++ c) 0 := by
  obtain ⟨hne, hsep, hdot, hdd⟩ := hc
  obtain ⟨c0, ct, rfl⟩ := List.exists_cons_of_ne_nil hne
  have hc0 : c0 ≠ Separator := fun h => hsep (h ▸ List.mem_cons_self _ _)
  have htw := takeWhile_name (c0 :: ct) rest hsep hr
  have hrh : ∀ x, rest.head? = some x → x = Separator := by
    intro x hx
    rcases hr with hr | hr
    · subst hr; simp at hx
    · rw [hr] at hx; exact (Option.some.inj hx).symm
  simp only [List.cons_append]
  rw [filepath.cleanLoop]
  rw [if_neg hc0]
  have hnotdot : ¬ (c0 = chDot ∧ (ct ++ rest = [] ∨ (ct ++ rest).head? = some Separator)) := by
    rintro ⟨h0, h1⟩
    subst h0
    cases ct with
    | nil => exact hdot (by decide)
    | cons c1 ct2 =>
      rcases h1 with h1 | h1
      · simp at h1
      · simp only [List.cons_append, List.head?_cons, Option.some.injEq] at h1
        exact hsep (by simp [h1])
  rw [if_neg hnotdot]
  have hnotdd : ¬ (c0 = chDot ∧ (ct ++ rest).head? = some chDot ∧
      ((ct ++ rest).tail = [] ∨ (ct ++ rest).tail.head? = some Separator)) := by
    rintro ⟨h0, h1, h2⟩
    subst h0
    cases ct with
    | nil =>
      simp only [List.nil_append] at h1
      have := hrh _ h1
      exact absurd this (by decide)
    | cons c1 ct2 =>
      simp only [List.cons_append, List.head?_cons, Option.some.injEq] at h1
      subst h1
      simp only [List.cons_append, List.tail_cons] at h2
      cases ct2 with
      | nil => exact hdd (by decide)
      | cons c2 ct3 =>
        rcases h2 with h2 | h2
        · simp at h2
        · simp only [List.cons_append, List.head?_cons, Option.some.injEq] at h2
          exact hsep (by simp [h2])
  rw [if_neg hnotdd]
  have htw1 := htw.1
  have htw2 := htw.2
  simp only [List.cons_append] at htw1 htw2
  rw [htw1, htw2]
  simp

/-- The loop of `Clean` at the end of the path. -/
theorem cleanLoop_nil (fuel : Nat) (out : GoString) (dotdot : Nat) :
    filepath.cleanLoop false (fuel + 1) [] out dotdot = some out := by
  rw [filepath.cleanLoop]

/-- The loop of `Clean` skips a separator. -/
theorem cleanLoop_sep (fuel : Nat) (rest out : GoString) (dotdot : Nat) :
    filepath.cleanLoop false (fuel + 1) (Separator :: rest) out dotdot =
      filepath.cleanLoop false fuel rest out dotdot := by
  rw [filepath.cleanLoop]
  simp

/-- The loop of `Clean` copies a path made of valid names, with or without a trailing
separator, to the output. -/
theorem cleanLoop_comps (cs : List GoString) (hcs : ∀ c ∈ cs, validName c) (hne : cs ≠ [])
    (trail : GoString) (htrail : trail = [] ∨ trail = [Separator]) :
    ∀ (fuel : Nat) (out : GoString), (filepath.joinSep cs ++ trail).length < fuel →
      filepath.cleanLoop false fuel (filepath.joinSep cs ++ trail) out 0 =
        some ((if out.length ≠ 0 then out ++ [Separator] else out) ++ filepath.joinSep cs) := by
  induction cs with
  | nil => exact absurd rfl hne
  | cons c rest ih =>
    intro fuel out hfuel
    have hc : validName c := hcs c (List.mem_cons_self _ _)
    have hclen : 0 < c.length := List.length_pos.mpr hc.1
    cases rest with
    | nil =>
      simp only [filepath.joinSep] at hfuel ⊢
      obtain ⟨f, rfl⟩ : ∃ f, fuel = f + 1 := ⟨fuel - 1, by omega⟩
      rw [cleanLoop_name f c trail out hc (by
        rcases htrail with h | h
        · exact Or.inl h
        · exact Or.inr (by rw [h]; rfl))]
      rw [List.length_append] at hfuel
      rcases htrail with h | h
      · subst h
        obtain ⟨f2, rfl⟩ : ∃ f2, f = f2 + 1 := ⟨f - 1, by omega⟩
        rw [cleanLoop_nil]
      · subst h
        simp only [List.length_singleton] at hfuel
        obtain ⟨f2, rfl⟩ : ∃ f2, f = f2 + 2 := ⟨f - 2, by omega⟩
        rw [cleanLoop_sep, cleanLoop_nil]
    | cons d rest2 =>
      rw [joinSep_cons_cons] at hfuel ⊢
      simp only [List.append_assoc, List.cons_append, List.length_append, List.length_cons]
        at hfuel ⊢
      obtain ⟨f, rfl⟩ : ∃ f, fuel = f + 2 := ⟨fuel - 2, by omega⟩
      rw [cleanLoop_name (f + 1) c (Separator :: (filepath.joinSep (d :: rest2) ++ trail)) out hc
        (Or.inr rfl), cleanLoop_sep]
      have hrest : ∀ x ∈ d :: rest2, validName x :=
        fun x hx => hcs x (List.mem_cons_of_mem _ hx)
      rw [ih hrest (by simp) f _ (by simp only [List.length_append]; omega)]
      have hlen : ((if out.length ≠ 0 then out ++ [Separator] else out) ++ c).length ≠ 0 := by
        simp only [List.length_append]; omega
      rw [if_pos hlen]
      simp

/-- The function `Clean` leaves a path made of valid names as it is, and removes one
trailing separator. -/
theorem Clean_comps (cs : List GoString) (hcs : validComps cs)
    (trail : GoString) (htrail : trail = [] ∨ trail = [Separator]) :
    filepath.Clean (filepath.joinSep cs ++ trail) = filepath.joinSep cs := by
  obtain ⟨hne, hall⟩ := hcs
  obtain ⟨c, rest, rfl⟩ := List.exists_cons_of_ne_nil hne
  have hc : validName c := hall c (List.mem_cons_self _ _)
  obtain ⟨c0, ct, rfl⟩ := List.exists_cons_of_ne_nil hc.1
  have hc0 : c0 ≠ Separator := fun h => hc.2.1 (h ▸ List.mem_cons_self _ _)
  have hjoin : ∃ t, filepath.joinSep ((c0 :: ct) :: rest) = c0 :: t := by
    cases rest with
    | nil => exact ⟨ct, rfl⟩
    | cons d r2 => exact ⟨ct ++ Separator :: filepath.joinSep (d :: r2), by
        rw [joinSep_cons_cons]; rfl⟩
  obtain ⟨t, ht⟩ := hjoin
  have hloop := cleanLoop_comps ((c0 :: ct) :: rest) hall hne trail htrail
    ((filepath.joinSep ((c0 :: ct) :: rest) ++ trail).length + 1) [] (Nat.lt_succ_self _)
  rw [ht] at hloop ⊢
  simp only [List.cons_append] at hloop ⊢
  unfold filepath.Clean
  simp only [hc0, decide_False, Bool.false_eq_true, if_false]
  rw [hloop]
  simp

/-- The scan of `Split` reads over a piece without separator. -/
theorem splitFrom_name (sep : Byte) (c cur rest : GoString) (h : sep ∉ c) :
    strings.splitFrom sep cur (c ++ rest) = strings.splitFrom sep (cur ++ c) rest := by
  induction c generalizing cur with
  | nil => simp
  | cons a t ih =>
    have ha : a ≠ sep := fun hh => h (hh ▸ List.mem_cons_self _ _)
    have ht : sep ∉ t := fun hh => h (List.mem_cons_of_mem _ hh)
    rw [List.cons_append, strings.splitFrom, if_neg ha, ih _ ht]
    simp

/-- Splitting a path at the separators gives back its components. -/
theorem Split_joinSep (cs : List GoString) (hne : cs ≠ []) (hcs : ∀ c ∈ cs, Separator ∉ c) :
    strings.Split (filepath.joinSep cs) Separator = cs := by
  unfold strings.Split
  induction cs with
  | nil => exact absurd rfl hne
  | cons c rest ih =>
    have hc := hcs c (List.mem_cons_self _ _)
    cases rest with
    | nil =>
      have := splitFrom_name Separator c [] [] hc
      simp only [List.append_nil, List.nil_append] at this
      simp only [filepath.joinSep, this, strings.splitFrom]
    | cons d r2 =>
      rw [joinSep_cons_cons, splitFrom_name Separator c [] _ hc]
      simp only [List.nil_append, strings.splitFrom, if_true]
      rw [ih (by simp) (fun x hx => hcs x (List.mem_cons_of_mem _ hx))]

/-- The path determines the components. -/
theorem joinSep_injective (cs ds : List GoString) (hcs : validComps cs) (hds : validComps ds)
    (h : filepath.joinSep cs = filepath.joinSep ds) : cs = ds := by
  have h1 := Split_joinSep cs hcs.1 (fun c hc => (hcs.2 c hc).2.1)
  have h2 := Split_joinSep ds hds.1 (fun c hc => (hds.2 c hc).2.1)
  rw [← h1, ← h2, h]

/-- Cutting the last element off a path leaves the part up to the last separator. -/
theorem dropWhile_rev_name (pre name : GoString) (h : Separator ∉ name) :
    ((pre ++ Separator :: name).reverse.dropWhile (fun b => decide (b ≠ Separator))).reverse =
      pre ++ [Separator] := by
  have hall : ∀ b ∈ name.reverse, (fun b : Byte => decide (b ≠ Separator)) b = true := by
    intro b hb
    have : b ≠ Separator := fun hh => h (hh ▸ List.mem_reverse.mp hb)
    simpa using this
  have : (pre ++ Separator :: name).reverse = name.reverse ++ Separator :: pre.reverse := by simp
  rw [this, List.dropWhile_append_of_pos hall]
  simp [List.dropWhile]

/-- The directory part of a file at the root is `.`. -/
theorem Dir_name (c : GoString) (h : Separator ∉ c) : filepath.Dir c = str "." := by
  have hall : ∀ b ∈ c.reverse, (fun b : Byte => decide (b ≠ Separator)) b = true := by
    intro b hb
    have : b ≠ Separator := fun hh => h (hh ▸ List.mem_reverse.mp hb)
    simpa using this
  unfold filepath.Dir
  have : (c.reverse ++ []).dropWhile (fun b => decide (b ≠ Separator)) =
      List.dropWhile (fun b => decide (b ≠ Separator)) [] :=
    List.dropWhile_append_of_pos hall
  simp only [List.append_nil, List.dropWhile_nil] at this
  rw [this]
  rfl

/-- The directory part of a deeper file is the path of its parent. -/
theorem Dir_joinSep (pre : List GoString) (c : GoString) (hpre : validComps pre)
    (hc : validName c) :
    filepath.Dir (filepath.joinSep (pre ++ [c])) = filepath.joinSep pre := by
  rw [joinSep_append_singleton pre c hpre.1]
  unfold filepath.Dir
  rw [dropWhile_rev_name _ c hc.2.1]
  exact Clean_comps pre hpre [Separator] (Or.inr rfl)

/-- Joining a directory path and a name: the first `Join` of the loop, from the empty
`current`, and the later ones. -/
theorem Join_name (pre : List GoString) (c : GoString)
    (hpre : ∀ x ∈ pre, validName x) (hc : validName c) :
    filepath.Join [filepath.joinSep pre, c] = filepath.joinSep (pre ++ [c]) := by
  have hall : validComps (pre ++ [c]) := by
    refine ⟨by simp, ?_⟩
    intro x hx
    rcases List.mem_append.mp hx with h | h
    · exact hpre x h
    · rw [List.mem_singleton.mp h]; exact hc
  have hclean := Clean_comps (pre ++ [c]) hall [] (Or.inl rfl)
  rw [List.append_nil] at hclean
  cases pre with
  | nil =>
    simp only [filepath.joinSep, filepath.Join, List.nil_append] at hclean ⊢
    simp only [ne_eq, not_true_eq_false, if_false, hc.1, not_false_eq_true, if_true]
    exact hclean
  | cons a r =>
    have hne : filepath.joinSep (a :: r) ≠ [] := by
      have ha := (hpre a (List.mem_cons_self _ _)).1
      obtain ⟨a0, at1, rfl⟩ := List.exists_cons_of_ne_nil ha
      cases r with
      | nil => simp [filepath.joinSep]
      | cons b r2 => rw [joinSep_cons_cons]; simp
    rw [joinSep_append_singleton _ c (by simp)] at hclean ⊢
    simp only [filepath.Join, ne_eq, hne, not_false_eq_true, if_true, filepath.joinSep]
    exact hclean

/-- The first prefix of a list is the empty one. -/
theorem inits_eq_nil_cons_tail {α : Type} (l : List α) : l.inits = [] :: l.inits.tail := by
  cases l <;> simp

/-- The loop over the components registers the paths of all prefixes, shortest first. -/
theorem recordDirs_eq (ds : List GoString) :
    ∀ (pre : List GoString) (m : EntryMap), (∀ x ∈ pre, validName x) →
      (∀ x ∈ ds, validName x) →
      recordDirs ds (filepath.joinSep pre) m =
        (ds.inits.tail.map (fun i => filepath.joinSep (pre ++ i))).foldl
          (fun m k => m.set k true) m := by
  induction ds with
  | nil => intro pre m _ _; simp [recordDirs]
  | cons d rest ih =>
    intro pre m hpre hds
    have hd : validName d := hds d (List.mem_cons_self _ _)
    have hrest : ∀ x ∈ rest, validName x := fun x hx => hds x (List.mem_cons_of_mem _ hx)
    have hpre2 : ∀ x ∈ pre ++ [d], validName x := by
      intro x hx
      rcases List.mem_append.mp hx with h | h
      · exact hpre x h
      · rw [List.mem_singleton.mp h]; exact hd
    rw [recordDirs, if_neg hd.2.2.1]
    simp only []
    rw [Join_name pre d hpre hd, ih (pre ++ [d]) _ hpre2 hrest]
    rw [List.inits_cons, List.tail_cons]
    conv_rhs => rw [inits_eq_nil_cons_tail rest]
    simp [List.map_map, Function.comp_def]

/-- What the callback records for a selected file: every ancestor directory as a directory,
then the file itself as a file. -/
theorem recordFile_eq (st : List GoString × EntryMap) (cs : List GoString)
    (hcs : validComps cs) :
    recordFile st (filepath.joinSep cs) =
      (st.1 ++ [filepath.joinSep cs],
        ((ancestorDirs cs).foldl (fun m k => m.set k true) st.2).set
          (filepath.joinSep cs) false) := by
  obtain ⟨hne, hall⟩ := hcs
  obtain ⟨pre, c, rfl⟩ : ∃ pre c, cs = pre ++ [c] :=
    ⟨cs.dropLast, cs.getLast hne, (List.dropLast_append_getLast hne).symm⟩
  have hc : validName c := hall c (by simp)
  have hpre : ∀ x ∈ pre, validName x := fun x hx => hall x (by simp [hx])
  unfold recordFile ancestorDirs
  simp only [List.dropLast_concat]
  cases pre with
  | nil =>
    have hd : filepath.Dir c = str "." := Dir_name c hc.2.1
    have hs : strings.Split (str ".") Separator = [str "."] := by decide
    simp only [List.nil_append, filepath.joinSep, hd, hs, recordDirs, if_true]
    simp
  | cons a r =>
    have hv : validComps (a :: r) := ⟨by simp, hpre⟩
    rw [Dir_joinSep (a :: r) c hv hc, Split_joinSep (a :: r) (by simp)
      (fun x hx => (hpre x hx).2.1)]
    have := recordDirs_eq (a :: r) [] st.2 (by simp) hpre
    simp only [filepath.joinSep, List.nil_append] at this
    rw [this]

/-- A path made of valid names is not empty and does not end in a separator. -/
theorem joinSep_shape (cs : List GoString) (hcs : validComps cs) :
    filepath.joinSep cs ≠ [] ∧ (filepath.joinSep cs).getLast? ≠ some Separator := by
  obtain ⟨hne, hall⟩ := hcs
  obtain ⟨pre, c, rfl⟩ : ∃ pre c, cs = pre ++ [c] :=
    ⟨cs.dropLast, cs.getLast hne, (List.dropLast_append_getLast hne).symm⟩
  have hc : validName c := hall c (by simp)
  obtain ⟨u, b, hub⟩ : ∃ u b, c = u ++ [b] :=
    ⟨c.dropLast, c.getLast hc.1, (List.dropLast_append_getLast hc.1).symm⟩
  have hb : b ≠ Separator := by
    intro h
    apply hc.2.1
    rw [hub, h]
    simp
  have hform : ∃ v, filepath.joinSep (pre ++ [c]) = v ++ [b] := by
    cases pre with
    | nil => exact ⟨u, by simp [filepath.joinSep, hub]⟩
    | cons a r =>
      refine ⟨filepath.joinSep (a :: r) ++ Separator :: u, ?_⟩
      rw [joinSep_append_singleton _ c (by simp), hub]
      simp
  obtain ⟨v, hv⟩ := hform
  rw [hv]
  refine ⟨by simp, ?_⟩
  rw [List.getLast?_concat]
  intro h
  exact hb (Option.some.inj h)

end Codeprep

/-! ## The entry map after the walk -/

namespace Codeprep

/-- The keys after an assignment. -/
theorem EntryMap.mem_keys_set (m : EntryMap) (k : GoString) (v : Bool) (x : GoString) :
    x ∈ (m.set k v).keys ↔ x = k ∨ x ∈ m.keys := by
  induction m with
  | nil => simp [EntryMap.set, EntryMap.keys]
  | cons kv rest ih =>
    obtain ⟨k1, v1⟩ := kv
    unfold EntryMap.set
    by_cases h : k1 = k
    · subst h
      simp [EntryMap.keys]
    · rw [if_neg h]
      simp only [EntryMap.keys, List.map_cons, List.mem_cons] at ih ⊢
      rw [ih]
      tauto

/-- An assignment keeps the keys distinct. -/
theorem EntryMap.nodup_keys_set (m : EntryMap) (k : GoString) (v : Bool)
    (h : m.keys.Nodup) : (m.set k v).keys.Nodup := by
  induction m with
  | nil => simp [EntryMap.set, EntryMap.keys]
  | cons kv rest ih =>
    obtain ⟨k1, v1⟩ := kv
    have hrest : EntryMap.keys rest |>.Nodup := (List.nodup_cons.mp h).2
    have hk1 : k1 ∉ EntryMap.keys rest := (List.nodup_cons.mp h).1
    unfold EntryMap.set
    by_cases hk : k1 = k
    · subst hk
      rw [if_pos rfl]
      exact h
    · rw [if_neg hk]
      have : EntryMap.keys ((k1, v1) :: EntryMap.set rest k v) =
          k1 :: EntryMap.keys (EntryMap.set rest k v) := rfl
      rw [this]
      refine List.nodup_cons.mpr ⟨?_, ih hrest⟩
      intro hmem
      rcases (EntryMap.mem_keys_set rest k v k1).mp hmem with h1 | h1
      · exact hk h1
      · exact hk1 h1

/-- Reading after an assignment. -/
theorem EntryMap.get_set (m : EntryMap) (k : GoString) (v : Bool) (x : GoString) :
    (m.set k v).get x = if x = k then v else m.get x := by
  induction m with
  | nil =>
    simp only [EntryMap.set, EntryMap.get]
    by_cases h : x = k
    · simp [h]
    · have : ¬ k = x := fun hh => h hh.symm
      simp [h, this]
  | cons kv rest ih =>
    obtain ⟨k1, v1⟩ := kv
    unfold EntryMap.set
    by_cases hk : k1 = k
    · subst hk
      rw [if_pos rfl]
      simp only [EntryMap.get]
      by_cases h : x = k1
      · simp [h]
      · have : ¬ k1 = x := fun hh => h hh.symm
        simp [h, this]
    · rw [if_neg hk]
      simp only [EntryMap.get]
      by_cases h1 : k1 = x
      · subst h1
        simp [hk]
      · rw [if_neg h1, if_neg h1, ih]

/-- The map after a run of assignments. -/
theorem EntryMap.setAll_keys (l : List (GoString × Bool)) :
    ∀ m : EntryMap, m.keys.Nodup →
      ((l.foldl (fun m kv => m.set kv.1 kv.2) m).keys.Nodup ∧
      ∀ x, x ∈ (l.foldl (fun m kv => m.set kv.1 kv.2) m).keys ↔
        x ∈ m.keys ∨ x ∈ l.map Prod.fst) := by
  induction l with
  | nil => intro m h; simp [h]
  | cons kv rest ih =>
    intro m h
    obtain ⟨h1, h2⟩ := ih (m.set kv.1 kv.2) (EntryMap.nodup_keys_set m _ _ h)
    refine ⟨h1, ?_⟩
    intro x
    simp only [List.foldl_cons, List.map_cons, List.mem_cons]
    rw [h2 x, EntryMap.mem_keys_set]
    tauto

/-- A run of assignments leaves the keys it does not assign as they were. -/
theorem EntryMap.setAll_get_other (l : List (GoString × Bool)) (x : GoString)
    (hx : x ∉ l.map Prod.fst) :
    ∀ m : EntryMap, (l.foldl (fun m kv => m.set kv.1 kv.2) m).get x = m.get x := by
  induction l with
  | nil => intro m; rfl
  | cons kv rest ih =>
    intro m
    simp only [List.map_cons, List.mem_cons, not_or] at hx
    simp only [List.foldl_cons]
    rw [ih hx.2, EntryMap.get_set, if_neg hx.1]

/-- After a run of assignments that never gives one key two different values, every
assigned key holds its value. -/
theorem EntryMap.setAll_get (l : List (GoString × Bool))
    (hcons : ∀ kv ∈ l, ∀ kv2 ∈ l, kv.1 = kv2.1 → kv.2 = kv2.2) :
    ∀ (m : EntryMap), ∀ kv ∈ l, (l.foldl (fun m kv => m.set kv.1 kv.2) m).get kv.1 = kv.2 := by
  induction l with
  | nil => intro m kv h; simp at h
  | cons a rest ih =>
    intro m kv hkv
    have hrest : ∀ kv ∈ rest, ∀ kv2 ∈ rest, kv.1 = kv2.1 → kv.2 = kv2.2 :=
      fun x hx y hy => hcons x (List.mem_cons_of_mem _ hx) y (List.mem_cons_of_mem _ hy)
    simp only [List.foldl_cons]
    by_cases hin : kv.1 ∈ rest.map Prod.fst
    · obtain ⟨kv2, hkv2, hfst⟩ := List.mem_map.mp hin
      have := ih hrest (m.set a.1 a.2) kv2 hkv2
      rw [hfst] at this
      rw [this]
      exact (hcons kv hkv kv2 (List.mem_cons_of_mem _ hkv2) hfst.symm).symm
    · rw [EntryMap.setAll_get_other rest kv.1 hin, EntryMap.get_set]
      rcases List.mem_cons.mp hkv with h | h
      · rw [h]; simp
      · exact absurd (List.mem_map_of_mem _ h) hin

/-- A walk without error records the selected files one after the other. -/
theorem walk_eq_foldl (incl excl : List GoString) (events : List WalkEvent)
    (herr : ∀ e ∈ events, e.err = false) :
    ∀ st, walk incl excl events st =
      some ((selectedPaths incl excl events).foldl recordFile st) := by
  induction events with
  | nil => intro st; simp [walk, selectedPaths]
  | cons e rest ih =>
    intro st
    have he : e.err = false := herr e (List.mem_cons_self _ _)
    have hrest : ∀ e1 ∈ rest, e1.err = false := fun e1 h1 => herr e1 (List.mem_cons_of_mem _ h1)
    have ih2 := ih hrest
    unfold selectedPaths at ih2 ⊢
    rw [walk]
    simp only [he, Bool.false_eq_true, if_false]
    by_cases hd : e.isDir = true
    · simp only [hd, if_true, List.filter_cons, Bool.not_true, Bool.false_and,
        Bool.false_eq_true, if_false]
      exact ih2 st
    · have hd2 : e.isDir = false := by simpa using hd
      by_cases hi : isIncluded e.relPath incl excl = false
      · simp only [hd2, hi, Bool.false_eq_true, if_false, if_true, List.filter_cons,
          Bool.not_false, Bool.and_false]
        exact ih2 st
      · have hi2 : isIncluded e.relPath incl excl = true := by simpa using hi
        simp only [hd2, hi2, Bool.false_eq_true, if_false, List.filter_cons, Bool.not_false,
          Bool.and_self, if_true, List.map_cons, List.foldl_cons]
        exact ih2 _

/-- The state after the callback has recorded the files one after the other. -/
theorem recordFile_foldl (files : List (List GoString)) (hvalid : ∀ f ∈ files, validComps f) :
    ∀ st : List GoString × EntryMap,
      (files.map filepath.joinSep).foldl recordFile st =
        (st.1 ++ files.map filepath.joinSep,
          ((files.map fileEntries).flatten).foldl (fun m kv => m.set kv.1 kv.2) st.2) := by
  induction files with
  | nil => intro st; simp
  | cons f rest ih =>
    intro st
    have hf := hvalid f (List.mem_cons_self _ _)
    have hrest : ∀ g ∈ rest, validComps g := fun g hg => hvalid g (List.mem_cons_of_mem _ hg)
    simp only [List.map_cons, List.foldl_cons, List.flatten_cons, List.foldl_append]
    rw [recordFile_eq st f hf, ih hrest]
    simp only [fileEntries, List.foldl_append, List.foldl_map, List.foldl_cons, List.foldl_nil,
      List.append_assoc, List.singleton_append]

/-- The prefixes after the first are the non-empty ones. -/
theorem mem_inits_tail {α : Type} (l i : List α) : i ∈ l.inits.tail ↔ i <+: l ∧ i ≠ [] := by
  constructor
  · intro h
    have hmem : i ∈ l.inits := List.mem_of_mem_tail h
    refine ⟨(List.mem_inits _ _).mp hmem, ?_⟩
    cases l with
    | nil => simp at h
    | cons a r =>
      rw [List.inits_cons, List.tail_cons] at h
      obtain ⟨x, -, rfl⟩ := List.mem_map.mp h
      simp
  · rintro ⟨h1, h2⟩
    have hmem : i ∈ l.inits := (List.mem_inits _ _).mpr h1
    rw [inits_eq_nil_cons_tail] at hmem
    rcases List.mem_cons.mp hmem with h | h
    · exact absurd h h2
    · exact h

/-- The ancestor directories of a file are the paths of the non-empty proper prefixes of
its components. -/
theorem mem_ancestorDirs (g : List GoString) (k : GoString) :
    k ∈ ancestorDirs g ↔ ∃ j, 0 < j ∧ j < g.length ∧ k = filepath.joinSep (g.take j) := by
  unfold ancestorDirs
  rw [List.mem_map]
  constructor
  · rintro ⟨i, hi, rfl⟩
    obtain ⟨hp, hne⟩ := (mem_inits_tail _ _).mp hi
    have hlen : i.length ≤ g.dropLast.length := hp.length_le
    have hpos : 0 < i.length := List.length_pos.mpr hne
    rw [List.length_dropLast] at hlen
    refine ⟨i.length, hpos, by omega, ?_⟩
    have h1 := List.prefix_iff_eq_take.mp hp
    rw [List.dropLast_eq_take, List.take_take] at h1
    rw [min_eq_left hlen] at h1
    rw [← h1]
  · rintro ⟨j, hj0, hj1, rfl⟩
    refine ⟨g.take j, (mem_inits_tail _ _).mpr ⟨?_, ?_⟩, rfl⟩
    · rw [List.dropLast_eq_take]
      have : g.take j = (g.take (g.length - 1)).take j := by
        rw [List.take_take, min_eq_left (by omega)]
      rw [this]
      exact List.take_prefix _ _
    · intro h
      have := congrArg List.length h
      rw [List.length_take, List.length_nil] at this
      omega


/-- The entries that a list of files contributes. -/
theorem mem_fileEntries (files : List (List GoString)) (kv : GoString × Bool) :
    kv ∈ (files.map fileEntries).flatten ↔
      ∃ g ∈ files, (kv.2 = true ∧ kv.1 ∈ ancestorDirs g) ∨ kv = (filepath.joinSep g, false) := by
  simp only [List.mem_flatten, List.mem_map, fileEntries]
  constructor
  · rintro ⟨l, ⟨g, hg, rfl⟩, hkv⟩
    refine ⟨g, hg, ?_⟩
    rcases List.mem_append.mp hkv with h | h
    · obtain ⟨k, hk, rfl⟩ := List.mem_map.mp h
      exact Or.inl ⟨rfl, hk⟩
    · exact Or.inr (List.mem_singleton.mp h)
  · rintro ⟨g, hg, h⟩
    refine ⟨_, ⟨g, hg, rfl⟩, ?_⟩
    rcases h with ⟨h2, h1⟩ | h
    · apply List.mem_append_left
      exact List.mem_map.mpr ⟨kv.1, h1, by rw [← h2]⟩
    · apply List.mem_append_right
      exact List.mem_singleton.mpr h

/-- C7: the ancestor invariant of the entry map. For a walk without error whose selected
files are the paths of `files` (valid names, no selected file being an ancestor directory
of another), the walk ends with these files in order and an entry map whose keys are
exactly the selected files and their ancestor directories, every ancestor directory with
`isDirectory = true` and every file with `isDirectory = false`. The ancestor directories
are the joined non-empty proper prefixes of the components, and a file at the root
contributes only its own entry. -/
theorem ancestor_invariant (incl excl : List GoString) (events : List WalkEvent)
    (files : List (List GoString))
    (herr : ∀ e ∈ events, e.err = false)
    (hsel : selectedPaths incl excl events = files.map filepath.joinSep)
    (hvalid : ∀ f ∈ files, validComps f)
    (hfree : ∀ f ∈ files, ∀ g ∈ files, filepath.joinSep f ∉ ancestorDirs g) :
    ∃ m : EntryMap,
      walk incl excl events ([], []) = some (files.map filepath.joinSep, m) ∧
      m.keys.Nodup ∧
      (∀ k, k ∈ m.keys ↔
        k ∈ files.map filepath.joinSep ∨ ∃ g ∈ files, k ∈ ancestorDirs g) ∧
      (∀ f ∈ files, m.get (filepath.joinSep f) = false) ∧
      (∀ g ∈ files, ∀ k ∈ ancestorDirs g, m.get k = true) ∧
      (∀ (g : List GoString) (k : GoString), k ∈ ancestorDirs g ↔
        ∃ j, 0 < j ∧ j < g.length ∧ k = filepath.joinSep (g.take j)) ∧
      (∀ (st : List GoString × EntryMap) (name : GoString), validName name →
        recordFile st name = (st.1 ++ [name], st.2.set name false)) := by
  have hwalk := walk_eq_foldl incl excl events herr ([], [])
  rw [hsel, recordFile_foldl files hvalid] at hwalk
  simp only [List.nil_append] at hwalk
  have hcons : ∀ kv ∈ (files.map fileEntries).flatten,
      ∀ kv2 ∈ (files.map fileEntries).flatten, kv.1 = kv2.1 → kv.2 = kv2.2 := by
    intro kv hkv kv2 hkv2 hk
    obtain ⟨g, hg, h⟩ := (mem_fileEntries files kv).mp hkv
    obtain ⟨g2, hg2, h2⟩ := (mem_fileEntries files kv2).mp hkv2
    rcases h with ⟨hv, ha⟩ | h <;> rcases h2 with ⟨hv2, ha2⟩ | h2
    · rw [hv, hv2]
    · rw [h2] at hk
      simp only [] at hk
      rw [hk] at ha
      exact absurd ha (hfree g2 hg2 g hg)
    · rw [h] at hk
      simp only [] at hk
      rw [← hk] at ha2
      exact absurd ha2 (hfree g hg g2 hg2)
    · rw [h, h2]
  obtain ⟨hnodup, hkeys⟩ := EntryMap.setAll_keys (files.map fileEntries).flatten []
    (by simp [EntryMap.keys])
  have hget := EntryMap.setAll_get (files.map fileEntries).flatten hcons []
  refine ⟨_, hwalk, hnodup, ?_, ?_, ?_, mem_ancestorDirs, ?_⟩
  · intro k
    rw [hkeys k]
    simp only [EntryMap.keys, List.map_nil, List.not_mem_nil, false_or, List.mem_map]
    constructor
    · rintro ⟨kv, hkv, rfl⟩
      obtain ⟨g, hg, h⟩ := (mem_fileEntries files kv).mp hkv
      rcases h with ⟨-, ha⟩ | h
      · exact Or.inr ⟨g, hg, ha⟩
      · exact Or.inl ⟨g, hg, by rw [h]⟩
    · rintro (⟨g, hg, rfl⟩ | ⟨g, hg, ha⟩)
      · exact ⟨(filepath.joinSep g, false),
          (mem_fileEntries files _).mpr ⟨g, hg, Or.inr rfl⟩, rfl⟩
      · exact ⟨(k, true), (mem_fileEntries files _).mpr ⟨g, hg, Or.inl ⟨rfl, ha⟩⟩, rfl⟩
  · intro f hf
    exact hget (filepath.joinSep f, false) ((mem_fileEntries files _).mpr ⟨f, hf, Or.inr rfl⟩)
  · intro g hg k hk
    exact hget (k, true) ((mem_fileEntries files _).mpr ⟨g, hg, Or.inl ⟨rfl, hk⟩⟩)
  · intro st name hname
    have := recordFile_eq st [name] ⟨by simp, by simpa using hname⟩
    simpa [filepath.joinSep, ancestorDirs] using this

/-- C7 on the walk of a tree with the files `a/b.txt`, `a/c/d.txt` and `e.txt`. -/
theorem ancestor_invariant_witness :
    ∃ m : EntryMap,
      walk [] [] [⟨str ".", true, false⟩, ⟨str "a", true, false⟩, ⟨str "a/b.txt", false, false⟩,
        ⟨str "a/c", true, false⟩, ⟨str "a/c/d.txt", false, false⟩, ⟨str "e.txt", false, false⟩]
        ([], []) = some ([str "a/b.txt", str "a/c/d.txt", str "e.txt"], m) ∧
      m.keys.Nodup ∧
      (∀ k, k ∈ m.keys ↔
        k ∈ [str "a/b.txt", str "a/c/d.txt", str "e.txt"] ∨
        ∃ g ∈ [[str "a", str "b.txt"], [str "a", str "c", str "d.txt"], [str "e.txt"]],
          k ∈ ancestorDirs g) := by
  obtain ⟨m, h1, h2, h3, -⟩ := ancestor_invariant [] []
    [⟨str ".", true, false⟩, ⟨str "a", true, false⟩, ⟨str "a/b.txt", false, false⟩,
      ⟨str "a/c", true, false⟩, ⟨str "a/c/d.txt", false, false⟩, ⟨str "e.txt", false, false⟩]
    [[str "a", str "b.txt"], [str "a", str "c", str "d.txt"], [str "e.txt"]]
    (by decide) (by decide) (by decide) (by decide)
  exact ⟨m, h1, h2, h3⟩

end Codeprep

/-! ## The tree -/

namespace Codeprep

/-- Reading a key gives the value of its entry. -/
theorem EntryMap.get_of_mem (m : EntryMap) (k : GoString) (v : Bool)
    (hkeys : m.keys.Nodup) (hmem : (k, v) ∈ m) : m.get k = v := by
  induction m with
  | nil => simp at hmem
  | cons kv rest ih =>
    obtain ⟨k1, v1⟩ := kv
    have hk1 : k1 ∉ EntryMap.keys rest := (List.nodup_cons.mp hkeys).1
    have hrest : (EntryMap.keys rest).Nodup := (List.nodup_cons.mp hkeys).2
    simp only [EntryMap.get]
    rcases List.mem_cons.mp hmem with h | h
    · simp only [Prod.mk.injEq] at h
      rw [h.1, h.2]
      simp
    · have hk : k ∈ EntryMap.keys rest := List.mem_map.mpr ⟨(k, v), h, rfl⟩
      have : k1 ≠ k := fun hh => hk1 (hh ▸ hk)
      rw [if_neg this]
      exact ih hrest h

/-- The indentation of depth `n` is `4 × n` spaces. -/
theorem Repeat_spaces (n : Nat) :
    strings.Repeat (str "    ") n = List.replicate (4 * n) chSpace := by
  induction n with
  | zero => rfl
  | succ n ih =>
    have h4 : str "    " = List.replicate 4 chSpace := by decide
    rw [strings.Repeat, ih, h4, ← List.replicate_add]
    congr 1
    omega

/-- Every path is a part that is empty or ends in a separator, followed by a part
without separator. -/
theorem exists_last_segment (path : GoString) :
    ∃ pre name : GoString, path = pre ++ name ∧ Separator ∉ name ∧
      (pre = [] ∨ ∃ p, pre = p ++ [Separator]) := by
  induction path with
  | nil => exact ⟨[], [], rfl, by simp, Or.inl rfl⟩
  | cons x t ih =>
    obtain ⟨pre, name, rfl, hname, hpre⟩ := ih
    rcases hpre with h | ⟨p, h⟩
    · subst h
      by_cases hx : x = Separator
      · exact ⟨[x], name, rfl, hname, Or.inr ⟨[], by simp [hx]⟩⟩
      · refine ⟨[], x :: name, rfl, ?_, Or.inl rfl⟩
        intro hmem
        rcases List.mem_cons.mp hmem with h1 | h1
        · exact hx h1.symm
        · exact hname h1
    · subst h
      exact ⟨x :: (p ++ [Separator]), name, rfl, hname, Or.inr ⟨x :: p, rfl⟩⟩

/-- The base name of a non-empty path without separator is the path. -/
theorem Base_name (name : GoString) (hne : name ≠ []) (hns : Separator ∉ name) :
    filepath.Base name = name := by
  have hne2 : name.reverse ≠ [] := by simpa using hne
  obtain ⟨c, t, hct⟩ := List.exists_cons_of_ne_nil hne2
  have hc : c ≠ Separator := by
    intro h
    apply hns
    have : c ∈ name.reverse := by rw [hct]; exact List.mem_cons_self _ _
    rw [← h]
    exact List.mem_reverse.mp this
  have hall : ∀ b ∈ name.reverse, (fun b : Byte => decide (b ≠ Separator)) b = true := by
    intro b hb
    have : b ≠ Separator := fun h => hns (h ▸ List.mem_reverse.mp hb)
    simpa using this
  unfold filepath.Base
  rw [if_neg hne]
  have hdrop : name.reverse.dropWhile (fun b => decide (b = Separator)) = name.reverse := by
    rw [hct]
    simp [List.dropWhile, hc]
  simp only [hdrop, List.reverse_reverse]
  have : (name.reverse ++ []).takeWhile (fun b => decide (b ≠ Separator)) =
      name.reverse ++ List.takeWhile (fun b => decide (b ≠ Separator)) [] :=
    List.takeWhile_append_of_pos hall
  simp only [List.append_nil, List.takeWhile_nil] at this
  rw [this]
  simp [hne]

/-- The scan of `Split` gives at least one segment. -/
theorem splitFrom_ne_nil (sep : Byte) (s : GoString) :
    ∀ cur, strings.splitFrom sep cur s ≠ [] := by
  induction s with
  | nil => intro cur; simp [strings.splitFrom]
  | cons c cs ih =>
    intro cur
    rw [strings.splitFrom]
    split
    · simp
    · exact ih _

/-- The last segment of a path is what follows its last separator. -/
theorem splitFrom_getLast (sep : Byte) (name : GoString) (h : sep ∉ name) (p : GoString) :
    ∀ cur, (strings.splitFrom sep cur (p ++ sep :: name)).getLast? = some name := by
  induction p with
  | nil =>
    intro cur
    have := splitFrom_name sep name [] [] h
    simp only [List.append_nil, List.nil_append] at this
    simp [strings.splitFrom, this]
  | cons x t ih =>
    intro cur
    rw [List.cons_append, strings.splitFrom]
    split
    · rw [List.getLast?_cons, ih []]
      rfl
    · exact ih _

/-- The base name of a path that is not empty and does not end in a separator is its
final component. -/
theorem Base_eq_lastComponent (path : GoString) (hne : path ≠ [])
    (hlast : path.getLast? ≠ some Separator) : filepath.Base path = lastComponent path := by
  obtain ⟨pre, name, rfl, hname, hpre⟩ := exists_last_segment path
  have hn : name ≠ [] := by
    intro h
    subst h
    rcases hpre with h | ⟨p, h⟩
    · subst h; exact hne rfl
    · subst h; simp at hlast
  unfold lastComponent strings.Split
  rcases hpre with h | ⟨p, h⟩
  · subst h
    have := splitFrom_name Separator name [] [] hname
    simp only [List.append_nil, List.nil_append] at this
    simp only [List.nil_append, this, strings.splitFrom]
    exact Base_name name hn hname
  · subst h
    rw [List.append_assoc, List.singleton_append, splitFrom_getLast Separator name hname p []]
    exact Base_append_sep p name hn hname

/-- C8: the tree line of an entry `(path, isDirectory)` of the entry map is `4 × d` spaces,
`d` the number of separators in `path`, then the base name of `path`, then `/` exactly for
a directory, then the line end. The base name is the final path component for a path
that is not empty and does not end in a separator, as every path made of valid names is
(the recorded files and their ancestor directories), and an entry without separator is
not indented. -/
theorem tree_line_format (m : EntryMap) (path : GoString) (isDirectory : Bool)
    (hkeys : m.keys.Nodup) (hmem : (path, isDirectory) ∈ m)
    (hne : path ≠ []) (hlast : path.getLast? ≠ some Separator) :
    renderLine m path =
      List.replicate (4 * strings.Count path Separator) chSpace ++ lastComponent path ++
        (if isDirectory then [Separator] else []) ++ [chNewline] ∧
    (strings.Count path Separator = 0 →
      renderLine m path =
        lastComponent path ++ (if isDirectory then [Separator] else []) ++ [chNewline]) ∧
    (∀ cs : List GoString, validComps cs →
      filepath.joinSep cs ≠ [] ∧ (filepath.joinSep cs).getLast? ≠ some Separator) := by
  have hget := EntryMap.get_of_mem m path isDirectory hkeys hmem
  have hbase := Base_eq_lastComponent path hne hlast
  have hmain : renderLine m path =
      List.replicate (4 * strings.Count path Separator) chSpace ++ lastComponent path ++
        (if isDirectory then [Separator] else []) ++ [chNewline] := by
    unfold renderLine
    simp only [hget, hbase, Repeat_spaces]
    have h1 : str "/\n" = [Separator, chNewline] := by decide
    have h2 : str "\n" = [chNewline] := by decide
    cases isDirectory <;> simp [h1, h2]
  refine ⟨hmain, ?_, joinSep_shape⟩
  intro h0
  rw [hmain, h0]
  simp

/-- C8 at the entries `a/b.txt` (a file) and `a` (a directory) of a map. -/
theorem tree_line_format_witness :
    renderLine [(str "a", true), (str "a/b.txt", false)] (str "a/b.txt") =
      List.replicate (4 * strings.Count (str "a/b.txt") Separator) chSpace ++
        lastComponent (str "a/b.txt") ++ (if false then [Separator] else []) ++ [chNewline] ∧
    renderLine [(str "a", true), (str "a/b.txt", false)] (str "a/b.txt") = str "    b.txt\n" :=
  ⟨(tree_line_format [(str "a", true), (str "a/b.txt", false)] (str "a/b.txt") false
      (by decide) (by decide) (by decide) (by decide)).1, by decide⟩

/-- No string is less than itself. -/
theorem stringLess_irrefl (a : GoString) : sort.stringLess a a = false := by
  induction a with
  | nil => rfl
  | cons x t ih => simp [sort.stringLess, ih]

/-- Two strings are equal or one is less than the other. -/
theorem stringLess_trichotomy (a : GoString) :
    ∀ b : GoString, sort.stringLess a b = true ∨ a = b ∨ sort.stringLess b a = true := by
  induction a with
  | nil =>
    intro b
    cases b with
    | nil => exact Or.inr (Or.inl rfl)
    | cons y u => exact Or.inl rfl
  | cons x t ih =>
    intro b
    cases b with
    | nil => exact Or.inr (Or.inr rfl)
    | cons y u =>
      simp only [sort.stringLess]
      rcases Nat.lt_trichotomy x.val y.val with h | h | h
      · left
        have : x < y := h
        simp [this]
      · have hxy : x = y := Fin.ext h
        subst hxy
        simp only [lt_self_iff_false, if_false, List.cons.injEq, true_and]
        exact ih u
      · right; right
        have : y < x := h
        simp [this]

/-- The order of strings is asymmetric. -/
theorem stringLess_asymm (a : GoString) :
    ∀ b : GoString, sort.stringLess a b = true → sort.stringLess b a = false := by
  induction a with
  | nil =>
    intro b h
    cases b <;> simp [sort.stringLess] at h ⊢
  | cons x t ih =>
    intro b h
    cases b with
    | nil => simp [sort.stringLess] at h
    | cons y u =>
      simp only [sort.stringLess] at h ⊢
      by_cases h1 : x < y
      · have : ¬ y < x := not_lt.mpr (le_of_lt h1)
        simp [this, h1]
      · by_cases h2 : y < x
        · simp [h1, h2] at h
        · simp only [h1, h2, if_false] at h ⊢
          exact ih u h

/-- The order of strings is transitive. -/
theorem stringLess_trans (a : GoString) :
    ∀ b c : GoString, sort.stringLess a b = true → sort.stringLess b c = true →
      sort.stringLess a c = true := by
  induction a with
  | nil =>
    intro b c hab hbc
    cases c with
    | nil => cases b <;> simp [sort.stringLess] at hbc
    | cons z w => rfl
  | cons x t ih =>
    intro b c hab hbc
    cases b with
    | nil => simp [sort.stringLess] at hab
    | cons y u =>
      cases c with
      | nil => simp [sort.stringLess] at hbc
      | cons z w =>
        simp only [sort.stringLess] at hab hbc ⊢
        by_cases h1 : x < y
        · by_cases h2 : y < z
          · simp [lt_trans h1 h2]
          · by_cases h3 : z < y
            · simp [h2, h3] at hbc
            · have : y = z := le_antisymm (not_lt.mp h3) (not_lt.mp h2)
              subst this
              simp [h1]
        · by_cases h1b : y < x
          · simp [h1, h1b] at hab
          · have hxy : x = y := le_antisymm (not_lt.mp h1b) (not_lt.mp h1)
            subst hxy
            simp only [h1, if_false] at hab
            by_cases h2 : x < z
            · simp [h2]
            · by_cases h3 : z < x
              · simp [h2, h3] at hbc
              · simp only [h2, h3, if_false] at hbc ⊢
                exact ih u w hab hbc

/-- The order `a ≤ b` of Go strings, written `stringLess b a = false`, is total. -/
theorem stringLE_total (a b : GoString) :
    sort.stringLess b a = false ∨ sort.stringLess a b = false := by
  rcases stringLess_trichotomy a b with h | h | h
  · exact Or.inl (stringLess_asymm a b h)
  · subst h; exact Or.inl (stringLess_irrefl a)
  · exact Or.inr (stringLess_asymm b a h)

/-- The order `a ≤ b` of strings is transitive. -/
theorem stringLE_trans (a b c : GoString) (hab : sort.stringLess b a = false)
    (hbc : sort.stringLess c b = false) : sort.stringLess c a = false := by
  cases hca : sort.stringLess c a with
  | false => rfl
  | true =>
    rcases stringLess_trichotomy a b with h | h | h
    · have := stringLess_trans c a b hca h
      rw [this] at hbc; cases hbc
    · subst h; rw [hca] at hbc; cases hbc
    · rw [h] at hab; cases hab

/-- The order `a ≤ b` of strings is antisymmetric. -/
theorem stringLE_antisymm (a b : GoString) (hab : sort.stringLess b a = false)
    (hba : sort.stringLess a b = false) : a = b := by
  rcases stringLess_trichotomy a b with h | h | h
  · rw [h] at hba; cases hba
  · exact h
  · rw [h] at hab; cases hab

/-- Insertion adds the string to the list. -/
theorem insertString_perm (x : GoString) (l : List GoString) :
    (sort.insertString x l).Perm (x :: l) := by
  induction l with
  | nil => exact List.Perm.refl _
  | cons y ys ih =>
    rw [sort.insertString]
    split
    · exact List.Perm.refl _
    · exact (List.Perm.cons y ih).trans (List.Perm.swap x y ys)

/-- The function `sort.Strings` gives a permutation of its argument. -/
theorem Strings_perm (l : List GoString) : (sort.Strings l).Perm l := by
  induction l with
  | nil => exact List.Perm.refl _
  | cons x xs ih =>
    rw [sort.Strings]
    exact (insertString_perm x _).trans (List.Perm.cons x ih)

/-- Insertion into an ascending list gives an ascending list. -/
theorem insertString_sorted (x : GoString) (l : List GoString)
    (h : l.Pairwise (fun a b => sort.stringLess b a = false)) :
    (sort.insertString x l).Pairwise (fun a b => sort.stringLess b a = false) := by
  induction l with
  | nil => simp [sort.insertString]
  | cons y ys ih =>
    have hy := (List.pairwise_cons.mp h).1
    have hys := (List.pairwise_cons.mp h).2
    rw [sort.insertString]
    by_cases hxy : sort.stringLess x y = true
    · rw [if_pos hxy]
      refine List.pairwise_cons.mpr ⟨?_, h⟩
      intro z hz
      have hyx : sort.stringLess y x = false := stringLess_asymm x y hxy
      rcases List.mem_cons.mp hz with h1 | h1
      · rw [h1]; exact hyx
      · exact stringLE_trans x y z hyx (hy z h1)
    · rw [if_neg hxy]
      have hxy2 : sort.stringLess x y = false := by simpa using hxy
      refine List.pairwise_cons.mpr ⟨?_, ih hys⟩
      intro z hz
      rcases List.mem_cons.mp ((insertString_perm x ys).subset hz) with h1 | h1
      · rw [h1]; exact hxy2
      · exact hy z h1

/-- The function `sort.Strings` gives an ascending list. -/
theorem Strings_sorted (l : List GoString) :
    (sort.Strings l).Pairwise (fun a b => sort.stringLess b a = false) := by
  induction l with
  | nil => simp [sort.Strings]
  | cons x xs ih =>
    rw [sort.Strings]
    exact insertString_sorted x _ ih

/-- Two ascending lists with the same elements are equal. -/
theorem sorted_perm_unique (l1 : List GoString) :
    ∀ l2 : List GoString, l1.Perm l2 →
      l1.Pairwise (fun a b => sort.stringLess b a = false) →
      l2.Pairwise (fun a b => sort.stringLess b a = false) → l1 = l2 := by
  induction l1 with
  | nil => intro l2 hp _ _; exact (List.Perm.nil_eq hp)
  | cons x xs ih =>
    intro l2 hp h1 h2
    cases l2 with
    | nil => exact absurd hp.symm (List.Perm.nil_eq · |> fun h => by cases h)
    | cons y ys =>
      have hx := (List.pairwise_cons.mp h1).1
      have hy := (List.pairwise_cons.mp h2).1
      have hxy : x = y := by
        have hxm : x ∈ y :: ys := hp.subset (List.mem_cons_self _ _)
        have hym : y ∈ x :: xs := hp.symm.subset (List.mem_cons_self _ _)
        rcases List.mem_cons.mp hxm with h | h
        · exact h
        · rcases List.mem_cons.mp hym with h' | h'
          · exact h'.symm
          · exact stringLE_antisymm x y (hx y h') (hy x h)
      subst hxy
      rw [ih ys (List.Perm.cons_inv hp) (List.pairwise_cons.mp h1).2 (List.pairwise_cons.mp h2).2]

/-- The sorted list does not depend on the order in which the strings are handed in. -/
theorem Strings_perm_invariant (l1 l2 : List GoString) (h : l1.Perm l2) :
    sort.Strings l1 = sort.Strings l2 :=
  sorted_perm_unique _ _ (((Strings_perm l1).trans h).trans (Strings_perm l2).symm)
    (Strings_sorted l1) (Strings_sorted l2)

/-- Appending to a builder in a loop concatenates the pieces. -/
theorem foldl_append_eq_flatten {α : Type} (f : α → GoString) (l : List α) :
    ∀ acc : GoString, l.foldl (fun b x => b ++ f x) acc = acc ++ (l.map f).flatten := by
  induction l with
  | nil => intro acc; simp
  | cons x xs ih => intro acc; simp [ih]

/-- The tree text is the concatenation of the lines of the sorted paths. -/
theorem renderTree_eq (m : EntryMap) :
    renderTree m = ((sortedPaths m).map (renderLine m)).flatten := by
  unfold renderTree
  rw [foldl_append_eq_flatten]
  simp

/-- Reading a key does not depend on the order of the entries. -/
theorem EntryMap.get_perm (m m2 : EntryMap) (hp : m2.Perm m) (hkeys : m.keys.Nodup)
    (k : GoString) (hk : k ∈ m.keys) : m2.get k = m.get k := by
  obtain ⟨kv, hkv, rfl⟩ := List.mem_map.mp hk
  have hkeys2 : m2.keys.Nodup := (List.Perm.map Prod.fst hp).nodup_iff.mpr hkeys
  rw [EntryMap.get_of_mem m kv.1 kv.2 hkeys hkv,
    EntryMap.get_of_mem m2 kv.1 kv.2 hkeys2 (hp.symm.subset hkv)]

/-- C9: the tree has one line for every key of the entry map, and the lines stand in
strictly ascending byte-wise lexicographic order of the full paths; the order in which
the map hands out its keys does not matter. The entries `a` (directory), `a/b.txt` and
`c.txt` (files) are ordered `a`, `a/b.txt`, `c.txt` and rendered as the lines `a/`,
`    b.txt`, `c.txt`. -/
theorem tree_order (m : EntryMap) (hkeys : m.keys.Nodup) :
    (sortedPaths m).Perm m.keys ∧
    (sortedPaths m).Nodup ∧
    (sortedPaths m).length = m.length ∧
    (sortedPaths m).Pairwise (fun a b => sort.stringLess a b = true) ∧
    renderTree m = ((sortedPaths m).map (renderLine m)).flatten ∧
    (∀ m2 : EntryMap, m2.Perm m → sortedPaths m2 = sortedPaths m ∧ renderTree m2 = renderTree m) ∧
    sortedPaths [(str "c.txt", false), (str "a/b.txt", false), (str "a", true)] =
      [str "a", str "a/b.txt", str "c.txt"] ∧
    renderTree [(str "c.txt", false), (str "a/b.txt", false), (str "a", true)] =
      str "a/\n" ++ str "    b.txt\n" ++ str "c.txt\n" := by
  have hperm : (sortedPaths m).Perm m.keys := Strings_perm m.keys
  have hnodup : (sortedPaths m).Nodup := hperm.nodup_iff.mpr hkeys
  have hsorted := Strings_sorted m.keys
  refine ⟨hperm, hnodup, ?_, ?_, renderTree_eq m, ?_, by decide, by decide⟩
  · rw [hperm.length_eq]
    simp [EntryMap.keys]
  · have hboth := List.Pairwise.and hsorted hnodup
    refine hboth.imp ?_
    intro a b hab
    rcases stringLess_trichotomy a b with h | h | h
    · exact h
    · exact absurd h hab.2
    · rw [h] at hab; cases hab.1
  · intro m2 hp
    have hk : (EntryMap.keys m2).Perm (EntryMap.keys m) := List.Perm.map Prod.fst hp
    have hs : sortedPaths m2 = sortedPaths m := Strings_perm_invariant _ _ hk
    refine ⟨hs, ?_⟩
    rw [renderTree_eq, renderTree_eq, hs]
    congr 1
    apply List.map_congr_left
    intro p hp2
    have hpk : p ∈ m.keys := hperm.subset hp2
    unfold renderLine
    rw [EntryMap.get_perm m m2 hp hkeys p hpk]

/-- C9 at a map holding `src/main.go`, `src` and `src.txt`. -/
theorem tree_order_witness :
    (sortedPaths [(str "src/main.go", false), (str "src", true), (str "src.txt", false)]).Pairwise
      (fun a b => sort.stringLess a b = true) ∧
    sortedPaths [(str "src/main.go", false), (str "src", true), (str "src.txt", false)] =
      [str "src", str "src.txt", str "src/main.go"] :=
  ⟨(tree_order [(str "src/main.go", false), (str "src", true), (str "src.txt", false)]
      (by decide)).2.2.2.1, by decide⟩

end Codeprep

/-! ## The content section -/

namespace Codeprep

/-- The content section is the concatenation of the blocks of the files that are read. -/
theorem assembleContent_eq (readFile : GoString → Option GoString) (dir : GoString)
    (files : List GoString) :
    assembleContent readFile dir files =
      (files.filterMap
        (fun file => (readFile (filepath.Join [dir, file])).map (contentBlock file))).flatten := by
  unfold assembleContent
  generalize hacc : ([] : GoString) = acc
  have hgoal : ∀ rest : GoString, rest = acc ++ rest := by
    intro rest; rw [← hacc]; rfl
  rw [hgoal (List.flatten _)]
  clear hgoal hacc
  induction files generalizing acc with
  | nil => simp
  | cons f rest ih =>
    rw [List.foldl_cons, ih]
    cases h : readFile (filepath.Join [dir, f]) with
    | none => simp [List.filterMap_cons, h]
    | some content => simp [List.filterMap_cons, h]

/-- C10: the content section is the concatenation, in the order of the selected list, of
one block `\n=== File: <relativePath> ===\n` + bytes + `\n` for exactly the files whose
read succeeds. A file whose read fails contributes nothing and leaves the blocks of the
other files as they are. With the files `x.txt` ("A") and `y.md` ("B") below the root and
the include pattern `*.txt`, the content section is `\n=== File: x.txt ===\nA\n`. -/
theorem content_assembly (readFile : GoString → Option GoString) (dir : GoString)
    (files : List GoString) :
    assembleContent readFile dir files =
      (files.filterMap
        (fun file => (readFile (filepath.Join [dir, file])).map (contentBlock file))).flatten ∧
    (∀ file content : GoString,
      contentBlock file content = str "\n=== File: " ++ file ++ str " ===\n" ++ content ++ str "\n") ∧
    (∀ (pre post : List GoString),
      assembleContent readFile dir (pre ++ post) =
        assembleContent readFile dir pre ++ assembleContent readFile dir post) ∧
    (∀ (pre post : List GoString) (file : GoString),
      readFile (filepath.Join [dir, file]) = none →
      assembleContent readFile dir (pre ++ file :: post) =
        assembleContent readFile dir (pre ++ post)) ∧
    (∀ (pre post : List GoString) (file content : GoString),
      readFile (filepath.Join [dir, file]) = some content →
      assembleContent readFile dir (pre ++ file :: post) =
        assembleContent readFile dir pre ++ contentBlock file content ++
          assembleContent readFile dir post) ∧
    (∀ rd : GoString → Option GoString,
      rd (str "x.txt") = some (str "A") → rd (str "y.md") = some (str "B") →
      assembleContent rd (str ".")
        (selectedPaths (splitPatterns (str "*.txt")) (splitPatterns (str ""))
          [⟨str ".", true, false⟩, ⟨str "x.txt", false, false⟩, ⟨str "y.md", false, false⟩]) =
        str "\n=== File: x.txt ===\nA\n") := by
  have key : ∀ l : List GoString, assembleContent readFile dir l =
      (l.filterMap
        (fun file => (readFile (filepath.Join [dir, file])).map (contentBlock file))).flatten := by
    intro l
    exact assembleContent_eq readFile dir l
  refine ⟨key files, fun _ _ => rfl, ?_, ?_, ?_, ?_⟩
  · intro pre post
    simp only [key, List.filterMap_append, List.flatten_append]
  · intro pre post file hfile
    simp only [key, List.filterMap_append, List.filterMap_cons, hfile, Option.map_none']
  · intro pre post file content hfile
    simp only [key, List.filterMap_append, List.filterMap_cons, hfile, Option.map_some',
      List.flatten_append, List.flatten_cons, List.append_assoc]
  · intro rd hx hy
    have hsel : selectedPaths (splitPatterns (str "*.txt")) (splitPatterns (str ""))
        [⟨str ".", true, false⟩, ⟨str "x.txt", false, false⟩, ⟨str "y.md", false, false⟩] =
        [str "x.txt"] := by decide
    have hj : filepath.Join [str ".", str "x.txt"] = str "x.txt" := by decide
    rw [hsel]
    simp only [assembleContent, List.foldl_cons, List.foldl_nil, hj, hx, List.nil_append]
    decide

/-- C10 with a read error: of the selected files `x.txt` and `z.txt` the first is read
("A") and the second is not; the content section holds the block of `x.txt` only. -/
theorem content_assembly_example :
    assembleContent
      (fun p => if p = str "x.txt" then some (str "A") else none) (str ".")
      [str "z.txt", str "x.txt"] = str "\n=== File: x.txt ===\nA\n" := by
  decide

end Codeprep

/-! ## White space -/

namespace Codeprep

/-- The function `unicode.IsSpace` accepts exactly the white space code points. -/
theorem IsSpace_iff (w : Nat) : unicode.IsSpace w = true ↔ w ∈ whiteSpaceRunes := by
  unfold unicode.IsSpace whiteSpaceRunes
  simp only [List.mem_cons, List.mem_singleton, List.not_mem_nil, or_false]
  split
  · simp only [decide_eq_true_eq]
    constructor
    · intro h; omega
    · intro h; omega
  · simp only [decide_eq_true_eq]
    constructor
    · intro h; omega
    · intro h; omega

/-- Masking with `maskx`. -/
theorem and_3F (a : Nat) : a &&& 0x3F = a % 64 := Nat.and_pow_two_sub_one_eq_mod a 6

/-- Masking with `mask2`. -/
theorem and_1F (a : Nat) : a &&& 0x1F = a % 32 := Nat.and_pow_two_sub_one_eq_mod a 5

/-- Masking with `mask3`. -/
theorem and_0F (a : Nat) : a &&& 0x0F = a % 16 := Nat.and_pow_two_sub_one_eq_mod a 4

/-- Masking with `mask4`. -/
theorem and_07 (a : Nat) : a &&& 0x07 = a % 8 := Nat.and_pow_two_sub_one_eq_mod a 3

/-- The value of a two-byte rune. -/
theorem rune2_eq (a b : Nat) : ((a &&& 0x1F) <<< 6) ||| (b &&& 0x3F) = (a % 32) * 64 + b % 64 := by
  rw [and_3F, and_1F, Nat.shiftLeft_eq]
  have := Nat.mul_add_lt_is_or (i := 6) (b := b % 64) (by omega) (a % 32)
  rw [Nat.mul_comm] at this
  exact this.symm


/-- The value of a three-byte rune. -/
theorem rune3_eq (a b c : Nat) :
    ((a &&& 0x0F) <<< 12) ||| ((b &&& 0x3F) <<< 6) ||| (c &&& 0x3F) =
      (a % 16) * 4096 + (b % 64) * 64 + c % 64 := by
  rw [and_3F, and_3F, and_0F, Nat.shiftLeft_eq, Nat.shiftLeft_eq]
  have h1 := Nat.mul_add_lt_is_or (i := 12) (b := b % 64 * 2 ^ 6) (by omega) (a % 16)
  have h2 := Nat.mul_add_lt_is_or (i := 6) (b := c % 64) (by omega) ((a % 16) * 64 + b % 64)
  have e1 : a % 16 * 2 ^ 12 = 2 ^ 12 * (a % 16) := Nat.mul_comm _ _
  rw [e1, ← h1]
  have e2 : 2 ^ 12 * (a % 16) + b % 64 * 2 ^ 6 = 2 ^ 6 * (a % 16 * 64 + b % 64) := by omega
  rw [e2, ← h2]
  omega

/-- The value of a four-byte rune. -/
theorem rune4_eq (a b c d : Nat) :
    ((a &&& 0x07) <<< 18) ||| ((b &&& 0x3F) <<< 12) ||| ((c &&& 0x3F) <<< 6) ||| (d &&& 0x3F) =
      (a % 8) * 262144 + (b % 64) * 4096 + (c % 64) * 64 + d % 64 := by
  rw [and_3F, and_3F, and_3F, and_07, Nat.shiftLeft_eq, Nat.shiftLeft_eq, Nat.shiftLeft_eq]
  have h1 := Nat.mul_add_lt_is_or (i := 18) (b := b % 64 * 2 ^ 12) (by omega) (a % 8)
  have h2 := Nat.mul_add_lt_is_or (i := 12) (b := c % 64 * 2 ^ 6) (by omega)
    ((a % 8) * 64 + b % 64)
  have h3 := Nat.mul_add_lt_is_or (i := 6) (b := d % 64) (by omega)
    (((a % 8) * 64 + b % 64) * 64 + c % 64)
  have e1 : a % 8 * 2 ^ 18 = 2 ^ 18 * (a % 8) := Nat.mul_comm _ _
  rw [e1, ← h1]
  have e2 : 2 ^ 18 * (a % 8) + b % 64 * 2 ^ 12 = 2 ^ 12 * (a % 8 * 64 + b % 64) := by omega
  rw [e2, ← h2]
  have e3 : 2 ^ 12 * (a % 8 * 64 + b % 64) + c % 64 * 2 ^ 6 =
      2 ^ 6 * ((a % 8 * 64 + b % 64) * 64 + c % 64) := by omega
  rw [e3, ← h3]
  omega

/-- The facts about the table `utf8.first` that decoding uses: the encoded size and the
accepted range of the second byte, by the value of the first byte. -/
theorem first_cases (b : Byte) :
    (b.val < 0x80 ∧ utf8.first b = 0xF0) ∨
    ((0x80 ≤ b.val ∧ b.val < 0xC2 ∨ 0xF5 ≤ b.val) ∧ utf8.first b = 0xF1) ∨
    (0xC2 ≤ b.val ∧ b.val < 0xE0 ∧ utf8.first b = 0x02) ∨
    (b.val = 0xE0 ∧ utf8.first b = 0x13) ∨
    ((0xE1 ≤ b.val ∧ b.val < 0xED ∨ b.val = 0xEE ∨ b.val = 0xEF) ∧ utf8.first b = 0x03) ∨
    (b.val = 0xED ∧ utf8.first b = 0x23) ∨
    (b.val = 0xF0 ∧ utf8.first b = 0x34) ∨
    (0xF1 ≤ b.val ∧ b.val < 0xF4 ∧ utf8.first b = 0x04) ∨
    (b.val = 0xF4 ∧ utf8.first b = 0x44) := by
  have hb := b.isLt
  unfold utf8.first
  by_cases h0 : b.val < 0x80
  · rw [if_pos h0]
    exact Or.inl ⟨h0, rfl⟩
  rw [if_neg h0]
  by_cases h1 : b.val < 0xC2
  · rw [if_pos h1]
    exact Or.inr (Or.inl ⟨Or.inl ⟨by omega, h1⟩, rfl⟩)
  rw [if_neg h1]
  by_cases h2 : b.val < 0xE0
  · rw [if_pos h2]
    exact Or.inr (Or.inr (Or.inl ⟨by omega, h2, rfl⟩))
  rw [if_neg h2]
  by_cases h3 : b.val = 0xE0
  · rw [if_pos h3]
    exact Or.inr (Or.inr (Or.inr (Or.inl ⟨h3, rfl⟩)))
  rw [if_neg h3]
  by_cases h4 : b.val < 0xED
  · rw [if_pos h4]
    exact Or.inr (Or.inr (Or.inr (Or.inr (Or.inl ⟨Or.inl ⟨by omega, h4⟩, rfl⟩))))
  rw [if_neg h4]
  by_cases h5 : b.val = 0xED
  · rw [if_pos h5]
    exact Or.inr (Or.inr (Or.inr (Or.inr (Or.inr (Or.inl ⟨h5, rfl⟩)))))
  rw [if_neg h5]
  by_cases h6 : b.val < 0xF0
  · rw [if_pos h6]
    exact Or.inr (Or.inr (Or.inr (Or.inr (Or.inl ⟨Or.inr (by omega), rfl⟩))))
  rw [if_neg h6]
  by_cases h7 : b.val = 0xF0
  · rw [if_pos h7]
    exact Or.inr (Or.inr (Or.inr (Or.inr (Or.inr (Or.inr (Or.inl ⟨h7, rfl⟩))))))
  rw [if_neg h7]
  by_cases h8 : b.val < 0xF4
  · rw [if_pos h8]
    exact Or.inr (Or.inr (Or.inr (Or.inr (Or.inr (Or.inr (Or.inr (Or.inl ⟨by omega, h8, rfl⟩)))))))
  rw [if_neg h8]
  by_cases h9 : b.val = 0xF4
  · rw [if_pos h9]
    exact Or.inr (Or.inr (Or.inr (Or.inr (Or.inr (Or.inr (Or.inr (Or.inr (⟨h9, rfl⟩))))))))
  rw [if_neg h9]
  exact Or.inr (Or.inl ⟨Or.inr (by omega), rfl⟩)

/-- Decoding at a first byte of a two-byte encoding. -/
theorem decode_two (s0 s1 : Byte) (t : GoString) (hx : utf8.first s0 = 0x02) :
    utf8.DecodeRuneInString (s0 :: s1 :: t) =
      if s1.val < 0x80 ∨ 0xBF < s1.val then (utf8.RuneError, 1)
      else ((s0.val % 32) * 64 + s1.val % 64, 2) := by
  have h1 : (2 &&& 7 : Nat) = 2 := by decide
  have h2 : (2 >>> 4 : Nat) = 0 := by decide
  unfold utf8.DecodeRuneInString
  simp only [hx, rune2_eq, h1, h2]
  simp [utf8.acceptRanges]

/-- Decoding at a first byte of a three-byte encoding, `x` being its entry in `first`. -/
theorem decode_three (s0 s1 s2 : Byte) (t : GoString) (x : Nat) (hx : utf8.first s0 = x)
    (hx3 : x = 0x13 ∨ x = 0x03 ∨ x = 0x23) :
    utf8.DecodeRuneInString (s0 :: s1 :: s2 :: t) =
      if s1.val < (utf8.acceptRanges (x >>> 4)).1 ∨ (utf8.acceptRanges (x >>> 4)).2 < s1.val then
        (utf8.RuneError, 1)
      else if s2.val < 0x80 ∨ 0xBF < s2.val then (utf8.RuneError, 1)
      else ((s0.val % 16) * 4096 + (s1.val % 64) * 64 + s2.val % 64, 3) := by
  have h1 : x &&& 7 = 3 := by rcases hx3 with h | h | h <;> subst h <;> decide
  have h0 : ¬ x ≥ 0xF0 := by omega
  unfold utf8.DecodeRuneInString
  simp only [hx, rune3_eq, h1, h0, if_false]
  simp

/-- Decoding at a first byte of a four-byte encoding, `x` being its entry in `first`. -/
theorem decode_four (s0 s1 s2 s3 : Byte) (t : GoString) (x : Nat) (hx : utf8.first s0 = x)
    (hx4 : x = 0x34 ∨ x = 0x04 ∨ x = 0x44) :
    utf8.DecodeRuneInString (s0 :: s1 :: s2 :: s3 :: t) =
      if s1.val < (utf8.acceptRanges (x >>> 4)).1 ∨ (utf8.acceptRanges (x >>> 4)).2 < s1.val then
        (utf8.RuneError, 1)
      else if s2.val < 0x80 ∨ 0xBF < s2.val then (utf8.RuneError, 1)
      else if s3.val < 0x80 ∨ 0xBF < s3.val then (utf8.RuneError, 1)
      else ((s0.val % 8) * 262144 + (s1.val % 64) * 4096 + (s2.val % 64) * 64 + s3.val % 64, 4) := by
  have h1 : x &&& 7 = 4 := by rcases hx4 with h | h | h <;> subst h <;> decide
  have h0 : ¬ x ≥ 0xF0 := by omega
  unfold utf8.DecodeRuneInString
  simp only [hx, rune4_eq, h1, h0, if_false]
  simp

/-- Decoding an encoding that is cut short gives `(RuneError, 1)`. -/
theorem decode_short (s0 : Byte) (t : GoString) (x : Nat) (hx : utf8.first s0 = x)
    (h0 : x < 0xF0) (hlen : t.length + 1 < x &&& 7) :
    utf8.DecodeRuneInString (s0 :: t) = (utf8.RuneError, 1) := by
  unfold utf8.DecodeRuneInString
  simp only [hx]
  rw [if_neg (by omega)]
  simp only [List.length_cons]
  rw [if_pos hlen]

/-- Decoding at an ASCII byte. -/
theorem decode_ascii (s0 : Byte) (t : GoString) (h : s0.val < 0x80) :
    utf8.DecodeRuneInString (s0 :: t) = (s0.val, 1) := by
  have hx : utf8.first s0 = 0xF0 := by
    unfold utf8.first
    rw [if_pos h]
  unfold utf8.DecodeRuneInString
  simp [hx]

/-- Decoding at a byte that cannot start an encoding. -/
theorem decode_invalid (s0 : Byte) (t : GoString) (hx : utf8.first s0 = 0xF1) :
    utf8.DecodeRuneInString (s0 :: t) = (utf8.RuneError, 1) := by
  unfold utf8.DecodeRuneInString
  simp [hx]

/-- The byte with the value of a byte is that byte. -/
theorem byteOf_eq (n : Nat) (b : Byte) (h : n = b.val) : byteOf n = b := by
  apply Fin.ext
  have := b.isLt
  simp only [byteOf]
  omega

/-- Encoding the value of a valid two-byte encoding gives the two bytes. -/
theorem encode_two (s0 s1 : Byte) (h0 : 0xC2 ≤ s0.val ∧ s0.val < 0xE0)
    (h1 : 0x80 ≤ s1.val ∧ s1.val ≤ 0xBF) :
    encodeRune ((s0.val % 32) * 64 + s1.val % 64) = [s0, s1] := by
  unfold encodeRune
  rw [if_neg (by omega), if_pos (by omega)]
  rw [byteOf_eq _ s0 (by omega), byteOf_eq _ s1 (by omega)]

/-- Encoding the value of a valid three-byte encoding gives the three bytes. -/
theorem encode_three (s0 s1 s2 : Byte) (h0 : 0xE0 ≤ s0.val ∧ s0.val ≤ 0xEF)
    (h1 : 0x80 ≤ s1.val ∧ s1.val ≤ 0xBF) (h2 : 0x80 ≤ s2.val ∧ s2.val ≤ 0xBF)
    (hw : 0x800 ≤ (s0.val % 16) * 4096 + (s1.val % 64) * 64 + s2.val % 64) :
    encodeRune ((s0.val % 16) * 4096 + (s1.val % 64) * 64 + s2.val % 64) = [s0, s1, s2] := by
  unfold encodeRune
  rw [if_neg (by omega), if_neg (by omega), if_pos (by omega)]
  rw [byteOf_eq _ s0 (by omega), byteOf_eq _ s1 (by omega), byteOf_eq _ s2 (by omega)]

/-- Encoding the value of a valid four-byte encoding gives the four bytes. -/
theorem encode_four (s0 s1 s2 s3 : Byte) (h0 : 0xF0 ≤ s0.val ∧ s0.val ≤ 0xF4)
    (h1 : 0x80 ≤ s1.val ∧ s1.val ≤ 0xBF) (h2 : 0x80 ≤ s2.val ∧ s2.val ≤ 0xBF)
    (h3 : 0x80 ≤ s3.val ∧ s3.val ≤ 0xBF)
    (hw : 0x10000 ≤
      (s0.val % 8) * 262144 + (s1.val % 64) * 4096 + (s2.val % 64) * 64 + s3.val % 64) :
    encodeRune ((s0.val % 8) * 262144 + (s1.val % 64) * 4096 + (s2.val % 64) * 64 + s3.val % 64) =
      [s0, s1, s2, s3] := by
  unfold encodeRune
  rw [if_neg (by omega), if_neg (by omega), if_neg (by omega)]
  rw [byteOf_eq _ s0 (by omega), byteOf_eq _ s1 (by omega), byteOf_eq _ s2 (by omega),
    byteOf_eq _ s3 (by omega)]

/-- A two-byte encoding that passes the checks of the decoder. -/
theorem valid_two (s0 s1 : Byte) (t : GoString) (hx : utf8.first s0 = 0x02)
    (h0 : 0xC2 ≤ s0.val ∧ s0.val < 0xE0) (hv : ¬ (s1.val < 0x80 ∨ 0xBF < s1.val)) :
    startsWithMultiByteRune (s0 :: s1 :: t) := by
  refine ⟨(s0.val % 32) * 64 + s1.val % 64, 2, le_refl _, by simp, ?_, ?_, ?_, ?_⟩
  · rw [decode_two s0 s1 t hx, if_neg hv]
  · rw [encode_two s0 s1 h0 (by omega)]; rfl
  · intro b hb2
    simp only [List.take_succ_cons, List.take_zero, List.tail_cons, List.mem_singleton] at hb2
    subst hb2; omega
  · intro rest
    simp only [List.take_succ_cons, List.take_zero, List.cons_append, List.nil_append]
    rw [decode_two s0 s1 rest hx, if_neg hv]

/-- A three-byte encoding that passes the checks of the decoder. -/
theorem valid_three (s0 s1 s2 : Byte) (t : GoString) (x : Nat) (hx : utf8.first s0 = x)
    (hx3 : x = 0x13 ∨ x = 0x03 ∨ x = 0x23) (h0 : 0xE0 ≤ s0.val ∧ s0.val ≤ 0xEF)
    (hlo : 0x80 ≤ (utf8.acceptRanges (x >>> 4)).1) (hhi : (utf8.acceptRanges (x >>> 4)).2 ≤ 0xBF)
    (hv1 : ¬ (s1.val < (utf8.acceptRanges (x >>> 4)).1 ∨ (utf8.acceptRanges (x >>> 4)).2 < s1.val))
    (hv2 : ¬ (s2.val < 0x80 ∨ 0xBF < s2.val))
    (hw : 0x800 ≤ (s0.val % 16) * 4096 + (s1.val % 64) * 64 + s2.val % 64) :
    startsWithMultiByteRune (s0 :: s1 :: s2 :: t) := by
  refine ⟨(s0.val % 16) * 4096 + (s1.val % 64) * 64 + s2.val % 64, 3, by omega, by simp,
    ?_, ?_, ?_, ?_⟩
  · rw [decode_three s0 s1 s2 t x hx hx3, if_neg hv1, if_neg hv2]
  · rw [encode_three s0 s1 s2 h0 (by omega) (by omega) hw]; rfl
  · intro b hb2
    simp only [List.take_succ_cons, List.take_zero, List.tail_cons, List.mem_cons,
      List.mem_singleton, List.not_mem_nil, or_false] at hb2
    rcases hb2 with h | h <;> subst h <;> omega
  · intro rest
    simp only [List.take_succ_cons, List.take_zero, List.cons_append, List.nil_append]
    rw [decode_three s0 s1 s2 rest x hx hx3, if_neg hv1, if_neg hv2]

/-- A four-byte encoding that passes the checks of the decoder. -/
theorem valid_four (s0 s1 s2 s3 : Byte) (t : GoString) (x : Nat) (hx : utf8.first s0 = x)
    (hx4 : x = 0x34 ∨ x = 0x04 ∨ x = 0x44) (h0 : 0xF0 ≤ s0.val ∧ s0.val ≤ 0xF4)
    (hlo : 0x80 ≤ (utf8.acceptRanges (x >>> 4)).1) (hhi : (utf8.acceptRanges (x >>> 4)).2 ≤ 0xBF)
    (hv1 : ¬ (s1.val < (utf8.acceptRanges (x >>> 4)).1 ∨ (utf8.acceptRanges (x >>> 4)).2 < s1.val))
    (hv2 : ¬ (s2.val < 0x80 ∨ 0xBF < s2.val)) (hv3 : ¬ (s3.val < 0x80 ∨ 0xBF < s3.val))
    (hw : 0x10000 ≤
      (s0.val % 8) * 262144 + (s1.val % 64) * 4096 + (s2.val % 64) * 64 + s3.val % 64) :
    startsWithMultiByteRune (s0 :: s1 :: s2 :: s3 :: t) := by
  refine ⟨(s0.val % 8) * 262144 + (s1.val % 64) * 4096 + (s2.val % 64) * 64 + s3.val % 64, 4,
    by omega, by simp, ?_, ?_, ?_, ?_⟩
  · rw [decode_four s0 s1 s2 s3 t x hx hx4, if_neg hv1, if_neg hv2, if_neg hv3]
  · rw [encode_four s0 s1 s2 s3 h0 (by omega) (by omega) (by omega) hw]; rfl
  · intro b hb2
    simp only [List.take_succ_cons, List.take_zero, List.tail_cons, List.mem_cons,
      List.mem_singleton, List.not_mem_nil, or_false] at hb2
    rcases hb2 with h | h | h <;> subst h <;> omega
  · intro rest
    simp only [List.take_succ_cons, List.take_zero, List.cons_append, List.nil_append]
    rw [decode_four s0 s1 s2 s3 rest x hx hx4, if_neg hv1, if_neg hv2, if_neg hv3]


/-- Decoding at the first byte of a three-byte encoding fails or reads a valid encoding. -/
theorem decode_three_cases (s0 : Byte) (t : GoString) (x : Nat) (hx : utf8.first s0 = x)
    (hx3 : x = 0x13 ∨ x = 0x03 ∨ x = 0x23) (h0 : 0xE0 ≤ s0.val ∧ s0.val ≤ 0xEF)
    (hlo : 0x80 ≤ (utf8.acceptRanges (x >>> 4)).1) (hhi : (utf8.acceptRanges (x >>> 4)).2 ≤ 0xBF)
    (hw : ∀ s1 : Byte, (utf8.acceptRanges (x >>> 4)).1 ≤ s1.val →
      s1.val ≤ (utf8.acceptRanges (x >>> 4)).2 →
      0x800 ≤ (s0.val % 16) * 4096 + (s1.val % 64) * 64) :
    utf8.DecodeRuneInString (s0 :: t) = (utf8.RuneError, 1) ∨
      startsWithMultiByteRune (s0 :: t) := by
  have h7 : x &&& 7 = 3 := by rcases hx3 with h | h | h <;> subst h <;> decide
  have hlt : x < 0xF0 := by omega
  cases t with
  | nil => exact Or.inl (decode_short s0 [] x hx hlt (by rw [h7]; simp))
  | cons s1 t1 =>
    cases t1 with
    | nil => exact Or.inl (decode_short s0 [s1] x hx hlt (by rw [h7]; simp))
    | cons s2 t2 =>
      by_cases hv1 : s1.val < (utf8.acceptRanges (x >>> 4)).1 ∨
          (utf8.acceptRanges (x >>> 4)).2 < s1.val
      · left; rw [decode_three s0 s1 s2 t2 x hx hx3, if_pos hv1]
      · by_cases hv2 : s2.val < 0x80 ∨ 0xBF < s2.val
        · left; rw [decode_three s0 s1 s2 t2 x hx hx3, if_neg hv1, if_pos hv2]
        · right
          have := hw s1 (by omega) (by omega)
          exact valid_three s0 s1 s2 t2 x hx hx3 h0 hlo hhi hv1 hv2 (by omega)

/-- Decoding at the first byte of a four-byte encoding fails or reads a valid encoding. -/
theorem decode_four_cases (s0 : Byte) (t : GoString) (x : Nat) (hx : utf8.first s0 = x)
    (hx4 : x = 0x34 ∨ x = 0x04 ∨ x = 0x44) (h0 : 0xF0 ≤ s0.val ∧ s0.val ≤ 0xF4)
    (hlo : 0x80 ≤ (utf8.acceptRanges (x >>> 4)).1) (hhi : (utf8.acceptRanges (x >>> 4)).2 ≤ 0xBF)
    (hw : ∀ s1 : Byte, (utf8.acceptRanges (x >>> 4)).1 ≤ s1.val →
      s1.val ≤ (utf8.acceptRanges (x >>> 4)).2 →
      0x10000 ≤ (s0.val % 8) * 262144 + (s1.val % 64) * 4096) :
    utf8.DecodeRuneInString (s0 :: t) = (utf8.RuneError, 1) ∨
      startsWithMultiByteRune (s0 :: t) := by
  have h7 : x &&& 7 = 4 := by rcases hx4 with h | h | h <;> subst h <;> decide
  have hlt : x < 0xF0 := by omega
  cases t with
  | nil => exact Or.inl (decode_short s0 [] x hx hlt (by rw [h7]; simp))
  | cons s1 t1 =>
    cases t1 with
    | nil => exact Or.inl (decode_short s0 [s1] x hx hlt (by rw [h7]; simp))
    | cons s2 t2 =>
      cases t2 with
      | nil => exact Or.inl (decode_short s0 [s1, s2] x hx hlt (by rw [h7]; simp))
      | cons s3 t3 =>
        by_cases hv1 : s1.val < (utf8.acceptRanges (x >>> 4)).1 ∨
            (utf8.acceptRanges (x >>> 4)).2 < s1.val
        · left; rw [decode_four s0 s1 s2 s3 t3 x hx hx4, if_pos hv1]
        · by_cases hv2 : s2.val < 0x80 ∨ 0xBF < s2.val
          · left; rw [decode_four s0 s1 s2 s3 t3 x hx hx4, if_neg hv1, if_pos hv2]
          · by_cases hv3 : s3.val < 0x80 ∨ 0xBF < s3.val
            · left
              rw [decode_four s0 s1 s2 s3 t3 x hx hx4, if_neg hv1, if_neg hv2, if_pos hv3]
            · right
              have := hw s1 (by omega) (by omega)
              exact valid_four s0 s1 s2 s3 t3 x hx hx4 h0 hlo hhi hv1 hv2 hv3 (by omega)

/-- What `utf8.DecodeRuneInString` gives on a non-empty string: an ASCII byte, or
`(RuneError, 1)` at a byte that starts no valid encoding, or a rune of two to four bytes
whose encoding is the bytes read. -/
theorem Decode_cases (s0 : Byte) (t : GoString) :
    (s0.val < 0x80 ∧ utf8.DecodeRuneInString (s0 :: t) = (s0.val, 1)) ∨
    (0x80 ≤ s0.val ∧ utf8.DecodeRuneInString (s0 :: t) = (utf8.RuneError, 1)) ∨
    (0xC2 ≤ s0.val ∧ startsWithMultiByteRune (s0 :: t)) := by
  have hb := s0.isLt
  have key : 0xC2 ≤ s0.val →
      (utf8.DecodeRuneInString (s0 :: t) = (utf8.RuneError, 1) ∨
        startsWithMultiByteRune (s0 :: t)) →
      (s0.val < 0x80 ∧ utf8.DecodeRuneInString (s0 :: t) = (s0.val, 1)) ∨
      (0x80 ≤ s0.val ∧ utf8.DecodeRuneInString (s0 :: t) = (utf8.RuneError, 1)) ∨
      (0xC2 ≤ s0.val ∧ startsWithMultiByteRune (s0 :: t)) := by
    intro h1 h2
    rcases h2 with h2 | h2
    · exact Or.inr (Or.inl ⟨by omega, h2⟩)
    · exact Or.inr (Or.inr ⟨h1, h2⟩)
  rcases first_cases s0 with ⟨h, hx⟩ | ⟨h, hx⟩ | ⟨h1, h2, hx⟩ | ⟨h, hx⟩ | ⟨h, hx⟩ | ⟨h, hx⟩ |
    ⟨h, hx⟩ | ⟨h1, h2, hx⟩ | ⟨h, hx⟩
  · exact Or.inl ⟨h, decode_ascii s0 t h⟩
  · exact Or.inr (Or.inl ⟨by omega, decode_invalid s0 t hx⟩)
  · apply key (by omega)
    cases t with
    | nil => exact Or.inl (decode_short s0 [] _ hx (by omega) (by decide))
    | cons s1 t1 =>
      by_cases hv : s1.val < 0x80 ∨ 0xBF < s1.val
      · left; rw [decode_two s0 s1 t1 hx, if_pos hv]
      · exact Or.inr (valid_two s0 s1 t1 hx ⟨h1, h2⟩ hv)
  · have ha : utf8.acceptRanges (0x13 >>> 4) = (0xA0, 0xBF) := by decide
    exact key (by omega) (decode_three_cases s0 t _ hx (Or.inl rfl) (by omega)
      (by decide) (by decide) (by rw [ha]; intro s1 h1 h2; simp only [] at h1 h2; omega))
  · have ha : utf8.acceptRanges (0x03 >>> 4) = (0x80, 0xBF) := by decide
    exact key (by omega) (decode_three_cases s0 t _ hx (Or.inr (Or.inl rfl)) (by omega)
      (by decide) (by decide) (by intro s1 _ _; omega))
  · have ha : utf8.acceptRanges (0x23 >>> 4) = (0x80, 0x9F) := by decide
    exact key (by omega) (decode_three_cases s0 t _ hx (Or.inr (Or.inr rfl)) (by omega)
      (by decide) (by decide) (by intro s1 _ _; omega))
  · have ha : utf8.acceptRanges (0x34 >>> 4) = (0x90, 0xBF) := by decide
    exact key (by omega) (decode_four_cases s0 t _ hx (Or.inl rfl) (by omega)
      (by decide) (by decide) (by rw [ha]; intro s1 h1 h2; simp only [] at h1 h2; omega))
  · have ha : utf8.acceptRanges (0x04 >>> 4) = (0x80, 0xBF) := by decide
    exact key (by omega) (decode_four_cases s0 t _ hx (Or.inr (Or.inl rfl)) (by omega)
      (by decide) (by decide) (by intro s1 _ _; omega))
  · have ha : utf8.acceptRanges (0x44 >>> 4) = (0x80, 0x8F) := by decide
    exact key (by omega) (decode_four_cases s0 t _ hx (Or.inr (Or.inr rfl)) (by omega)
      (by decide) (by decide) (by intro s1 _ _; omega))

/-- Decoding reads back a white space code point from its encoding, whatever follows. -/
theorem decode_encode_space :
    ∀ w ∈ whiteSpaceRunes, ∀ rest : GoString,
      utf8.DecodeRuneInString (encodeRune w ++ rest) = (w, (encodeRune w).length) := by
  unfold whiteSpaceRunes
  simp only [List.forall_mem_cons]
  refine ⟨?_, ?_, ?_, ?_, ?_, ?_, ?_, ?_, ?_, ?_, ?_, ?_, ?_, ?_, ?_, ?_, ?_, ?_, ?_, ?_, ?_,
    ?_, ?_, ?_, ?_, ?_⟩
  all_goals first
    | (intro rest; exact decode_ascii _ rest (by decide))
    | (intro rest
       exact (decode_two _ _ rest (by decide)).trans (by decide))
    | (intro rest
       exact (decode_three _ _ _ rest 0x03 (by decide) (by decide)).trans (by decide))
    | simp

/-- The empty string is a string of white space. -/
theorem isWhiteSpace_nil : isWhiteSpace [] := ⟨[], by simp, rfl⟩

/-- The encoding of a white space code point is a string of white space. -/
theorem isWhiteSpace_encode (w : Nat) (hw : w ∈ whiteSpaceRunes) : isWhiteSpace (encodeRune w) :=
  ⟨[w], by simpa using hw, by simp⟩

/-- Strings of white space put together are a string of white space. -/
theorem isWhiteSpace_append (a b : GoString) (ha : isWhiteSpace a) (hb : isWhiteSpace b) :
    isWhiteSpace (a ++ b) := by
  obtain ⟨ra, hra, rfl⟩ := ha
  obtain ⟨rb, hrb, rfl⟩ := hb
  refine ⟨ra ++ rb, ?_, by simp⟩
  intro r hr
  rcases List.mem_append.mp hr with h | h
  · exact hra r h
  · exact hrb r h

/-- An encoding has at least one byte. -/
theorem encodeRune_ne_nil (w : Nat) : encodeRune w ≠ [] := by
  unfold encodeRune
  split_ifs <;> simp

/-- A white space rune that is decoded at the start of a string was read from its
encoding. -/
theorem decode_space_take (s : GoString) (hs : s ≠ [])
    (h : unicode.IsSpace (utf8.DecodeRuneInString s).1 = true) :
    s.take (utf8.DecodeRuneInString s).2 = encodeRune (utf8.DecodeRuneInString s).1 := by
  obtain ⟨s0, t, rfl⟩ := List.exists_cons_of_ne_nil hs
  rcases Decode_cases s0 t with ⟨h0, hd⟩ | ⟨h0, hd⟩ | ⟨h0, w, n, hn, hlen, hd, henc, -, -⟩
  · rw [hd]
    simp only [List.take_succ_cons, List.take_zero]
    unfold encodeRune
    rw [if_pos h0, byteOf_eq _ s0 rfl]
  · rw [hd] at h
    exact absurd h (by decide)
  · rw [hd]
    exact henc.symm

/-- The string left by `TrimLeftFunc(s, unicode.IsSpace)` follows a run of white space
and does not start with white space. -/
theorem trimLeftLoop_space (fuel : Nat) :
    ∀ s t : GoString, strings.trimLeftLoop unicode.IsSpace fuel s = some t →
      ∃ l, s = l ++ t ∧ isWhiteSpace l ∧
        (t = [] ∨ unicode.IsSpace (utf8.DecodeRuneInString t).1 = false) := by
  induction fuel with
  | zero => intro s t h; simp [strings.trimLeftLoop] at h
  | succ fuel ih =>
    intro s t h
    rw [strings.trimLeftLoop] at h
    by_cases hs : s = []
    · rw [if_pos hs] at h
      simp only [Option.some.injEq] at h
      subst h
      exact ⟨[], by simpa using hs, isWhiteSpace_nil, Or.inl rfl⟩
    · rw [if_neg hs] at h
      simp only [] at h
      by_cases hsp : unicode.IsSpace (utf8.DecodeRuneInString s).1 = false
      · rw [if_pos hsp] at h
        simp only [Option.some.injEq] at h
        subst h
        exact ⟨[], rfl, isWhiteSpace_nil, Or.inr hsp⟩
      · rw [if_neg hsp] at h
        have hsp2 : unicode.IsSpace (utf8.DecodeRuneInString s).1 = true := by
          simpa using hsp
        obtain ⟨l, hl, hlw, ht⟩ := ih _ t h
        have htake := decode_space_take s hs hsp2
        refine ⟨encodeRune (utf8.DecodeRuneInString s).1 ++ l, ?_, ?_, ht⟩
        · rw [List.append_assoc, ← hl, ← htake, List.take_append_drop]
        · exact isWhiteSpace_append _ _
            (isWhiteSpace_encode _ ((IsSpace_iff _).mp hsp2)) hlw

/-- A string whose first rune is no white space does not start with the encoding of a
white space code point. -/
theorem not_starts_with_space (t : GoString)
    (ht : t = [] ∨ unicode.IsSpace (utf8.DecodeRuneInString t).1 = false) :
    ∀ w ∈ whiteSpaceRunes, ∀ rest : GoString, t ≠ encodeRune w ++ rest := by
  intro w hw rest heq
  rcases ht with h | h
  · rw [h] at heq
    have := congrArg List.length heq
    have hne := encodeRune_ne_nil w
    have : 0 < (encodeRune w).length := List.length_pos.mpr hne
    simp only [List.length_nil, List.length_append] at *
    omega
  · rw [heq, decode_encode_space w hw rest] at h
    simp only [] at h
    rw [(IsSpace_iff w).mpr hw] at h
    cases h

/-- The backwards scan stops at a rune start. -/
theorem scanBack_found (s : GoString) (lim k : Nat) (hlim : lim ≤ k)
    (hrs : utf8.RuneStart (s.getD k 0) = true) : utf8.scanBack s lim k = some k := by
  cases k with
  | zero =>
    rw [utf8.scanBack, if_pos (by omega), if_pos hrs]
  | succ k =>
    rw [utf8.scanBack, if_neg (by omega), if_pos hrs]

/-- The backwards scan steps over a continuation byte. -/
theorem scanBack_skip (s : GoString) (lim k : Nat) (hlim : lim ≤ k + 1)
    (hrs : utf8.RuneStart (s.getD (k + 1) 0) = false) :
    utf8.scanBack s lim (k + 1) = utf8.scanBack s lim k := by
  rw [utf8.scanBack, if_neg (by omega), if_neg (by rw [hrs]; exact Bool.false_ne_true)]

/-- Reading a byte of the second part of a string. -/
theorem getD_append_at (u v : GoString) (i : Nat) :
    (u ++ v).getD (u.length + i) 0 = v.getD i 0 := by
  rw [List.getD_append_right _ _ _ _ (by omega)]
  congr 1
  omega

/-- The last rune of a string that ends in an ASCII byte. -/
theorem declast_ascii (u : GoString) (b : Byte) (h : b.val < 0x80) :
    utf8.DecodeLastRuneInString (u ++ [b]) = (b.val, 1) := by
  have hg : (u ++ [b]).getD ((u ++ [b]).length - 1) 0 = b := by
    have := getD_append_at u [b] 0
    simp only [List.length_append, List.length_singleton, Nat.add_sub_cancel]
    simp
  unfold utf8.DecodeLastRuneInString
  simp only [hg]
  rw [if_neg (by simp), if_pos (by unfold utf8.RuneSelf; omega)]

/-- The last rune of a string that ends in a two-byte encoding. -/
theorem declast_two (u : GoString) (b0 b1 : Byte) (w : Nat) (h1 : 0x80 ≤ b1.val)
    (h0 : utf8.RuneStart b0 = true) (hd : utf8.DecodeRuneInString [b0, b1] = (w, 2)) :
    utf8.DecodeLastRuneInString (u ++ [b0, b1]) = (w, 2) := by
  have hlen : (u ++ [b0, b1]).length = u.length + 2 := by simp
  have hg : (u ++ [b0, b1]).getD ((u ++ [b0, b1]).length - 1) 0 = b1 := by
    have := getD_append_at u [b0, b1] 1
    rw [hlen]
    simpa using this
  have hg0 : (u ++ [b0, b1]).getD u.length 0 = b0 := by
    have := getD_append_at u [b0, b1] 0
    simpa using this
  have hstart : utf8.lastRuneStart (u ++ [b0, b1]) = u.length := by
    unfold utf8.lastRuneStart
    rw [hlen]
    simp only [Nat.add_one_sub_one, Nat.reduceAdd,
      show u.length + 2 - 1 = u.length + 1 from by omega]
    rw [scanBack_found _ _ _ (by unfold utf8.UTFMax; omega) (by rw [hg0]; exact h0)]
    rfl
  unfold utf8.DecodeLastRuneInString
  simp only [hg, hstart, List.drop_left, hd]
  rw [if_neg (by simp), if_neg (by unfold utf8.RuneSelf; omega)]
  simp

/-- The last rune of a string that ends in a three-byte encoding. -/
theorem declast_three (u : GoString) (b0 b1 b2 : Byte) (w : Nat) (h2 : 0x80 ≤ b2.val)
    (h1 : utf8.RuneStart b1 = false) (h0 : utf8.RuneStart b0 = true)
    (hd : utf8.DecodeRuneInString [b0, b1, b2] = (w, 3)) :
    utf8.DecodeLastRuneInString (u ++ [b0, b1, b2]) = (w, 3) := by
  have hlen : (u ++ [b0, b1, b2]).length = u.length + 3 := by simp
  have hg : (u ++ [b0, b1, b2]).getD ((u ++ [b0, b1, b2]).length - 1) 0 = b2 := by
    have := getD_append_at u [b0, b1, b2] 2
    rw [hlen]
    simpa using this
  have hg1 : (u ++ [b0, b1, b2]).getD (u.length + 1) 0 = b1 := by
    have := getD_append_at u [b0, b1, b2] 1
    simpa using this
  have hg0 : (u ++ [b0, b1, b2]).getD u.length 0 = b0 := by
    have := getD_append_at u [b0, b1, b2] 0
    simpa using this
  have hstart : utf8.lastRuneStart (u ++ [b0, b1, b2]) = u.length := by
    unfold utf8.lastRuneStart
    rw [hlen]
    simp only [show u.length + 3 - 1 = (u.length + 1) + 1 from by omega]
    rw [scanBack_skip _ _ _ (by unfold utf8.UTFMax; omega) (by rw [hg1]; exact h1),
      scanBack_found _ _ _ (by unfold utf8.UTFMax; omega) (by rw [hg0]; exact h0)]
    rfl
  unfold utf8.DecodeLastRuneInString
  simp only [hg, hstart, List.drop_left, hd]
  rw [if_neg (by simp), if_neg (by unfold utf8.RuneSelf; omega)]
  simp

/-- Decoding backwards reads back a white space code point from its encoding at the end
of a string, whatever stands before it. -/
theorem declast_encode_space :
    ∀ w ∈ whiteSpaceRunes, ∀ u : GoString,
      utf8.DecodeLastRuneInString (u ++ encodeRune w) = (w, (encodeRune w).length) := by
  unfold whiteSpaceRunes
  simp only [List.forall_mem_cons]
  refine ⟨?_, ?_, ?_, ?_, ?_, ?_, ?_, ?_, ?_, ?_, ?_, ?_, ?_, ?_, ?_, ?_, ?_, ?_, ?_, ?_, ?_,
    ?_, ?_, ?_, ?_, ?_⟩
  all_goals first
    | (intro u; exact declast_ascii u _ (by decide))
    | (intro u; exact declast_two u _ _ _ (by decide) (by decide) (by decide))
    | (intro u; exact declast_three u _ _ _ _ (by decide) (by decide) (by decide) (by decide))
    | simp

/-- The first byte of the encoding of a white space code point is an ASCII white space
byte or a lead byte; the last one is an ASCII white space byte or a continuation byte. -/
theorem encode_space_ends :
    ∀ w ∈ whiteSpaceRunes,
      (∃ c t, encodeRune w = c :: t ∧
        ((c.val < 0x80 ∧ strings.asciiSpace c = true ∧ t = []) ∨ 0xC2 ≤ c.val)) ∧
      (∃ u c, encodeRune w = u ++ [c] ∧
        ((c.val < 0x80 ∧ strings.asciiSpace c = true ∧ u = []) ∨ 0x80 ≤ c.val)) := by
  unfold whiteSpaceRunes
  simp only [List.forall_mem_cons]
  refine ⟨?_, ?_, ?_, ?_, ?_, ?_, ?_, ?_, ?_, ?_, ?_, ?_, ?_, ?_, ?_, ?_, ?_, ?_, ?_, ?_, ?_,
    ?_, ?_, ?_, ?_, ?_⟩
  all_goals first
    | exact ⟨⟨_, [], rfl, by decide⟩, ⟨[], _, rfl, by decide⟩⟩
    | exact ⟨⟨_, [_], rfl, by decide⟩, ⟨[_], _, rfl, by decide⟩⟩
    | exact ⟨⟨_, [_, _], rfl, by decide⟩, ⟨[_, _], _, rfl, by decide⟩⟩
    | simp

/-- On ASCII the function `unicode.IsSpace` is the table `strings.asciiSpace`. -/
theorem IsSpace_ascii (b : Byte) (h : b.val < 0x80) :
    unicode.IsSpace b.val = strings.asciiSpace b := by
  unfold unicode.IsSpace strings.asciiSpace
  rw [if_pos (by omega)]
  have h1 : ¬ b.val = 0x85 := by omega
  have h2 : ¬ b.val = 0xA0 := by omega
  simp only [h1, h2, or_false]

/-- A string of white space is empty or starts with the encoding of a white space code
point. -/
theorem isWhiteSpace_cases (r : GoString) (h : isWhiteSpace r) :
    r = [] ∨ ∃ w ∈ whiteSpaceRunes, ∃ rest, r = encodeRune w ++ rest ∧ isWhiteSpace rest := by
  obtain ⟨rs, hrs, rfl⟩ := h
  cases rs with
  | nil => exact Or.inl rfl
  | cons w ws =>
    refine Or.inr ⟨w, hrs w (List.mem_cons_self _ _), _, by simp, ws, ?_, rfl⟩
    intro x hx
    exact hrs x (List.mem_cons_of_mem _ hx)

/-- A byte that is no ASCII byte and is followed by white space only is decoded as
`(RuneError, 1)`: the decoder finds no continuation byte in the white space. -/
theorem decode_before_space (b : Byte) (r : GoString) (hr : isWhiteSpace r)
    (hb : 0x80 ≤ b.val) :
    utf8.DecodeRuneInString (b :: r) = (utf8.RuneError, 1) := by
  rcases Decode_cases b r with ⟨h0, hd⟩ | ⟨h0, hd⟩ | ⟨h0, w, n, hn, hlen, hd, henc, hcont, -⟩
  · omega
  · exact hd
  · rcases isWhiteSpace_cases r hr with hr0 | ⟨w2, hw2, rest, hr2, -⟩
    · subst hr0
      simp only [List.length_cons, List.length_nil] at hlen
      omega
    · obtain ⟨⟨c, t, hc, hcb⟩, -⟩ := encode_space_ends w2 hw2
      rw [hr2, hc] at hcont
      have hmem : c ∈ ((b :: (c :: t ++ rest)).take n).tail := by
        obtain ⟨m, rfl⟩ : ∃ m, n = m + 2 := ⟨n - 2, by omega⟩
        simp
      have := hcont c hmem
      rcases hcb with ⟨h4, -, -⟩ | h4 <;> omega

/-- What `utf8.DecodeLastRuneInString` gives on a non-empty string `keep`: its last byte
if that is ASCII, or `(RuneError, 1)` at a last byte that ends no valid encoding, or the
rune of a valid encoding of two to four bytes that ends the string. -/
theorem DecodeLast_cases (u : GoString) (b : Byte) :
    (b.val < 0x80 ∧ utf8.DecodeLastRuneInString (u ++ [b]) = (b.val, 1)) ∨
    (0x80 ≤ b.val ∧ utf8.DecodeLastRuneInString (u ++ [b]) = (utf8.RuneError, 1)) ∨
    (∃ pre enc, u ++ [b] = pre ++ enc ∧ startsWithMultiByteRune enc ∧
      utf8.DecodeLastRuneInString (u ++ [b]) = utf8.DecodeRuneInString enc ∧
      (utf8.DecodeRuneInString enc).2 = enc.length) := by
  by_cases hb : b.val < 0x80
  · exact Or.inl ⟨hb, declast_ascii u b hb⟩
  · have hne : u ++ [b] ≠ [] := by simp
    have hlen : (u ++ [b]).length = u.length + 1 := by simp
    have hg : (u ++ [b]).getD ((u ++ [b]).length - 1) 0 = b := by
      rw [hlen]
      simp
    have hstart := lastRuneStart_lt (u ++ [b]) hne
    have hval : utf8.DecodeLastRuneInString (u ++ [b]) =
        if utf8.lastRuneStart (u ++ [b]) +
            (utf8.DecodeRuneInString ((u ++ [b]).drop (utf8.lastRuneStart (u ++ [b])))).2 ≠
            (u ++ [b]).length
        then (utf8.RuneError, 1)
        else utf8.DecodeRuneInString ((u ++ [b]).drop (utf8.lastRuneStart (u ++ [b]))) := by
      unfold utf8.DecodeLastRuneInString
      simp only [hg]
      rw [if_neg (by omega), if_neg (by unfold utf8.RuneSelf; omega)]
    generalize hst : utf8.lastRuneStart (u ++ [b]) = start at hval hstart
    by_cases hend : start + (utf8.DecodeRuneInString ((u ++ [b]).drop start)).2 ≠
        (u ++ [b]).length
    · rw [if_pos hend] at hval
      exact Or.inr (Or.inl ⟨by omega, hval⟩)
    · rw [if_neg hend] at hval
      have hend2 : start + (utf8.DecodeRuneInString ((u ++ [b]).drop start)).2 =
          (u ++ [b]).length := by
        simpa using hend
      have hdl : ((u ++ [b]).drop start).length = (u ++ [b]).length - start := List.length_drop _ _
      have hdne : (u ++ [b]).drop start ≠ [] := by
        intro h
        rw [h] at hdl
        simp only [List.length_nil] at hdl
        omega
      obtain ⟨s0, t, hs0⟩ := List.exists_cons_of_ne_nil hdne
      rw [hs0] at hval hend2 hdl
      rcases Decode_cases s0 t with ⟨h0, hd⟩ | ⟨h0, hd⟩ | ⟨h0, hv⟩
      · -- an ASCII byte that ends the string would be its last byte
        exfalso
        rw [hd] at hend2
        simp only [] at hend2
        have ht : t = [] := by
          have : t.length = 0 := by
            simp only [List.length_cons] at hdl
            omega
          exact List.length_eq_zero.mp this
        subst ht
        have hsplit : u ++ [b] = (u ++ [b]).take start ++ [s0] := by
          rw [← hs0, List.take_append_drop]
        have := List.append_inj_right' hsplit (by simp)
        simp only [List.cons.injEq, and_true] at this
        rw [this] at hb
        exact hb h0
      · rw [hd] at hval
        exact Or.inr (Or.inl ⟨by omega, hval⟩)
      · refine Or.inr (Or.inr ⟨(u ++ [b]).take start, s0 :: t, ?_, hv, hval, ?_⟩)
        · rw [← hs0, List.take_append_drop]
        · omega

/-- A white space rune that is decoded at the end of a string was read from its encoding,
which ends the string. -/
theorem declast_space_take (pre : GoString) (hne : pre ≠ [])
    (h : unicode.IsSpace (utf8.DecodeLastRuneInString pre).1 = true) :
    pre = pre.take (pre.length - (utf8.DecodeLastRuneInString pre).2) ++
      encodeRune (utf8.DecodeLastRuneInString pre).1 := by
  obtain ⟨u, b, rfl⟩ : ∃ u b, pre = u ++ [b] :=
    ⟨pre.dropLast, pre.getLast hne, (List.dropLast_append_getLast hne).symm⟩
  rcases DecodeLast_cases u b with ⟨h0, hd⟩ | ⟨h0, hd⟩ | ⟨p0, enc, hsplit, hv, hd, hlen⟩
  · rw [hd]
    simp only [List.length_append, List.length_singleton, Nat.add_sub_cancel,
      List.take_left']
    unfold encodeRune
    rw [if_pos h0, byteOf_eq _ b rfl]
  · rw [hd] at h
    exact absurd h (by decide)
  · obtain ⟨w, n, hn, hnl, hdec, henc, -, -⟩ := hv
    rw [hd, hdec]
    rw [hdec] at hlen
    simp only [] at hlen ⊢
    rw [hlen, List.take_length] at henc
    rw [hsplit, henc]
    simp only [List.length_append, hlen, Nat.add_sub_cancel, List.take_left']

/-- The backwards loop of `TrimRightFunc(s, unicode.IsSpace)`: it runs over a run of white
space at the end and stops at the last rune that is no white space. -/
theorem lastIndexLoop_space (fuel : Nat) :
    ∀ (pre : GoString) (res : Option Nat),
      strings.lastIndexLoop unicode.IsSpace fuel pre = some res →
      (res = none ∧ isWhiteSpace pre) ∨
      (∃ keep r, pre = keep ++ r ∧ isWhiteSpace r ∧ keep ≠ [] ∧
        unicode.IsSpace (utf8.DecodeLastRuneInString keep).1 = false ∧
        res = some (keep.length - (utf8.DecodeLastRuneInString keep).2)) := by
  induction fuel with
  | zero => intro pre res h; simp [strings.lastIndexLoop] at h
  | succ fuel ih =>
    intro pre res h
    rw [strings.lastIndexLoop] at h
    by_cases hlen : pre.length = 0
    · rw [if_pos hlen] at h
      simp only [Option.some.injEq] at h
      have : pre = [] := List.length_eq_zero.mp hlen
      subst this
      exact Or.inl ⟨h.symm, isWhiteSpace_nil⟩
    · rw [if_neg hlen] at h
      have hne : pre ≠ [] := fun hh => hlen (by rw [hh]; rfl)
      simp only [] at h
      by_cases hsp : unicode.IsSpace (utf8.DecodeLastRuneInString pre).1 = false
      · rw [if_pos hsp] at h
        simp only [Option.some.injEq] at h
        exact Or.inr ⟨pre, [], by simp, isWhiteSpace_nil, hne, hsp, h.symm⟩
      · rw [if_neg hsp] at h
        have hsp2 : unicode.IsSpace (utf8.DecodeLastRuneInString pre).1 = true := by
          simpa using hsp
        have htake := declast_space_take pre hne hsp2
        have hws := isWhiteSpace_encode _ ((IsSpace_iff _).mp hsp2)
        rcases ih _ res h with ⟨h1, h2⟩ | ⟨keep, r, h1, h2, h3, h4, h5⟩
        · refine Or.inl ⟨h1, ?_⟩
          rw [htake]
          exact isWhiteSpace_append _ _ h2 hws
        · refine Or.inr ⟨keep, r ++ encodeRune (utf8.DecodeLastRuneInString pre).1, ?_,
            isWhiteSpace_append _ _ h2 hws, h3, h4, h5⟩
          rw [← List.append_assoc, ← h1]
          exact htake

/-- The function `TrimRightFunc` when every rune satisfies `f`. -/
theorem TrimRightFunc_none (t : GoString) (f : Nat → Bool)
    (h : strings.lastIndexLoop f (t.length + 1) t = some none) :
    strings.TrimRightFunc t f = [] := by
  unfold strings.TrimRightFunc
  rw [h]
  rfl

/-- The function `TrimRightFunc` when the last rune that does not satisfy `f` starts at `i`. -/
theorem TrimRightFunc_some (t : GoString) (f : Nat → Bool) (i : Nat)
    (h : strings.lastIndexLoop f (t.length + 1) t = some (some i)) :
    strings.TrimRightFunc t f =
      if (t.getD i 0).val ≥ utf8.RuneSelf then
        t.take (i + (utf8.DecodeRuneInString (t.drop i)).2)
      else t.take (i + 1) := by
  unfold strings.TrimRightFunc
  rw [h]
  rfl

/-- The string left by `TrimRightFunc(t, unicode.IsSpace)` is followed by a run of white
space and does not end in a white space rune. -/
theorem TrimRightFunc_space (t : GoString) :
    ∃ r, t = strings.TrimRightFunc t unicode.IsSpace ++ r ∧ isWhiteSpace r ∧
      (strings.TrimRightFunc t unicode.IsSpace = [] ∨
        unicode.IsSpace
          (utf8.DecodeLastRuneInString (strings.TrimRightFunc t unicode.IsSpace)).1 = false) := by
  obtain ⟨res, hres⟩ := TrimRightFunc_budget t unicode.IsSpace
  rcases lastIndexLoop_space _ t res hres with ⟨h1, h2⟩ | ⟨keep, r, h1, h2, h3, h4, h5⟩
  · subst h1
    rw [TrimRightFunc_none t _ hres]
    exact ⟨t, rfl, h2, Or.inl rfl⟩
  · subst h5
    have hval := TrimRightFunc_some t _ _ hres
    have hkeep : strings.TrimRightFunc t unicode.IsSpace = keep := by
      rw [hval]
      obtain ⟨u, b, rfl⟩ : ∃ u b, keep = u ++ [b] :=
        ⟨keep.dropLast, keep.getLast h3, (List.dropLast_append_getLast h3).symm⟩
      rcases DecodeLast_cases u b with ⟨h0, hd⟩ | ⟨h0, hd⟩ | ⟨p0, enc, hsplit, hv, hd, hlen⟩
      · rw [hd]
        simp only [List.length_append, List.length_singleton, Nat.add_sub_cancel]
        have hg : t.getD u.length 0 = b := by
          rw [h1, List.append_assoc]
          have := getD_append_at u ([b] ++ r) 0
          simpa using this
        rw [hg, if_neg (by unfold utf8.RuneSelf; omega), h1]
        have : (u ++ [b]).length = u.length + 1 := by simp
        rw [← this, List.take_left']
        rfl
      · rw [hd]
        simp only [List.length_append, List.length_singleton, Nat.add_sub_cancel]
        have hg : t.getD u.length 0 = b := by
          rw [h1, List.append_assoc]
          have := getD_append_at u ([b] ++ r) 0
          simpa using this
        have hdrop : t.drop u.length = b :: r := by
          rw [h1, List.append_assoc, List.drop_left']
          · rfl
          · rfl
        rw [hg, if_pos (by unfold utf8.RuneSelf; omega), hdrop,
          decode_before_space b r h2 h0, h1]
        have : (u ++ [b]).length = u.length + 1 := by simp
        rw [← this, List.take_left']
        rfl
      · obtain ⟨w, n, hn, hnl, hdec, henc, -, hstab⟩ := hv
        rw [hd, hdec]
        rw [hdec] at hlen
        simp only [] at hlen ⊢
        have hkl : (u ++ [b]).length = p0.length + n := by
          rw [hsplit, List.length_append, hlen]
        rw [hkl, Nat.add_sub_cancel]
        obtain ⟨e0, et, rfl⟩ : ∃ e0 et, enc = e0 :: et := by
          cases enc with
          | nil => simp at hnl; omega
          | cons e0 et => exact ⟨e0, et, rfl⟩
        have he0 : 0x80 ≤ e0.val := by
          rcases Decode_cases e0 et with ⟨_, hd2⟩ | ⟨h6, _⟩ | ⟨h6, _⟩
          · rw [hd2] at hdec
            simp only [Prod.mk.injEq] at hdec
            omega
          · exact h6
          · omega
        have ht : t = p0 ++ ((e0 :: et) ++ r) := by
          rw [h1, hsplit, List.append_assoc]
        have hg : t.getD p0.length 0 = e0 := by
          rw [ht]
          have := getD_append_at p0 ((e0 :: et) ++ r) 0
          simpa using this
        have hdrop : t.drop p0.length = (e0 :: et) ++ r := by
          rw [ht, List.drop_left']
          rfl
        have hst := hstab r
        rw [hlen, List.take_length] at hst
        rw [hg, if_pos (by unfold utf8.RuneSelf; omega), hdrop, hst]
        simp only []
        rw [h1, hsplit]
        exact List.take_left' (by rw [List.length_append])
    rw [hkeep]
    exact ⟨r, h1, h2, Or.inr h4⟩

/-- A string whose last rune is no white space does not end in the encoding of a white
space code point. -/
theorem not_ends_with_space (t : GoString)
    (ht : t = [] ∨ unicode.IsSpace (utf8.DecodeLastRuneInString t).1 = false) :
    ∀ w ∈ whiteSpaceRunes, ∀ u : GoString, t ≠ u ++ encodeRune w := by
  intro w hw u heq
  rcases ht with h | h
  · rw [h] at heq
    have h1 := congrArg List.length heq
    have h2 : 0 < (encodeRune w).length := List.length_pos.mpr (encodeRune_ne_nil w)
    simp only [List.length_nil, List.length_append] at h1
    omega
  · rw [heq, declast_encode_space w hw u] at h
    simp only [] at h
    rw [(IsSpace_iff w).mpr hw] at h
    cases h

/-- An ASCII white space byte is a string of white space. -/
theorem isWhiteSpace_ascii_byte (c : Byte) (h : c.val < 0x80)
    (hs : strings.asciiSpace c = true) : isWhiteSpace [c] := by
  have h1 : unicode.IsSpace c.val = true := by rw [IsSpace_ascii c h]; exact hs
  have h2 := isWhiteSpace_encode c.val ((IsSpace_iff _).mp h1)
  have h3 : encodeRune c.val = [c] := by
    unfold encodeRune
    rw [if_pos h, byteOf_eq _ c rfl]
  rw [h3] at h2
  exact h2

/-- The function `strings.TrimFunc(s, unicode.IsSpace)` cuts a run of white space off
each end and leaves a string without white space at its ends. -/
theorem TrimFunc_space (s : GoString) :
    ∃ l r, s = l ++ strings.TrimFunc s unicode.IsSpace ++ r ∧ isWhiteSpace l ∧ isWhiteSpace r ∧
      (∀ w ∈ whiteSpaceRunes, ∀ rest : GoString,
        strings.TrimFunc s unicode.IsSpace ≠ encodeRune w ++ rest) ∧
      (∀ w ∈ whiteSpaceRunes, ∀ u : GoString,
        strings.TrimFunc s unicode.IsSpace ≠ u ++ encodeRune w) := by
  unfold strings.TrimFunc
  obtain ⟨l, hl, hlw, ht⟩ := trimLeftLoop_space _ s _ (TrimLeftFunc_eq s unicode.IsSpace)
  obtain ⟨r, hr, hrw, hk⟩ := TrimRightFunc_space (strings.TrimLeftFunc s unicode.IsSpace)
  refine ⟨l, r, ?_, hlw, hrw, ?_, not_ends_with_space _ hk⟩
  · rw [List.append_assoc, ← hr]
    exact hl
  · intro w hw rest heq
    rw [heq, List.append_assoc] at hr
    exact not_starts_with_space _ ht w hw _ hr

/-- The backward loop of `strings.TrimSpace` cuts a run of white space off the end and
leaves a string that does not end in white space. -/
theorem trimSpaceBack_space (rv : GoString) :
    ∃ r, rv.reverse = strings.trimSpaceBack rv ++ r ∧ isWhiteSpace r ∧
      (strings.trimSpaceBack rv = [] ∨
        unicode.IsSpace (utf8.DecodeLastRuneInString (strings.trimSpaceBack rv)).1 = false) := by
  induction rv with
  | nil => exact ⟨[], rfl, isWhiteSpace_nil, Or.inl rfl⟩
  | cons c rest ih =>
    rw [strings.trimSpaceBack]
    by_cases hc : c.val ≥ utf8.RuneSelf
    · rw [if_pos hc]
      exact TrimRightFunc_space _
    · rw [if_neg hc]
      have hc2 : c.val < 0x80 := by unfold utf8.RuneSelf at hc; omega
      by_cases hs : strings.asciiSpace c = true
      · rw [if_pos hs]
        obtain ⟨r, hr, hrw, hk⟩ := ih
        refine ⟨r ++ [c], ?_, isWhiteSpace_append _ _ hrw (isWhiteSpace_ascii_byte c hc2 hs), hk⟩
        rw [List.reverse_cons, hr, List.append_assoc]
      · rw [if_neg hs]
        refine ⟨[], by simp, isWhiteSpace_nil, Or.inr ?_⟩
        rw [List.reverse_cons, declast_ascii _ c hc2]
        simp only []
        rw [IsSpace_ascii c hc2]
        simpa using hs

/-- The function `strings.TrimSpace` removes the white space at the two ends of a string:
the string is a run of white space, then the result, then a run of white space, and the
result neither starts nor ends with the encoding of a white space code point. -/
theorem TrimSpace_space (s : GoString) :
    ∃ l r, s = l ++ strings.TrimSpace s ++ r ∧ isWhiteSpace l ∧ isWhiteSpace r ∧
      (∀ w ∈ whiteSpaceRunes, ∀ rest : GoString, strings.TrimSpace s ≠ encodeRune w ++ rest) ∧
      (∀ w ∈ whiteSpaceRunes, ∀ u : GoString, strings.TrimSpace s ≠ u ++ encodeRune w) := by
  induction s with
  | nil =>
    refine ⟨[], [], rfl, isWhiteSpace_nil, isWhiteSpace_nil, ?_, ?_⟩
    · exact not_starts_with_space [] (Or.inl rfl)
    · exact not_ends_with_space [] (Or.inl rfl)
  | cons c rest ih =>
    rw [strings.TrimSpace]
    by_cases hc : c.val ≥ utf8.RuneSelf
    · rw [if_pos hc]
      exact TrimFunc_space _
    · rw [if_neg hc]
      have hc2 : c.val < 0x80 := by unfold utf8.RuneSelf at hc; omega
      by_cases hs : strings.asciiSpace c = true
      · rw [if_pos hs]
        obtain ⟨l, r, h1, h2, h3, h4, h5⟩ := ih
        refine ⟨c :: l, r, ?_, ?_, h3, h4, h5⟩
        · rw [List.cons_append, List.cons_append, ← h1]
        · exact isWhiteSpace_append [c] l (isWhiteSpace_ascii_byte c hc2 hs) h2
      · rw [if_neg hs]
        obtain ⟨r, hr, hrw, hk⟩ := trimSpaceBack_space (c :: rest).reverse
        rw [List.reverse_reverse] at hr
        refine ⟨[], r, by rw [List.nil_append]; exact hr, isWhiteSpace_nil, hrw, ?_,
          not_ends_with_space _ hk⟩
        intro w hw rest2 heq
        have hfirst : unicode.IsSpace (utf8.DecodeRuneInString (c :: rest)).1 = false := by
          rw [decode_ascii c rest hc2]
          simp only []
          rw [IsSpace_ascii c hc2]
          simpa using hs
        rw [heq, List.append_assoc] at hr
        exact not_starts_with_space _ (Or.inr hfirst) w hw _ hr

end Codeprep

/-! ## The pattern lists -/

namespace Codeprep

/-- Joining a first segment to at least one more. -/
theorem intercalate_cons_of_ne_nil (sep : Byte) (x : GoString) (l : List GoString)
    (h : l ≠ []) : [sep].intercalate (x :: l) = x ++ sep :: [sep].intercalate l := by
  obtain ⟨y, t, rfl⟩ := List.exists_cons_of_ne_nil h
  simp [List.intercalate, List.intersperse]

/-- Joining the segments of `Split` with the separator gives back the string. -/
theorem splitFrom_intercalate (sep : Byte) (s : GoString) :
    ∀ cur, [sep].intercalate (strings.splitFrom sep cur s) = cur ++ s := by
  induction s with
  | nil => intro cur; simp [strings.splitFrom, List.intercalate]
  | cons c cs ih =>
    intro cur
    rw [strings.splitFrom]
    split
    · rename_i h
      rw [intercalate_cons_of_ne_nil sep cur _ (splitFrom_ne_nil _ _ _), ih, h]
      simp
    · rw [ih]; simp

/-- The segments of `Split` hold no separator. -/
theorem splitFrom_sep_free (sep : Byte) (s : GoString) :
    ∀ cur, sep ∉ cur → ∀ seg ∈ strings.splitFrom sep cur s, sep ∉ seg := by
  induction s with
  | nil =>
    intro cur hcur seg hseg
    simp only [strings.splitFrom, List.mem_singleton] at hseg
    rw [hseg]; exact hcur
  | cons c cs ih =>
    intro cur hcur seg hseg
    rw [strings.splitFrom] at hseg
    split at hseg
    · rcases List.mem_cons.mp hseg with h | h
      · rw [h]; exact hcur
      · exact ih [] (by simp) seg h
    · rename_i hc
      refine ih (cur ++ [c]) ?_ seg hseg
      intro hmem
      rcases List.mem_append.mp hmem with h | h
      · exact hcur h
      · exact hc (List.mem_singleton.mp h).symm

/-- The function `Split` gives one segment more than there are separators. -/
theorem splitFrom_length (sep : Byte) (s : GoString) :
    ∀ cur, (strings.splitFrom sep cur s).length = strings.Count s sep + 1 := by
  induction s with
  | nil => intro cur; simp [strings.splitFrom, strings.Count]
  | cons c cs ih =>
    intro cur
    rw [strings.splitFrom]
    unfold strings.Count at ih ⊢
    split
    · rename_i h
      simp [List.filter_cons, h, ih]
    · rename_i h
      simp [List.filter_cons, h, ih]

/-- Splitting the join of separator-free segments gives back the segments. -/
theorem Split_intercalate (sep : Byte) (segs : List GoString) (hne : segs ≠ [])
    (hfree : ∀ seg ∈ segs, sep ∉ seg) :
    strings.Split ([sep].intercalate segs) sep = segs := by
  unfold strings.Split
  induction segs with
  | nil => exact absurd rfl hne
  | cons c rest ih =>
    have hc := hfree c (List.mem_cons_self _ _)
    cases rest with
    | nil =>
      have := splitFrom_name sep c [] [] hc
      simp only [List.append_nil, List.nil_append] at this
      simp [List.intercalate, this, strings.splitFrom]
    | cons d r2 =>
      rw [intercalate_cons_of_ne_nil sep c _ (by simp), splitFrom_name sep c [] _ hc]
      simp only [List.nil_append, strings.splitFrom, if_true]
      rw [ih (by simp) (fun x hx => hfree x (List.mem_cons_of_mem _ hx))]

/-- The backward loop of `TrimSpace` on ASCII bytes. -/
theorem trimSpaceBack_ascii (r : GoString) (h : ∀ b ∈ r, b.val < 0x80) :
    strings.trimSpaceBack r = (r.dropWhile strings.asciiSpace).reverse := by
  induction r with
  | nil => rfl
  | cons c rest ih =>
    have hc : ¬ c.val ≥ utf8.RuneSelf := by
      have := h c (List.mem_cons_self _ _)
      unfold utf8.RuneSelf
      omega
    rw [strings.trimSpaceBack, if_neg hc]
    by_cases hs : strings.asciiSpace c = true
    · rw [if_pos hs, ih (fun b hb => h b (List.mem_cons_of_mem _ hb))]
      simp [List.dropWhile_cons, hs]
    · rw [if_neg hs]
      simp [List.dropWhile_cons, hs]

/-- On a string of ASCII bytes `strings.TrimSpace` removes the leading and the trailing
ASCII white space. -/
theorem TrimSpace_ascii (s : GoString) (h : ∀ b ∈ s, b.val < 0x80) :
    strings.TrimSpace s = trimAsciiSpace s := by
  unfold trimAsciiSpace
  induction s with
  | nil => rfl
  | cons c rest ih =>
    have hc : ¬ c.val ≥ utf8.RuneSelf := by
      have := h c (List.mem_cons_self _ _)
      unfold utf8.RuneSelf
      omega
    rw [strings.TrimSpace, if_neg hc]
    by_cases hs : strings.asciiSpace c = true
    · rw [if_pos hs, ih (fun b hb => h b (List.mem_cons_of_mem _ hb))]
      simp [List.dropWhile_cons, hs]
    · rw [if_neg hs, trimSpaceBack_ascii _ (by
        intro b hb
        exact h b (List.mem_reverse.mp hb))]
      simp [List.dropWhile_cons, hs]

/-- The function `TrimLeftFunc` removes bytes at the start only. -/
theorem trimLeftLoop_suffix (f : Nat → Bool) (fuel : Nat) :
    ∀ s t : GoString, strings.trimLeftLoop f fuel s = some t → ∃ l, s = l ++ t := by
  induction fuel with
  | zero => intro s t h; simp [strings.trimLeftLoop] at h
  | succ fuel ih =>
    intro s t h
    rw [strings.trimLeftLoop] at h
    split at h
    · rename_i hs
      simp only [Option.some.injEq] at h
      exact ⟨[], by rw [hs, ← h]; rfl⟩
    · simp only [] at h
      split at h
      · simp only [Option.some.injEq] at h
        exact ⟨[], by rw [h]; rfl⟩
      · obtain ⟨l, hl⟩ := ih _ t h
        refine ⟨s.take (utf8.DecodeRuneInString s).2 ++ l, ?_⟩
        rw [List.append_assoc, ← hl, List.take_append_drop]

/-- The function `TrimRightFunc` removes bytes at the end only. -/
theorem TrimRightFunc_take (s : GoString) (f : Nat → Bool) :
    ∃ r, s = strings.TrimRightFunc s f ++ r := by
  unfold strings.TrimRightFunc
  split
  · split
    · exact ⟨_, (List.take_append_drop _ s).symm⟩
    · exact ⟨_, (List.take_append_drop _ s).symm⟩
  · exact ⟨_, (List.take_append_drop _ s).symm⟩

/-- The backward loop of `TrimSpace` removes bytes at the end only. -/
theorem trimSpaceBack_take (r : GoString) :
    ∃ t, r.reverse = strings.trimSpaceBack r ++ t := by
  induction r with
  | nil => exact ⟨[], rfl⟩
  | cons c rest ih =>
    rw [strings.trimSpaceBack]
    split
    · exact TrimRightFunc_take _ _
    · split
      · obtain ⟨t, ht⟩ := ih
        exact ⟨t ++ [c], by rw [List.reverse_cons, ht, List.append_assoc]⟩
      · exact ⟨[], by simp⟩

/-- The function `strings.TrimSpace` only removes bytes at the two ends of the string. -/
theorem TrimSpace_infix (s : GoString) : ∃ l r, s = l ++ strings.TrimSpace s ++ r := by
  induction s with
  | nil => exact ⟨[], [], rfl⟩
  | cons c rest ih =>
    rw [strings.TrimSpace]
    split
    · unfold strings.TrimFunc
      obtain ⟨l, hl⟩ := trimLeftLoop_suffix _ _ _ _ (TrimLeftFunc_eq (c :: rest) unicode.IsSpace)
      obtain ⟨r, hr⟩ := TrimRightFunc_take (strings.TrimLeftFunc (c :: rest) unicode.IsSpace)
        unicode.IsSpace
      refine ⟨l, r, ?_⟩
      rw [List.append_assoc, ← hr]
      exact hl
    · split
      · obtain ⟨l, r, h⟩ := ih
        exact ⟨c :: l, r, by rw [List.cons_append, List.cons_append, ← h]⟩
      · obtain ⟨t, ht⟩ := trimSpaceBack_take (c :: rest).reverse
        rw [List.reverse_reverse] at ht
        exact ⟨[], t, by rw [List.nil_append]; exact ht⟩

/-- C5: `splitPatterns` on the empty string gives the empty list; on a non-empty string
`s` it gives one pattern more than `s` has commas, namely the comma-delimited segments of
`s` in order, each passed through `strings.TrimSpace`. The segments are the one way of
writing `s` as comma-free pieces joined by commas. `TrimSpace` removes the white space at
the two ends: a segment is a run of white space, its pattern, and a run of white space,
and the pattern neither starts nor ends with a white space code point; on ASCII segments
that is the removal of the leading and trailing ASCII white space bytes. The string
`a, b ,c` gives `a`, `b`, `c`. -/
theorem splitPatterns_spec :
    splitPatterns [] = [] ∧
    (∀ s : GoString, s ≠ [] →
      (splitPatterns s).length = strings.Count s chComma + 1 ∧
      splitPatterns s = (strings.Split s chComma).map strings.TrimSpace ∧
      [chComma].intercalate (strings.Split s chComma) = s ∧
      (∀ seg ∈ strings.Split s chComma, chComma ∉ seg)) ∧
    (∀ segs : List GoString, segs ≠ [] → (∀ seg ∈ segs, chComma ∉ seg) →
      [chComma].intercalate segs ≠ [] →
      splitPatterns ([chComma].intercalate segs) = segs.map strings.TrimSpace) ∧
    (∀ seg : GoString, (∀ b ∈ seg, b.val < 0x80) → strings.TrimSpace seg = trimAsciiSpace seg) ∧
    (∀ seg : GoString, ∃ l r, seg = l ++ strings.TrimSpace seg ++ r ∧
      isWhiteSpace l ∧ isWhiteSpace r ∧
      (∀ w ∈ whiteSpaceRunes, ∀ rest : GoString, strings.TrimSpace seg ≠ encodeRune w ++ rest) ∧
      (∀ w ∈ whiteSpaceRunes, ∀ u : GoString, strings.TrimSpace seg ≠ u ++ encodeRune w)) ∧
    splitPatterns (str "a, b ,c") = [str "a", str "b", str "c"] ∧
    splitPatterns (str " src/*.go ,\t*.md\n") = [str "src/*.go", str "*.md"] ∧
    splitPatterns (str " é 　, x") = [str "é", str "x"] := by
  refine ⟨rfl, ?_, ?_, TrimSpace_ascii, TrimSpace_space, by decide, by decide, by decide⟩
  · intro s hs
    have hsp : splitPatterns s = (strings.Split s chComma).map strings.TrimSpace := by
      unfold splitPatterns
      rw [if_neg hs]
    refine ⟨?_, hsp, ?_, ?_⟩
    · rw [hsp, List.length_map]
      exact splitFrom_length chComma s []
    · have := splitFrom_intercalate chComma s []
      simpa [strings.Split] using this
    · exact splitFrom_sep_free chComma s [] (by simp)
  · intro segs hne hfree hs
    unfold splitPatterns
    rw [if_neg hs, Split_intercalate chComma segs hne hfree]

end Codeprep

/-! ## The run -/

namespace Codeprep

/-- Recording a file appends it to the list of selected files. -/
theorem recordFile_fst (st : List GoString × EntryMap) (relPath : GoString) :
    (recordFile st relPath).1 = st.1 ++ [relPath] := rfl

/-- Recording files one after the other appends them in order to the selected list. -/
theorem foldl_recordFile_fst (l : List GoString) :
    ∀ st : List GoString × EntryMap, (l.foldl recordFile st).1 = st.1 ++ l := by
  induction l with
  | nil => intro st; simp
  | cons p rest ih =>
    intro st
    rw [List.foldl_cons, ih, recordFile_fst]
    simp

/-- A walk without error ends with the selected paths in encounter order. -/
theorem walk_files (incl excl : List GoString) (events : List WalkEvent)
    (herr : ∀ e ∈ events, e.err = false) :
    ∃ m : EntryMap, walk incl excl events ([], []) = some (selectedPaths incl excl events, m) := by
  refine ⟨((selectedPaths incl excl events).foldl recordFile ([], [])).2, ?_⟩
  rw [walk_eq_foldl incl excl events herr]
  congr 1
  apply Prod.ext
  · rw [foldl_recordFile_fst]; rfl
  · rfl

/-- A line of the tree ends with a newline. -/
theorem renderLine_newline (m : EntryMap) (path : GoString) :
    ∃ body : GoString, renderLine m path = body ++ str "\n" := by
  unfold renderLine
  by_cases h : m.get path = true
  · simp only [h, if_true]
    have h2 : str "/\n" = str "/" ++ str "\n" := by decide
    exact ⟨strings.Repeat (str "    ") (strings.Count path Separator) ++ filepath.Base path ++
      str "/", by rw [h2]; simp only [List.append_assoc]⟩
  · simp only [h, if_false]
    exact ⟨_, rfl⟩

/-- C11: the final document. On a walk without error that selects at least one file, the
entry map `m` of the walk is fixed by the patterns and the walk alone, and for every
content of the files the run hands to the write the tree text (one line per sorted path,
every line ending with a newline), then one newline, then the content section, which is
the concatenation of the blocks of the files that are read, in the order of the selected
list; a run whose write succeeds ends with this document written. -/
theorem document_layout (incl excl : GoString) (events : List WalkEvent)
    (herr : ∀ e ∈ events, e.err = false)
    (hsel : selectedPaths (splitPatterns incl) (splitPatterns excl) events ≠ []) :
    ∃ m : EntryMap,
      walk (splitPatterns incl) (splitPatterns excl) events ([], []) =
        some (selectedPaths (splitPatterns incl) (splitPatterns excl) events, m) ∧
      renderTree m = ((sortedPaths m).map (renderLine m)).flatten ∧
      (∀ path, ∃ body : GoString, renderLine m path = body ++ str "\n") ∧
      ∀ (dir : GoString) (readFile : GoString → Option GoString),
        run dir incl excl events readFile true =
          Outcome.written (renderTree m ++ str "\n" ++
            assembleContent readFile dir
              (selectedPaths (splitPatterns incl) (splitPatterns excl) events)) ∧
        (∀ (writeOk : Bool) (doc : GoString),
          run dir incl excl events readFile writeOk = Outcome.written doc →
          doc = renderTree m ++ str "\n" ++
            assembleContent readFile dir
              (selectedPaths (splitPatterns incl) (splitPatterns excl) events)) ∧
        assembleContent readFile dir
            (selectedPaths (splitPatterns incl) (splitPatterns excl) events) =
          ((selectedPaths (splitPatterns incl) (splitPatterns excl) events).filterMap
            (fun file =>
              (readFile (filepath.Join [dir, file])).map (contentBlock file))).flatten := by
  obtain ⟨m, hm⟩ := walk_files (splitPatterns incl) (splitPatterns excl) events herr
  have hlen : ¬ (selectedPaths (splitPatterns incl) (splitPatterns excl) events).length = 0 := by
    intro h
    exact hsel (List.length_eq_zero.mp h)
  refine ⟨m, hm, renderTree_eq m, renderLine_newline m, ?_⟩
  intro dir readFile
  refine ⟨?_, ?_, assembleContent_eq readFile dir _⟩
  · unfold run
    simp only [hm, hlen, if_false, if_true]
  · intro writeOk doc hdoc
    unfold run at hdoc
    simp only [hm, hlen, if_false] at hdoc
    cases writeOk with
    | true =>
      simp only [if_true] at hdoc
      exact (Outcome.written.inj hdoc).symm
    | false =>
      simp only [Bool.false_eq_true, if_false] at hdoc
      cases hdoc

set_option maxRecDepth 4000 in
/-- C11 on the walk of a directory with the files `b.txt` ("B") and `a/c.txt` ("C"). -/
theorem document_layout_witness :
    selectedPaths (splitPatterns (str "")) (splitPatterns (str ""))
      [⟨str ".", true, false⟩, ⟨str "b.txt", false, false⟩, ⟨str "a", true, false⟩,
        ⟨str "a/c.txt", false, false⟩] ≠ [] ∧
    run (str ".") (str "") (str "")
      [⟨str ".", true, false⟩, ⟨str "b.txt", false, false⟩, ⟨str "a", true, false⟩,
        ⟨str "a/c.txt", false, false⟩]
      (fun p => if p = str "b.txt" then some (str "B")
        else if p = str "a/c.txt" then some (str "C") else none) true =
      Outcome.written (str "a/\n    c.txt\nb.txt\n\n\n=== File: b.txt ===\nB\n\n=== File: a/c.txt ===\nC\n") := by
  obtain ⟨m, hm, -, -, h⟩ := document_layout (str "") (str "")
    [⟨str ".", true, false⟩, ⟨str "b.txt", false, false⟩, ⟨str "a", true, false⟩,
      ⟨str "a/c.txt", false, false⟩] (by decide) (by decide)
  refine ⟨by decide, ?_⟩
  rw [(h (str ".") _).1]
  have hm2 : walk (splitPatterns (str "")) (splitPatterns (str ""))
      [⟨str ".", true, false⟩, ⟨str "b.txt", false, false⟩, ⟨str "a", true, false⟩,
        ⟨str "a/c.txt", false, false⟩] ([], []) =
      some ([str "b.txt", str "a/c.txt"],
        [(str "b.txt", false), (str "a", true), (str "a/c.txt", false)]) := by decide
  rw [hm2] at hm
  have hm3 := (Prod.mk.inj (Option.some.inj hm)).2
  rw [← hm3]
  decide


/-- The selected paths are empty when no walked file passes the filter. -/
theorem selectedPaths_eq_nil (incl excl : List GoString) (events : List WalkEvent) :
    selectedPaths incl excl events = [] ↔
      ∀ e ∈ events, e.isDir = false → isIncluded e.relPath incl excl = false := by
  unfold selectedPaths
  rw [List.map_eq_nil_iff, List.filter_eq_nil_iff]
  constructor
  · intro h e he hd
    have := h e he
    simpa [hd] using this
  · intro h e he
    by_cases hd : e.isDir = true
    · simp [hd]
    · have hd2 : e.isDir = false := by simpa using hd
      simp [hd2, h e he hd2]

/-- C12 as written fails when the write fails: on the walk of a directory with the one
file `a.txt`, no patterns and a failing write, the walk is free of errors and selects
`a.txt`, but the run ends with the write error and exit code 1, not with a written
document. -/
theorem empty_selection_counterexample :
    (∀ e ∈ [(⟨str ".", true, false⟩ : WalkEvent), ⟨str "a.txt", false, false⟩],
      e.err = false) ∧
    selectedPaths (splitPatterns (str "")) (splitPatterns (str ""))
      [⟨str ".", true, false⟩, ⟨str "a.txt", false, false⟩] = [str "a.txt"] ∧
    run (str ".") (str "") (str "") [⟨str ".", true, false⟩, ⟨str "a.txt", false, false⟩]
      (fun _ => some (str "A")) false = Outcome.writeError ∧
    (run (str ".") (str "") (str "") [⟨str ".", true, false⟩, ⟨str "a.txt", false, false⟩]
      (fun _ => some (str "A")) false).exitCode = 1 ∧
    ¬ ∃ doc, run (str ".") (str "") (str "")
      [⟨str ".", true, false⟩, ⟨str "a.txt", false, false⟩]
      (fun _ => some (str "A")) false = Outcome.written doc := by
  have h : run (str ".") (str "") (str "") [⟨str ".", true, false⟩, ⟨str "a.txt", false, false⟩]
      (fun _ => some (str "A")) false = Outcome.writeError := by decide
  refine ⟨by decide, by decide, h, by rw [h]; rfl, ?_⟩
  rintro ⟨doc, hdoc⟩
  rw [h] at hdoc
  cases hdoc

/-- C12, amended: on a walk without error the run ends with "No matching files found"
(exit code 0, nothing written) if and only if no walked file passes `isIncluded`, which
covers the empty directory and a walk of directories only; when at least one file is
selected the run goes on to the write of the output document and ends with the document
written and exit code 0 if the write succeeds, with the write error and exit code 1 if
it fails. -/
theorem empty_selection (dir incl excl : GoString) (events : List WalkEvent)
    (readFile : GoString → Option GoString) (writeOk : Bool)
    (herr : ∀ e ∈ events, e.err = false) :
    (run dir incl excl events readFile writeOk = Outcome.noMatchingFiles ↔
      ∀ e ∈ events, e.isDir = false →
        isIncluded e.relPath (splitPatterns incl) (splitPatterns excl) = false) ∧
    (run dir incl excl events readFile writeOk = Outcome.noMatchingFiles ↔
      selectedPaths (splitPatterns incl) (splitPatterns excl) events = []) ∧
    Outcome.noMatchingFiles.exitCode = 0 ∧
    ((∀ e ∈ events, e.isDir = true) →
      run dir incl excl events readFile writeOk = Outcome.noMatchingFiles) ∧
    ((∃ e ∈ events, e.isDir = false ∧
        isIncluded e.relPath (splitPatterns incl) (splitPatterns excl) = true) →
      ∃ m : EntryMap,
        walk (splitPatterns incl) (splitPatterns excl) events ([], []) =
          some (selectedPaths (splitPatterns incl) (splitPatterns excl) events, m) ∧
        run dir incl excl events readFile writeOk =
          (if writeOk then
            Outcome.written (renderTree m ++ str "\n" ++ assembleContent readFile dir
              (selectedPaths (splitPatterns incl) (splitPatterns excl) events))
          else Outcome.writeError) ∧
        (run dir incl excl events readFile writeOk).exitCode = (if writeOk then 0 else 1)) := by
  obtain ⟨m, hm⟩ := walk_files (splitPatterns incl) (splitPatterns excl) events herr
  have hrun : run dir incl excl events readFile writeOk =
      if (selectedPaths (splitPatterns incl) (splitPatterns excl) events).length = 0 then
        Outcome.noMatchingFiles
      else if writeOk then
        Outcome.written (renderTree m ++ str "\n" ++ assembleContent readFile dir
          (selectedPaths (splitPatterns incl) (splitPatterns excl) events))
      else Outcome.writeError := by
    unfold run
    simp only [hm]
  have hiff : run dir incl excl events readFile writeOk = Outcome.noMatchingFiles ↔
      selectedPaths (splitPatterns incl) (splitPatterns excl) events = [] := by
    rw [hrun]
    constructor
    · intro h
      by_contra hne
      have hlen : ¬ (selectedPaths (splitPatterns incl) (splitPatterns excl) events).length = 0 :=
        fun h0 => hne (List.length_eq_zero.mp h0)
      rw [if_neg hlen] at h
      cases writeOk with
      | true => simp at h
      | false => simp at h
    · intro h
      rw [h]
      rfl
  refine ⟨?_, hiff, rfl, ?_, ?_⟩
  · rw [hiff, selectedPaths_eq_nil]
  · intro hall
    rw [hiff, selectedPaths_eq_nil]
    intro e he hd
    rw [hall e he] at hd
    cases hd
  · rintro ⟨e, he, hd, hi⟩
    have hne : selectedPaths (splitPatterns incl) (splitPatterns excl) events ≠ [] := by
      intro h
      have := (selectedPaths_eq_nil _ _ _).mp h e he hd
      rw [hi] at this
      cases this
    have hlen : ¬ (selectedPaths (splitPatterns incl) (splitPatterns excl) events).length = 0 :=
      fun h0 => hne (List.length_eq_zero.mp h0)
    rw [if_neg hlen] at hrun
    refine ⟨m, hm, hrun, ?_⟩
    rw [hrun]
    cases writeOk with
    | true => rfl
    | false => rfl

/-- C12, amended, on the walk of a directory that holds only `notes.md`, with the include
pattern `*.go`: nothing is selected and the run ends with "No matching files found". -/
theorem empty_selection_witness :
    (∀ e ∈ [(⟨str ".", true, false⟩ : WalkEvent), ⟨str "notes.md", false, false⟩],
      e.err = false) ∧
    run (str ".") (str "*.go") (str "")
      [⟨str ".", true, false⟩, ⟨str "notes.md", false, false⟩]
      (fun _ => some (str "A")) true = Outcome.noMatchingFiles :=
  ⟨by decide,
    (empty_selection (str ".") (str "*.go") (str "")
      [⟨str ".", true, false⟩, ⟨str "notes.md", false, false⟩]
      (fun _ => some (str "A")) true (by decide)).1.mpr (by decide)⟩

/-- Directory entries do not change the selected paths. -/
theorem selectedPaths_filter_dirs (incl excl : List GoString) (events : List WalkEvent) :
    selectedPaths incl excl (events.filter (fun e => !e.isDir)) =
      selectedPaths incl excl events := by
  unfold selectedPaths
  rw [List.filter_filter]
  congr 1
  apply List.filter_congr
  intro e _
  cases e.isDir <;> simp

/-- C13: the selected list. On a walk without error the list `files` that the walk
callback builds is the list of the relative paths of the walked entries that are not
directories and pass `isIncluded` with the split pattern lists, in the order of the walk;
it is a subsequence of the walked paths, every member is the path of a walked
non-directory entry that passes the filter, and the walk with all directory entries
removed ends in the same state, so that directories never reach the matcher. The content
section is assembled from this list in this order. -/
theorem selected_in_walk_order (incl excl : GoString) (events : List WalkEvent)
    (herr : ∀ e ∈ events, e.err = false) :
    ∃ m : EntryMap,
      walk (splitPatterns incl) (splitPatterns excl) events ([], []) =
        some (selectedPaths (splitPatterns incl) (splitPatterns excl) events, m) ∧
      selectedPaths (splitPatterns incl) (splitPatterns excl) events =
        ((events.filter (fun e => !e.isDir)).filter
          (fun e => isIncluded e.relPath (splitPatterns incl) (splitPatterns excl))).map
          WalkEvent.relPath ∧
      (selectedPaths (splitPatterns incl) (splitPatterns excl) events).Sublist
        (events.map WalkEvent.relPath) ∧
      (∀ p ∈ selectedPaths (splitPatterns incl) (splitPatterns excl) events,
        ∃ e ∈ events, e.isDir = false ∧ e.relPath = p ∧
          isIncluded p (splitPatterns incl) (splitPatterns excl) = true) ∧
      walk (splitPatterns incl) (splitPatterns excl) (events.filter (fun e => !e.isDir))
          ([], []) =
        walk (splitPatterns incl) (splitPatterns excl) events ([], []) ∧
      (selectedPaths (splitPatterns incl) (splitPatterns excl) events ≠ [] →
        ∀ (dir : GoString) (readFile : GoString → Option GoString),
          run dir incl excl events readFile true =
            Outcome.written (renderTree m ++ str "\n" ++
              ((selectedPaths (splitPatterns incl) (splitPatterns excl) events).filterMap
                (fun file =>
                  (readFile (filepath.Join [dir, file])).map (contentBlock file))).flatten)) := by
  obtain ⟨m, hm⟩ := walk_files (splitPatterns incl) (splitPatterns excl) events herr
  refine ⟨m, hm, ?_, ?_, ?_, ?_, ?_⟩
  · unfold selectedPaths
    rw [List.filter_filter]
    congr 1
    apply List.filter_congr
    intro e _
    rw [Bool.and_comm]
  · unfold selectedPaths
    exact List.Sublist.map _ (List.filter_sublist _)
  · intro p hp
    unfold selectedPaths at hp
    obtain ⟨e, he, rfl⟩ := List.mem_map.mp hp
    obtain ⟨he1, he2⟩ := List.mem_filter.mp he
    simp only [Bool.and_eq_true, Bool.not_eq_true'] at he2
    exact ⟨e, he1, he2.1, rfl, he2.2⟩
  · have herr2 : ∀ e ∈ events.filter (fun e => !e.isDir), e.err = false :=
      fun e he => herr e (List.mem_filter.mp he).1
    rw [walk_eq_foldl _ _ _ herr2, walk_eq_foldl _ _ _ herr, selectedPaths_filter_dirs]
  · intro hne dir readFile
    have hlen : ¬ (selectedPaths (splitPatterns incl) (splitPatterns excl) events).length = 0 :=
      fun h0 => hne (List.length_eq_zero.mp h0)
    unfold run
    simp only [hm, hlen, if_false, if_true]
    rw [assembleContent_eq]

set_option maxRecDepth 4000 in
/-- C13 on a walk that meets the file `b.txt` ("B"), the directory `d.txt` and then the
file `a.txt` ("A"), with the include pattern `*.txt`: the selected list is `b.txt`,
`a.txt`, the directory is not selected, and the content section has the block of `b.txt`
before the block of `a.txt` while the tree lists `a.txt` first. -/
theorem selected_in_walk_order_witness :
    (∀ e ∈ [(⟨str ".", true, false⟩ : WalkEvent), ⟨str "b.txt", false, false⟩,
      ⟨str "d.txt", true, false⟩, ⟨str "a.txt", false, false⟩], e.err = false) ∧
    selectedPaths (splitPatterns (str "*.txt")) (splitPatterns (str ""))
      [⟨str ".", true, false⟩, ⟨str "b.txt", false, false⟩, ⟨str "d.txt", true, false⟩,
        ⟨str "a.txt", false, false⟩] = [str "b.txt", str "a.txt"] ∧
    run (str ".") (str "*.txt") (str "")
      [⟨str ".", true, false⟩, ⟨str "b.txt", false, false⟩, ⟨str "d.txt", true, false⟩,
        ⟨str "a.txt", false, false⟩]
      (fun p => if p = str "b.txt" then some (str "B")
        else if p = str "a.txt" then some (str "A") else none) true =
      Outcome.written
        (str "a.txt\nb.txt\n\n\n=== File: b.txt ===\nB\n\n=== File: a.txt ===\nA\n") := by
  obtain ⟨m, hm, -, -, -, -, h⟩ := selected_in_walk_order (str "*.txt") (str "")
    [⟨str ".", true, false⟩, ⟨str "b.txt", false, false⟩, ⟨str "d.txt", true, false⟩,
      ⟨str "a.txt", false, false⟩] (by decide)
  refine ⟨by decide, by decide, ?_⟩
  rw [h (by decide) (str ".") _]
  have hm2 : walk (splitPatterns (str "*.txt")) (splitPatterns (str ""))
      [⟨str ".", true, false⟩, ⟨str "b.txt", false, false⟩, ⟨str "d.txt", true, false⟩,
        ⟨str "a.txt", false, false⟩] ([], []) =
      some ([str "b.txt", str "a.txt"], [(str "b.txt", false), (str "a.txt", false)]) := by
    decide
  rw [hm2] at hm
  have hm3 := (Prod.mk.inj (Option.some.inj hm)).2
  rw [← hm3]
  decide

set_option maxRecDepth 4000 in
/-- C14: the tree is a flat sort of the full paths. With the selected files `src/main.go`
and `src.txt` the sorted paths are `src`, `src.txt`, `src/main.go` and the tree is the
three lines `src/`, `src.txt`, `    main.go`: the entry `src.txt` of depth 0 stands
between the line of the directory `src` and the line of its child `src/main.go`, because
`.` sorts before `/`. -/
theorem tree_is_flat_sort :
    ∃ m : EntryMap,
      walk [] [] [⟨str ".", true, false⟩, ⟨str "src", true, false⟩,
        ⟨str "src/main.go", false, false⟩, ⟨str "src.txt", false, false⟩] ([], []) =
        some ([str "src/main.go", str "src.txt"], m) ∧
      sortedPaths m = [str "src", str "src.txt", str "src/main.go"] ∧
      (sortedPaths m).map (renderLine m) = [str "src/\n", str "src.txt\n", str "    main.go\n"] ∧
      renderTree m = str "src/\nsrc.txt\n    main.go\n" ∧
      m.get (str "src") = true ∧
      parentPath (str "src/main.go") = str "src" ∧
      strings.Count (str "src.txt") Separator = 0 ∧
      sort.stringLess (str "src.txt") (str "src/main.go") = true ∧
      run (str ".") (str "") (str "") [⟨str ".", true, false⟩, ⟨str "src", true, false⟩,
        ⟨str "src/main.go", false, false⟩, ⟨str "src.txt", false, false⟩]
        (fun _ => none) true = Outcome.written (str "src/\nsrc.txt\n    main.go\n\n") :=
  ⟨[(str "src", true), (str "src/main.go", false), (str "src.txt", false)],
    by decide, by decide, by decide, by decide, by decide, by decide, by decide, by decide,
    by decide⟩

end Codeprep

/-! ## Consequences of the selection policy -/

namespace Codeprep

/-- A pattern without separator is matched against the base name alone. -/
theorem matches_name_only (p x y : GoString) (hp : strings.Contains p Separator = false)
    (hbase : filepath.Base x = filepath.Base y) :
    «matches» p x (filepath.Base x) = «matches» p y (filepath.Base y) := by
  unfold «matches»
  rw [hp, hbase]
  rfl

/-- C16: when no include and no exclude pattern contains a separator, `isIncluded` is a
function of the base name: two paths with the same base name get the same result. For a
non-empty path that does not end with a separator the base name is the final component.
Consequently the exclude pattern `node_modules` does not exclude the file
`node_modules/x.js`, and a walk that skips the directory entry selects the file. -/
theorem base_name_only (x y : GoString) (inc exc : List GoString)
    (hinc : ∀ p ∈ inc, strings.Contains p Separator = false)
    (hexc : ∀ p ∈ exc, strings.Contains p Separator = false)
    (hbase : filepath.Base x = filepath.Base y) :
    isIncluded x inc exc = isIncluded y inc exc ∧
    (∀ path : GoString, path ≠ [] → path.getLast? ≠ some Separator →
      filepath.Base path = lastComponent path) ∧
    isIncluded (str "node_modules/x.js") [] [str "node_modules"] = true ∧
    selectedPaths (splitPatterns (str "")) (splitPatterns (str "node_modules"))
      [⟨str ".", true, false⟩, ⟨str "node_modules", true, false⟩,
        ⟨str "node_modules/x.js", false, false⟩] = [str "node_modules/x.js"] := by
  refine ⟨?_, Base_eq_lastComponent, by decide, by decide⟩
  have hany : ∀ l : List GoString, (∀ p ∈ l, strings.Contains p Separator = false) →
      l.any (fun pattern => «matches» pattern x (filepath.Base x)) =
        l.any (fun pattern => «matches» pattern y (filepath.Base y)) := by
    intro l hl
    induction l with
    | nil => rfl
    | cons p rest ih =>
      rw [List.any_cons, List.any_cons,
        matches_name_only p x y (hl p (List.mem_cons_self _ _)) hbase,
        ih (fun q hq => hl q (List.mem_cons_of_mem _ hq))]
  unfold isIncluded
  simp only [hany inc hinc, hany exc hexc]

/-- C16 at the paths `a/x.js` and `b/c/x.js` with the include pattern `*.js` and the
exclude pattern `a`. -/
theorem base_name_only_witness :
    isIncluded (str "a/x.js") [str "*.js"] [str "a"] =
      isIncluded (str "b/c/x.js") [str "*.js"] [str "a"] :=
  (base_name_only (str "a/x.js") (str "b/c/x.js") [str "*.js"] [str "a"]
    (by decide) (by decide) (by decide)).1

/-- C20: the selection policy is monotone. With a non-empty include list, a path that is
selected under the exclude list `exc ++ exc'` is selected under `exc` with the include
list `inc ++ inc'`: more exclude patterns never select a new file, and more include
patterns after a non-empty include list never drop a selected one. -/
theorem selection_monotone (x : GoString) (inc exc inc' exc' : List GoString)
    (hinc : inc ≠ [])
    (h : isIncluded x inc (exc ++ exc') = true) :
    isIncluded x (inc ++ inc') exc = true := by
  unfold isIncluded at h ⊢
  have hlen : ¬ inc.length = 0 := fun h0 => hinc (List.length_eq_zero.mp h0)
  have hlen2 : ¬ (inc ++ inc').length = 0 := by
    rw [List.length_append]; omega
  simp only [List.any_append, hlen, hlen2, if_false] at h ⊢
  cases he : exc.any (fun pattern => «matches» pattern x (filepath.Base x)) with
  | true => simp [he] at h
  | false =>
    cases he2 : exc'.any (fun pattern => «matches» pattern x (filepath.Base x)) with
    | true => simp [he, he2] at h
    | false =>
      simp only [he, he2, Bool.or_false, Bool.false_eq_true, if_false] at h ⊢
      rw [h]
      rfl

/-- C20 at the path `src/main.go`: selected with include `*.go` and excludes `*.md`,
`*.txt`, so selected with includes `*.go`, `*.c` and exclude `*.md`. -/
theorem selection_monotone_witness :
    [str "*.go"] ≠ [] ∧
    isIncluded (str "src/main.go") [str "*.go"] ([str "*.md"] ++ [str "*.txt"]) = true ∧
    isIncluded (str "src/main.go") ([str "*.go"] ++ [str "*.c"]) [str "*.md"] = true :=
  ⟨by decide, by decide,
    selection_monotone (str "src/main.go") [str "*.go"] [str "*.md"] [str "*.c"] [str "*.txt"]
      (by decide) (by decide)⟩

end Codeprep

/-! ## Pattern strings of white space and commas -/

namespace Codeprep

/-- The encoding of a white space code point has no comma. -/
theorem comma_not_in_space : ∀ w ∈ whiteSpaceRunes, chComma ∉ encodeRune w := by
  decide

/-- A string of encodings has at least one byte for each code point. -/
theorem length_encodings (rs : List Nat) : rs.length ≤ ((rs.map encodeRune).flatten).length := by
  induction rs with
  | nil => simp
  | cons w rest ih =>
    have h := List.length_pos.mpr (encodeRune_ne_nil w)
    simp only [List.map_cons, List.flatten_cons, List.length_append, List.length_cons]
    omega

/-- The left trim loop consumes a string of white space. -/
theorem trimLeftLoop_white (rs : List Nat) (hrs : ∀ r ∈ rs, r ∈ whiteSpaceRunes) :
    ∀ fuel, rs.length < fuel →
      strings.trimLeftLoop unicode.IsSpace fuel ((rs.map encodeRune).flatten) = some [] := by
  induction rs with
  | nil =>
    intro fuel h
    cases fuel with
    | zero => omega
    | succ n => simp [strings.trimLeftLoop]
  | cons w rest ih =>
    intro fuel h
    cases fuel with
    | zero => omega
    | succ n =>
      have hw := hrs w (List.mem_cons_self _ _)
      have hrest : ∀ r ∈ rest, r ∈ whiteSpaceRunes :=
        fun r hr => hrs r (List.mem_cons_of_mem _ hr)
      have hne : encodeRune w ++ (rest.map encodeRune).flatten ≠ [] := by
        intro h0
        exact encodeRune_ne_nil w (List.append_eq_nil.mp h0).1
      simp only [List.map_cons, List.flatten_cons]
      rw [strings.trimLeftLoop, if_neg hne]
      simp only [decode_encode_space w hw, (IsSpace_iff w).mpr hw, Bool.true_eq_false, if_false,
        List.drop_left]
      exact ih hrest n (by simpa using h)

/-- The function `strings.TrimSpace` reduces a string of white space to the empty
string. -/
theorem TrimSpace_white (rs : List Nat) (hrs : ∀ r ∈ rs, r ∈ whiteSpaceRunes) :
    strings.TrimSpace ((rs.map encodeRune).flatten) = [] := by
  induction rs with
  | nil => rfl
  | cons w rest ih =>
    have hw := hrs w (List.mem_cons_self _ _)
    have hrest : ∀ r ∈ rest, r ∈ whiteSpaceRunes :=
      fun r hr => hrs r (List.mem_cons_of_mem _ hr)
    have hleft : strings.TrimLeftFunc (((w :: rest).map encodeRune).flatten) unicode.IsSpace =
        [] := by
      unfold strings.TrimLeftFunc
      rw [trimLeftLoop_white (w :: rest) hrs _
        (Nat.lt_succ_of_le (length_encodings (w :: rest)))]
      rfl
    obtain ⟨⟨c, t, hct, hcase⟩, -⟩ := encode_space_ends w hw
    simp only [List.map_cons, List.flatten_cons] at hleft ⊢
    rw [hct] at hleft ⊢
    simp only [List.cons_append] at hleft ⊢
    rw [strings.TrimSpace]
    rcases hcase with ⟨hc, hsp, ht⟩ | hc
    · have hc2 : ¬ c.val ≥ utf8.RuneSelf := by
        unfold utf8.RuneSelf; omega
      rw [if_neg hc2, hsp, if_pos rfl, ht, List.nil_append]
      exact ih hrest
    · have hc2 : c.val ≥ utf8.RuneSelf := by
        unfold utf8.RuneSelf; omega
      rw [if_pos hc2]
      unfold strings.TrimFunc
      rw [hleft]
      rfl

/-- Every segment between the commas of a string of white space and commas is a string
of white space. -/
theorem splitFrom_white (rs : List Nat) (hrs : ∀ r ∈ rs, r ∈ whiteSpaceRunes ∨ r = 0x2C) :
    ∀ cur, isWhiteSpace cur →
      ∀ seg ∈ strings.splitFrom chComma cur ((rs.map encodeRune).flatten), isWhiteSpace seg := by
  induction rs with
  | nil =>
    intro cur hcur seg hseg
    simp only [List.map_nil, List.flatten_nil, strings.splitFrom, List.mem_singleton] at hseg
    rw [hseg]; exact hcur
  | cons w rest ih =>
    intro cur hcur seg hseg
    have hrest : ∀ r ∈ rest, r ∈ whiteSpaceRunes ∨ r = 0x2C :=
      fun r hr => hrs r (List.mem_cons_of_mem _ hr)
    simp only [List.map_cons, List.flatten_cons] at hseg
    rcases hrs w (List.mem_cons_self _ _) with hw | hw
    · rw [splitFrom_name chComma (encodeRune w) cur _ (comma_not_in_space w hw)] at hseg
      exact ih hrest _ (isWhiteSpace_append _ _ hcur (isWhiteSpace_encode w hw)) seg hseg
    · have he : encodeRune w = [chComma] := by rw [hw]; decide
      rw [he] at hseg
      simp only [List.singleton_append, strings.splitFrom, if_true, List.mem_cons] at hseg
      rcases hseg with h | h
      · rw [h]; exact hcur
      · exact ih hrest [] isWhiteSpace_nil seg h

/-- The base name is never empty. -/
theorem Base_ne_nil (path : GoString) : filepath.Base path ≠ [] := by
  unfold filepath.Base
  by_cases h : path = []
  · rw [if_pos h]; decide
  · rw [if_neg h]
    simp only []
    split_ifs with h2
    · simp
    · exact h2

/-- C19: only the empty configuration string means "no patterns". For a non-empty
string `s` made only of white space and commas, `splitPatterns s` is a non-empty list
(one pattern more than `s` has commas) of empty patterns, and `isIncluded` with this
include list and no exclude pattern is `false` for every path whose base name is not
empty, which holds for every path; with the empty configuration string the pattern list
is empty and `isIncluded` gives `true`. -/
theorem blank_patterns (s : GoString) (hne : s ≠ []) (hs : isWhiteSpaceOrComma s) :
    splitPatterns s ≠ [] ∧
    (∀ p ∈ splitPatterns s, p = []) ∧
    (splitPatterns s).length = strings.Count s chComma + 1 ∧
    (∀ x : GoString, filepath.Base x ≠ [] → isIncluded x (splitPatterns s) [] = false) ∧
    (∀ x : GoString, filepath.Base x ≠ []) ∧
    splitPatterns (str "") = [] ∧
    (∀ x : GoString, isIncluded x (splitPatterns (str "")) [] = true) := by
  obtain ⟨rs, hrs, hsrs⟩ := hs
  have hsplit : splitPatterns s = (strings.Split s chComma).map strings.TrimSpace := by
    unfold splitPatterns
    rw [if_neg hne]
  have hlen : (splitPatterns s).length = strings.Count s chComma + 1 := by
    rw [hsplit, List.length_map]
    exact splitFrom_length chComma s []
  have hall : ∀ p ∈ splitPatterns s, p = [] := by
    intro p hp
    rw [hsplit] at hp
    obtain ⟨seg, hseg, rfl⟩ := List.mem_map.mp hp
    unfold strings.Split at hseg
    rw [hsrs] at hseg
    obtain ⟨ws, hws, rfl⟩ := splitFrom_white rs hrs [] isWhiteSpace_nil seg hseg
    exact TrimSpace_white ws hws
  have hnil : splitPatterns s ≠ [] := by
    intro h0
    rw [h0] at hlen
    simp at hlen
  refine ⟨hnil, hall, hlen, ?_, Base_ne_nil, by decide, ?_⟩
  · intro x hx
    have hm : ∀ p ∈ splitPatterns s, «matches» p x (filepath.Base x) = false := by
      intro p hp
      rw [hall p hp]
      have hb : (filepath.Base x).isEmpty = false := by
        cases hbx : filepath.Base x with
        | nil => exact absurd hbx hx
        | cons b t => rfl
      simp [«matches», strings.Contains, filepath.Match, filepath.matchLoop, hb]
    have hany : (splitPatterns s).any (fun pattern => «matches» pattern x (filepath.Base x)) =
        false := by
      rw [List.any_eq_false]
      intro p hp
      rw [hm p hp]
      simp
    have hl : ¬ (splitPatterns s).length = 0 := fun h0 => hnil (List.length_eq_zero.mp h0)
    unfold isIncluded
    simp only [List.any_nil, Bool.false_eq_true, if_false, hl, hany]
  · intro x
    have h0 : splitPatterns (str "") = [] := by decide
    rw [h0]
    rfl

/-- C19 at the configuration string of a space, a comma and a tab, which gives two empty
patterns that reject `src/main.go`. -/
theorem blank_patterns_witness :
    str " ,\t" ≠ [] ∧ isWhiteSpaceOrComma (str " ,\t") ∧
    splitPatterns (str " ,\t") = [[], []] ∧
    isIncluded (str "src/main.go") (splitPatterns (str " ,\t")) [] = false ∧
    isIncluded (str "src/main.go") (splitPatterns (str "")) [] = true := by
  have hw : isWhiteSpaceOrComma (str " ,\t") := ⟨[0x20, 0x2C, 0x09], by decide, by decide⟩
  have h := blank_patterns (str " ,\t") (by decide) hw
  exact ⟨by decide, hw, by decide, h.2.2.2.1 _ (by decide), h.2.2.2.2.2.2 _⟩

end Codeprep

/-! ## Parents in the tree and the order of the walk -/

namespace Codeprep

/-- A string contains a byte when the byte is one of its members. -/
theorem Contains_iff (s : GoString) (sep : Byte) : strings.Contains s sep = true ↔ sep ∈ s := by
  unfold strings.Contains
  rw [List.any_eq_true]
  constructor
  · rintro ⟨x, hx, h⟩
    have : x = sep := by simpa using h
    rw [← this]; exact hx
  · intro h
    exact ⟨sep, h, by simp⟩

/-- The parent of a path that ends with a separator and a name. -/
theorem parentPath_append (pre name : GoString) (h : Separator ∉ name) :
    parentPath (pre ++ Separator :: name) = pre := by
  unfold parentPath
  have h1 := dropWhile_rev_name pre name h
  have h2 : (pre ++ Separator :: name).reverse.dropWhile (fun b => decide (b ≠ Separator)) =
      Separator :: pre.reverse := by
    have h3 := congrArg List.reverse h1
    simpa using h3
  rw [h2]
  simp

/-- A string is less than each of its proper extensions. -/
theorem stringLess_prefix (p : GoString) (x : Byte) (t : GoString) :
    sort.stringLess p (p ++ x :: t) = true := by
  induction p with
  | nil => rfl
  | cons a r ih => simp [sort.stringLess, ih]

/-- The separators of a path that ends with a separator and a name. -/
theorem Count_append_name (pre name : GoString) (h : Separator ∉ name) :
    strings.Count (pre ++ Separator :: name) Separator = strings.Count pre Separator + 1 := by
  unfold strings.Count
  have hn : name.filter (fun c => decide (c = Separator)) = [] := by
    rw [List.filter_eq_nil_iff]
    intro a ha
    have : a ≠ Separator := fun h0 => h (h0 ▸ ha)
    simpa using this
  rw [List.filter_append, List.filter_cons]
  simp [hn]

/-- The sorted paths of a map without duplicate keys ascend strictly. -/
theorem sortedPaths_strict (m : EntryMap) (hkeys : m.keys.Nodup) :
    (sortedPaths m).Pairwise (fun a b => sort.stringLess a b = true) := by
  have hperm : (sortedPaths m).Perm m.keys := Strings_perm m.keys
  have hnodup : (sortedPaths m).Nodup := hperm.nodup_iff.mpr hkeys
  have hboth := List.Pairwise.and (Strings_sorted m.keys) hnodup
  refine hboth.imp ?_
  intro a b hab
  rcases stringLess_trichotomy a b with h | h | h
  · exact h
  · exact absurd h hab.2
  · rw [h] at hab; cases hab.1

/-- In a strictly ascending list the lesser of two members stands before the greater. -/
theorem sorted_before (l : List GoString)
    (hs : l.Pairwise (fun a b => sort.stringLess a b = true))
    (a b : GoString) (ha : a ∈ l) (hb : b ∈ l) (hab : sort.stringLess a b = true) :
    ∃ l1 l2 l3 : List GoString, l = l1 ++ a :: (l2 ++ b :: l3) := by
  obtain ⟨s, t, rfl⟩ := List.append_of_mem hb
  rw [List.pairwise_append] at hs
  obtain ⟨-, hs2, -⟩ := hs
  rcases List.mem_append.mp ha with h | h
  · obtain ⟨l1, l2, rfl⟩ := List.append_of_mem h
    exact ⟨l1, l2, t, by simp⟩
  · rcases List.mem_cons.mp h with h | h
    · rw [h, stringLess_irrefl] at hab; cases hab
    · have h1 := (List.pairwise_cons.mp hs2).1 a h
      rw [stringLess_asymm b a h1] at hab; cases hab

/-- The keys of the map after the files are recorded: the joined non-empty prefixes of
the components of the files. -/
theorem recorded_keys (files : List (List GoString)) (hvalid : ∀ f ∈ files, validComps f) :
    (((files.map filepath.joinSep).foldl recordFile ([], [])).2).keys.Nodup ∧
    ∀ k, k ∈ (((files.map filepath.joinSep).foldl recordFile ([], [])).2).keys ↔
      ∃ g ∈ files, ∃ j, 0 < j ∧ j ≤ g.length ∧ k = filepath.joinSep (g.take j) := by
  rw [recordFile_foldl files hvalid]
  obtain ⟨hnodup, hkeys⟩ := EntryMap.setAll_keys (files.map fileEntries).flatten []
    (by simp [EntryMap.keys])
  refine ⟨hnodup, ?_⟩
  intro k
  simp only [] at hkeys ⊢
  rw [hkeys k]
  simp only [EntryMap.keys, List.map_nil, List.not_mem_nil, false_or, List.mem_map]
  constructor
  · rintro ⟨kv, hkv, rfl⟩
    obtain ⟨g, hg, h⟩ := (mem_fileEntries files kv).mp hkv
    rcases h with ⟨-, ha⟩ | h
    · obtain ⟨j, hj1, hj2, hj3⟩ := (mem_ancestorDirs g kv.1).mp ha
      exact ⟨g, hg, j, hj1, by omega, hj3⟩
    · refine ⟨g, hg, g.length, ?_, le_refl _, by rw [h, List.take_length]⟩
      exact List.length_pos.mpr (hvalid g hg).1
  · rintro ⟨g, hg, j, hj1, hj2, rfl⟩
    by_cases hj : j < g.length
    · exact ⟨(filepath.joinSep (g.take j), true),
        (mem_fileEntries files _).mpr
          ⟨g, hg, Or.inl ⟨rfl, (mem_ancestorDirs g _).mpr ⟨j, hj1, hj, rfl⟩⟩⟩, rfl⟩
    · have hj4 : j = g.length := by omega
      refine ⟨(filepath.joinSep g, false),
        (mem_fileEntries files _).mpr ⟨g, hg, Or.inr rfl⟩, ?_⟩
      rw [hj4, List.take_length]

/-- A pair of the map belongs to a key of the map. -/
theorem EntryMap.mem_of_get (m : EntryMap) (k : GoString) (hk : k ∈ m.keys) :
    (k, m.get k) ∈ m := by
  induction m with
  | nil => simp [EntryMap.keys] at hk
  | cons kv rest ih =>
    obtain ⟨k1, v1⟩ := kv
    simp only [EntryMap.get]
    by_cases h : k1 = k
    · rw [if_pos h, h]
      exact List.mem_cons_self _ _
    · rw [if_neg h]
      have hk2 : k ∈ EntryMap.keys rest := by
        simp only [EntryMap.keys, List.map_cons, List.mem_cons] at hk
        rcases hk with hk | hk
        · exact absurd hk.symm h
        · exact hk
      exact List.mem_cons_of_mem _ (ih hk2)

/-- Reading a key that the map does not have gives `false`. -/
theorem EntryMap.get_not_mem (m : EntryMap) (k : GoString) (hk : k ∉ m.keys) :
    m.get k = false := by
  induction m with
  | nil => rfl
  | cons kv rest ih =>
    obtain ⟨k1, v1⟩ := kv
    simp only [EntryMap.keys, List.map_cons, List.mem_cons, not_or] at hk
    simp only [EntryMap.get]
    rw [if_neg (fun h => hk.1 h.symm)]
    exact ih hk.2

/-- The pairs of the map after the files are recorded, when no file is an ancestor
directory of a file: the entries of the files. -/
theorem recorded_mem (files : List (List GoString)) (hvalid : ∀ f ∈ files, validComps f)
    (hfree : ∀ f ∈ files, ∀ g ∈ files, filepath.joinSep f ∉ ancestorDirs g) :
    (((files.map filepath.joinSep).foldl recordFile ([], [])).2).keys.Nodup ∧
    ∀ kv, kv ∈ ((files.map filepath.joinSep).foldl recordFile ([], [])).2 ↔
      kv ∈ (files.map fileEntries).flatten := by
  rw [recordFile_foldl files hvalid]
  simp only []
  have hcons : ∀ kv ∈ (files.map fileEntries).flatten,
      ∀ kv2 ∈ (files.map fileEntries).flatten, kv.1 = kv2.1 → kv.2 = kv2.2 := by
    intro kv hkv kv2 hkv2 hk
    obtain ⟨g, hg, h⟩ := (mem_fileEntries files kv).mp hkv
    obtain ⟨g2, hg2, h2⟩ := (mem_fileEntries files kv2).mp hkv2
    rcases h with ⟨hv, ha⟩ | h <;> rcases h2 with ⟨hv2, ha2⟩ | h2
    · rw [hv, hv2]
    · rw [h2] at hk
      simp only [] at hk
      rw [hk] at ha
      exact absurd ha (hfree g2 hg2 g hg)
    · rw [h] at hk
      simp only [] at hk
      rw [← hk] at ha2
      exact absurd ha2 (hfree g hg g2 hg2)
    · rw [h, h2]
  obtain ⟨hnodup, hkeys⟩ := EntryMap.setAll_keys (files.map fileEntries).flatten []
    (by simp [EntryMap.keys])
  have hget := EntryMap.setAll_get (files.map fileEntries).flatten hcons []
  generalize hM : List.foldl (fun (m : EntryMap) (kv : GoString × Bool) =>
    EntryMap.set m kv.1 kv.2) [] (files.map fileEntries).flatten = M at hnodup hkeys hget ⊢
  refine ⟨hnodup, ?_⟩
  intro kv
  constructor
  · intro hkv
    have hk : kv.1 ∈ EntryMap.keys M := List.mem_map_of_mem Prod.fst hkv
    rw [hkeys] at hk
    simp only [EntryMap.keys, List.map_nil, List.not_mem_nil, false_or, List.mem_map] at hk
    obtain ⟨kv2, hkv2, hfst⟩ := hk
    have h1 := hget kv2 hkv2
    rw [hfst, EntryMap.get_of_mem _ kv.1 kv.2 hnodup hkv] at h1
    have : kv = kv2 := Prod.ext hfst.symm h1
    rw [this]; exact hkv2
  · intro hkv
    have hk : kv.1 ∈ EntryMap.keys M := by
      rw [hkeys]
      exact Or.inr (List.mem_map_of_mem Prod.fst hkv)
    have h1 := EntryMap.mem_of_get _ kv.1 hk
    rw [hget kv hkv] at h1
    exact h1

/-- Maps with the same pairs give the same sorted paths and the same tree. -/
theorem renderTree_perm (m m2 : EntryMap) (hp : m2.Perm m) (hkeys : m.keys.Nodup) :
    sortedPaths m2 = sortedPaths m ∧ renderTree m2 = renderTree m := by
  have hperm : (sortedPaths m).Perm m.keys := Strings_perm m.keys
  have hk : (EntryMap.keys m2).Perm (EntryMap.keys m) := List.Perm.map Prod.fst hp
  have hs : sortedPaths m2 = sortedPaths m := Strings_perm_invariant _ _ hk
  refine ⟨hs, ?_⟩
  rw [renderTree_eq, renderTree_eq, hs]
  congr 1
  apply List.map_congr_left
  intro p hp2
  have hpk : p ∈ m.keys := hperm.subset hp2
  unfold renderLine
  rw [EntryMap.get_perm m m2 hp hkeys p hpk]

/-- The state of the walk callback after the files are recorded. -/
theorem walk_recorded (incl excl : List GoString) (events : List WalkEvent)
    (files : List (List GoString))
    (herr : ∀ e ∈ events, e.err = false)
    (hsel : selectedPaths incl excl events = files.map filepath.joinSep) :
    walk incl excl events ([], []) =
      some (files.map filepath.joinSep,
        ((files.map filepath.joinSep).foldl recordFile ([], [])).2) := by
  rw [walk_eq_foldl incl excl events herr, hsel]
  congr 1
  apply Prod.ext
  · rw [foldl_recordFile_fst]; rfl
  · rfl

/-- A key with a separator is its parent, a separator and a name, and the parent is a
key. -/
theorem recorded_parent (files : List (List GoString)) (hvalid : ∀ f ∈ files, validComps f)
    (k : GoString)
    (hk : k ∈ (((files.map filepath.joinSep).foldl recordFile ([], [])).2).keys)
    (hsep : strings.Contains k Separator = true) :
    parentPath k ∈ (((files.map filepath.joinSep).foldl recordFile ([], [])).2).keys ∧
    ∃ name, name ≠ [] ∧ Separator ∉ name ∧ k = parentPath k ++ Separator :: name := by
  obtain ⟨-, hkeys⟩ := recorded_keys files hvalid
  obtain ⟨g, hg, j, hj1, hj2, hkj⟩ := (hkeys k).mp hk
  have hgv := hvalid g hg
  have hsep2 : Separator ∈ k := (Contains_iff k Separator).mp hsep
  have hj3 : 2 ≤ j := by
    by_contra hlt
    have hj4 : j = 1 := by omega
    rw [hj4] at hkj
    cases g with
    | nil => exact hgv.1 rfl
    | cons c rest =>
      simp only [List.take_succ_cons, List.take_zero, filepath.joinSep] at hkj
      rw [hkj] at hsep2
      exact (hgv.2 c (List.mem_cons_self _ _)).2.1 hsep2
  obtain ⟨i, rfl⟩ : ∃ i, j = i + 2 := ⟨j - 2, by omega⟩
  have hi : i + 1 < g.length := by omega
  have htake : g.take (i + 2) = g.take (i + 1) ++ [g.get ⟨i + 1, hi⟩] := by
    rw [List.take_succ, List.getElem?_eq_getElem hi]
    rfl
  have hname : validName (g.get ⟨i + 1, hi⟩) := hgv.2 _ (List.get_mem _ _ _)
  have hpre : g.take (i + 1) ≠ [] := by
    intro h0
    have := congrArg List.length h0
    rw [List.length_take, List.length_nil] at this
    omega
  have hk2 : k = filepath.joinSep (g.take (i + 1)) ++ Separator :: g.get ⟨i + 1, hi⟩ := by
    rw [hkj, htake, joinSep_append_singleton _ _ hpre]
  have hparent : parentPath k = filepath.joinSep (g.take (i + 1)) := by
    rw [hk2]
    exact parentPath_append _ _ hname.2.1
  refine ⟨?_, g.get ⟨i + 1, hi⟩, hname.1, hname.2.1, ?_⟩
  · rw [hparent]
    exact (hkeys _).mpr ⟨g, hg, i + 1, by omega, by omega, rfl⟩
  · rw [hparent]
    exact hk2

/-- C17: parents stand before their children. After a walk without error whose selected
files are clean relative paths (the joined components of `files`), every path of the
tree that contains a separator is its parent path followed by a separator and a name;
the parent path is itself a path of the tree, is less than the path in the sort order and
stands on a strictly earlier line; it has one separator less, so that the line of the
path is indented by exactly 4 spaces more than the line of its parent. -/
theorem parent_line_before (incl excl : List GoString) (events : List WalkEvent)
    (files : List (List GoString))
    (herr : ∀ e ∈ events, e.err = false)
    (hsel : selectedPaths incl excl events = files.map filepath.joinSep)
    (hvalid : ∀ f ∈ files, validComps f) :
    ∃ m : EntryMap,
      walk incl excl events ([], []) = some (files.map filepath.joinSep, m) ∧
      renderTree m = ((sortedPaths m).map (renderLine m)).flatten ∧
      ∀ k ∈ sortedPaths m, strings.Contains k Separator = true →
        (∃ l1 l2 l3 : List GoString,
          sortedPaths m = l1 ++ parentPath k :: (l2 ++ k :: l3)) ∧
        (∃ name, name ≠ [] ∧ Separator ∉ name ∧ k = parentPath k ++ Separator :: name) ∧
        sort.stringLess (parentPath k) k = true ∧
        strings.Count k Separator = strings.Count (parentPath k) Separator + 1 ∧
        renderLine m k =
          str "    " ++ strings.Repeat (str "    ") (strings.Count (parentPath k) Separator) ++
            filepath.Base k ++ (if m.get k then str "/\n" else str "\n") ∧
        renderLine m (parentPath k) =
          strings.Repeat (str "    ") (strings.Count (parentPath k) Separator) ++
            filepath.Base (parentPath k) ++
            (if m.get (parentPath k) then str "/\n" else str "\n") := by
  refine ⟨_, walk_recorded incl excl events files herr hsel, renderTree_eq _, ?_⟩
  obtain ⟨hnodup, -⟩ := recorded_keys files hvalid
  generalize hM : ((files.map filepath.joinSep).foldl recordFile ([], [])).2 = M at hnodup ⊢
  intro k hk hsep
  have hperm : (sortedPaths M).Perm M.keys := Strings_perm M.keys
  have hk2 : k ∈ EntryMap.keys M := hperm.subset hk
  obtain ⟨hpar, name, hne, hns, hkn⟩ := recorded_parent files hvalid k (by rw [hM]; exact hk2) hsep
  rw [hM] at hpar
  have hless : sort.stringLess (parentPath k) k = true := by
    have h := stringLess_prefix (parentPath k) Separator name
    rw [← hkn] at h
    exact h
  have hcount : strings.Count k Separator = strings.Count (parentPath k) Separator + 1 := by
    have h := Count_append_name (parentPath k) name hns
    rw [← hkn] at h
    exact h
  have hline : ∀ p : GoString, renderLine M p =
      strings.Repeat (str "    ") (strings.Count p Separator) ++ filepath.Base p ++
        (if M.get p then str "/\n" else str "\n") := by
    intro p
    unfold renderLine
    cases M.get p <;> rfl
  refine ⟨?_, ⟨name, hne, hns, hkn⟩, hless, hcount, ?_, hline _⟩
  · exact sorted_before _ (sortedPaths_strict M hnodup) _ _ (hperm.symm.subset hpar) hk hless
  · rw [hline k, hcount]
    rfl

/-- C17 on the walk of a tree with the files `a/b/c.txt` and `a.txt`. -/
theorem parent_line_before_witness :
    ∃ m : EntryMap,
      walk [] [] [⟨str ".", true, false⟩, ⟨str "a", true, false⟩, ⟨str "a/b", true, false⟩,
        ⟨str "a/b/c.txt", false, false⟩, ⟨str "a.txt", false, false⟩] ([], []) =
        some ([str "a/b/c.txt", str "a.txt"], m) ∧
      ∀ k ∈ sortedPaths m, strings.Contains k Separator = true →
        ∃ l1 l2 l3 : List GoString, sortedPaths m = l1 ++ parentPath k :: (l2 ++ k :: l3) := by
  obtain ⟨m, h1, -, h3⟩ := parent_line_before [] []
    [⟨str ".", true, false⟩, ⟨str "a", true, false⟩, ⟨str "a/b", true, false⟩,
      ⟨str "a/b/c.txt", false, false⟩, ⟨str "a.txt", false, false⟩]
    [[str "a", str "b", str "c.txt"], [str "a.txt"]]
    (by decide) (by decide) (by decide)
  exact ⟨m, h1, fun k hk hs => (h3 k hk hs).1⟩

/-- C18: the tree does not depend on the order of the walk. For two walks without error
whose selected files are permutations of each other, clean relative paths of which none
is an ancestor directory of another, the entry maps have the same keys with the same
flags (the same pairs, which a Go map holds without order), the sorted paths are equal
and the tree texts are equal; the content blocks are permutations of each other. -/
theorem tree_independent_of_walk_order (incl excl : List GoString)
    (events1 events2 : List WalkEvent) (files1 files2 : List (List GoString))
    (herr1 : ∀ e ∈ events1, e.err = false) (herr2 : ∀ e ∈ events2, e.err = false)
    (hsel1 : selectedPaths incl excl events1 = files1.map filepath.joinSep)
    (hsel2 : selectedPaths incl excl events2 = files2.map filepath.joinSep)
    (hperm : files1.Perm files2)
    (hvalid : ∀ f ∈ files1, validComps f)
    (hfree : ∀ f ∈ files1, ∀ g ∈ files1, filepath.joinSep f ∉ ancestorDirs g) :
    ∃ m1 m2 : EntryMap,
      walk incl excl events1 ([], []) = some (files1.map filepath.joinSep, m1) ∧
      walk incl excl events2 ([], []) = some (files2.map filepath.joinSep, m2) ∧
      m1.Perm m2 ∧
      (∀ k, k ∈ m1.keys ↔ k ∈ m2.keys) ∧
      (∀ k, m1.get k = m2.get k) ∧
      sortedPaths m1 = sortedPaths m2 ∧
      renderTree m1 = renderTree m2 ∧
      ∀ (dir : GoString) (readFile : GoString → Option GoString),
        ((files1.map filepath.joinSep).filterMap
          (fun file => (readFile (filepath.Join [dir, file])).map (contentBlock file))).Perm
        ((files2.map filepath.joinSep).filterMap
          (fun file => (readFile (filepath.Join [dir, file])).map (contentBlock file))) := by
  have hvalid2 : ∀ f ∈ files2, validComps f := fun f hf => hvalid f (hperm.symm.subset hf)
  have hfree2 : ∀ f ∈ files2, ∀ g ∈ files2, filepath.joinSep f ∉ ancestorDirs g :=
    fun f hf g hg => hfree f (hperm.symm.subset hf) g (hperm.symm.subset hg)
  refine ⟨_, _, walk_recorded incl excl events1 files1 herr1 hsel1,
    walk_recorded incl excl events2 files2 herr2 hsel2, ?_⟩
  obtain ⟨hnodup1, hmem1⟩ := recorded_mem files1 hvalid hfree
  obtain ⟨hnodup2, hmem2⟩ := recorded_mem files2 hvalid2 hfree2
  generalize ((files1.map filepath.joinSep).foldl recordFile ([], [])).2 = M1 at hnodup1 hmem1 ⊢
  generalize ((files2.map filepath.joinSep).foldl recordFile ([], [])).2 = M2 at hnodup2 hmem2 ⊢
  have hflat : ∀ kv, kv ∈ (files1.map fileEntries).flatten ↔
      kv ∈ (files2.map fileEntries).flatten := by
    intro kv
    rw [mem_fileEntries, mem_fileEntries]
    constructor
    · rintro ⟨g, hg, h⟩
      exact ⟨g, hperm.subset hg, h⟩
    · rintro ⟨g, hg, h⟩
      exact ⟨g, hperm.symm.subset hg, h⟩
  have hp : List.Perm M1 M2 := by
    rw [List.perm_ext_iff_of_nodup (List.Nodup.of_map Prod.fst hnodup1)
      (List.Nodup.of_map Prod.fst hnodup2)]
    intro kv
    rw [hmem1, hmem2, hflat]
  have hkeys : ∀ k, k ∈ EntryMap.keys M1 ↔ k ∈ EntryMap.keys M2 := by
    intro k
    exact (List.Perm.map Prod.fst hp).mem_iff
  have hr := renderTree_perm M2 M1 hp hnodup2
  refine ⟨hp, hkeys, ?_, hr.1, hr.2, ?_⟩
  · intro k
    by_cases hk : k ∈ EntryMap.keys M2
    · exact EntryMap.get_perm M2 M1 hp hnodup2 k hk
    · rw [EntryMap.get_not_mem M2 k hk,
        EntryMap.get_not_mem M1 k (fun h => hk ((hkeys k).mp h))]
  · intro dir readFile
    exact List.Perm.filterMap _ (List.Perm.map _ hperm)

set_option maxRecDepth 4000 in
/-- C18 on two walks of a tree with the files `b/c.txt` and `a.txt`, met in the two
possible orders: both trees are the lines `a.txt`, `b/`, `    c.txt`. -/
theorem tree_independent_of_walk_order_witness :
    ∃ m1 m2 : EntryMap,
      walk [] [] [⟨str "b/c.txt", false, false⟩, ⟨str "a.txt", false, false⟩] ([], []) =
        some ([str "b/c.txt", str "a.txt"], m1) ∧
      walk [] [] [⟨str "a.txt", false, false⟩, ⟨str "b/c.txt", false, false⟩] ([], []) =
        some ([str "a.txt", str "b/c.txt"], m2) ∧
      renderTree m1 = renderTree m2 ∧
      renderTree m2 = str "a.txt\nb/\n    c.txt\n" := by
  obtain ⟨m1, m2, h1, h2, -, -, -, -, h3, -⟩ := tree_independent_of_walk_order [] []
    [⟨str "b/c.txt", false, false⟩, ⟨str "a.txt", false, false⟩]
    [⟨str "a.txt", false, false⟩, ⟨str "b/c.txt", false, false⟩]
    [[str "b", str "c.txt"], [str "a.txt"]] [[str "a.txt"], [str "b", str "c.txt"]]
    (by decide) (by decide) (by decide) (by decide)
    (List.Perm.swap _ _ _) (by decide) (by decide)
  refine ⟨m1, m2, h1, h2, h3, ?_⟩
  have h2c : walk [] [] [⟨str "a.txt", false, false⟩, ⟨str "b/c.txt", false, false⟩] ([], []) =
      some ([str "a.txt", str "b/c.txt"],
        [(str "a.txt", false), (str "b", true), (str "b/c.txt", false)]) := by decide
  rw [h2c] at h2
  have h4 := (Prod.mk.inj (Option.some.inj h2)).2
  rw [← h4]
  decide

end Codeprep

/-! ## Separators under a plain pattern -/

namespace Codeprep

/-- Counting in a concatenation. -/
theorem Count_append (a b : GoString) (sep : Byte) :
    strings.Count (a ++ b) sep = strings.Count a sep + strings.Count b sep := by
  unfold strings.Count
  rw [List.filter_append, List.length_append]

/-- Counting skips a byte that is not counted. -/
theorem Count_cons_ne (c : Byte) (s : GoString) (sep : Byte) (h : c ≠ sep) :
    strings.Count (c :: s) sep = strings.Count s sep := by
  unfold strings.Count
  rw [List.filter_cons]
  simp [h]

/-- Counting counts the byte at the front. -/
theorem Count_cons_eq (s : GoString) (sep : Byte) :
    strings.Count (sep :: s) sep = strings.Count s sep + 1 := by
  unfold strings.Count
  simp

/-- A string without the byte counts zero. -/
theorem Count_eq_zero (s : GoString) (sep : Byte) (h : ∀ b ∈ s, b ≠ sep) :
    strings.Count s sep = 0 := by
  unfold strings.Count
  rw [List.length_eq_zero, List.filter_eq_nil_iff]
  intro b hb
  simpa using h b hb

/-- A plain pattern is a plain byte followed by a plain pattern. -/
theorem plainPattern_cons (c : Byte) (p : GoString) :
    plainPattern (c :: p) ↔ c ≠ chLBracket ∧ c ≠ chBackslash ∧ plainPattern p := by
  unfold plainPattern
  simp only [List.mem_cons, not_or]
  constructor
  · rintro ⟨⟨h1, h2⟩, h3, h4⟩
    exact ⟨fun h => h1 h.symm, fun h => h3 h.symm, h2, h4⟩
  · rintro ⟨h1, h3, h2, h4⟩
    exact ⟨⟨fun h => h1 h.symm, h2⟩, fun h => h3 h.symm, h4⟩

/-- The parts of a plain pattern are plain. -/
theorem plainPattern_append (a b : GoString) :
    plainPattern (a ++ b) ↔ plainPattern a ∧ plainPattern b := by
  unfold plainPattern
  simp only [List.mem_append, not_or]
  tauto

/-- The chunk and the rest of a plain pattern are plain and share its separators. -/
theorem scanChunk_plain (p : GoString) (hp : plainPattern p) :
    plainPattern (filepath.scanChunk p).2.1 ∧ plainPattern (filepath.scanChunk p).2.2 ∧
    strings.Count p Separator =
      strings.Count (filepath.scanChunk p).2.1 Separator +
        strings.Count (filepath.scanChunk p).2.2 Separator := by
  unfold filepath.scanChunk
  simp only []
  have hsplit := List.takeWhile_append_dropWhile (fun b => decide (b = chStar)) p
  have happ := scanSplit_append (p.dropWhile (fun b => decide (b = chStar))).length false
    (p.dropWhile (fun b => decide (b = chStar))) (le_refl _)
  have hp2 : plainPattern (p.dropWhile (fun b => decide (b = chStar))) := by
    rw [← hsplit] at hp
    exact ((plainPattern_append _ _).mp hp).2
  rw [← happ] at hp2
  obtain ⟨h1, h2⟩ := (plainPattern_append _ _).mp hp2
  refine ⟨h1, h2, ?_⟩
  rw [← Count_append, happ]
  nth_rewrite 1 [← hsplit]
  rw [Count_append, Count_eq_zero (p.takeWhile (fun b => decide (b = chStar)))]
  · omega
  · intro b hb
    have := List.mem_takeWhile_imp hb
    have hbs : b = chStar := by simpa using this
    rw [hbs]
    decide

/-- A chunk match that has failed does not succeed later. -/
theorem matchChunkLoop_failed (fuel : Nat) :
    ∀ (chunk s t : GoString) (ok e : Bool), plainPattern chunk →
      filepath.matchChunkLoop fuel chunk s true = some (t, ok, e) → ok = false := by
  induction fuel with
  | zero => intro chunk s t ok e _ h; simp [filepath.matchChunkLoop] at h
  | succ fuel ih =>
    intro chunk s t ok e hp h
    cases chunk with
    | nil =>
      simp only [filepath.matchChunkLoop, if_true, Option.some.injEq, Prod.mk.injEq] at h
      exact h.2.1.symm
    | cons c chunk1 =>
      obtain ⟨hc1, hc2, hp1⟩ := (plainPattern_cons c chunk1).mp hp
      unfold filepath.matchChunkLoop at h
      simp only [Bool.true_or, if_true] at h
      rw [if_neg hc1] at h
      by_cases h2 : c = chQuestion
      · rw [if_pos h2] at h
        exact ih _ _ t ok e hp1 h
      · rw [if_neg h2, if_neg (fun h3 => hc2 h3.1), if_neg hc2] at h
        exact ih _ _ t ok e hp1 h

/-- The bytes of the rune at the start of a string that does not start with a separator
hold no separator. -/
theorem decode_take_no_sep (a : Byte) (s : GoString) (ha : a ≠ Separator) :
    strings.Count ((a :: s).take (utf8.DecodeRuneInString (a :: s)).2) Separator = 0 := by
  apply Count_eq_zero
  rcases Decode_cases a s with ⟨-, h⟩ | ⟨-, h⟩ | ⟨-, w, n, hn, -, h, -, hcont, -⟩
  · rw [h]
    intro b hb
    simp only [List.take_succ_cons, List.take_zero, List.mem_singleton] at hb
    rw [hb]; exact ha
  · rw [h]
    intro b hb
    simp only [List.take_succ_cons, List.take_zero, List.mem_singleton] at hb
    rw [hb]; exact ha
  · rw [h]
    simp only []
    obtain ⟨k, rfl⟩ : ∃ k, n = k + 1 := ⟨n - 1, by omega⟩
    rw [List.take_succ_cons] at hcont ⊢
    intro b hb
    rcases List.mem_cons.mp hb with hb | hb
    · rw [hb]; exact ha
    · have := hcont b hb
      intro hbs
      rw [hbs] at this
      exact absurd this.1 (by decide)

/-- A plain chunk that matches the start of a string consumes as many separators as it
has. -/
theorem matchChunkLoop_count (fuel : Nat) :
    ∀ (chunk s t : GoString) (e : Bool), plainPattern chunk →
      filepath.matchChunkLoop fuel chunk s false = some (t, true, e) →
      ∃ consumed : GoString, s = consumed ++ t ∧
        strings.Count consumed Separator = strings.Count chunk Separator := by
  induction fuel with
  | zero => intro chunk s t e _ h; simp [filepath.matchChunkLoop] at h
  | succ fuel ih =>
    intro chunk s t e hp h
    cases chunk with
    | nil =>
      simp only [filepath.matchChunkLoop, Bool.false_eq_true, if_false, Option.some.injEq,
        Prod.mk.injEq] at h
      exact ⟨[], by rw [h.1]; rfl, rfl⟩
    | cons c chunk1 =>
      obtain ⟨hc1, hc2, hp1⟩ := (plainPattern_cons c chunk1).mp hp
      unfold filepath.matchChunkLoop at h
      simp only [Bool.false_or] at h
      rw [if_neg hc1] at h
      cases s with
      | nil =>
        exfalso
        simp only [List.isEmpty_nil, Bool.true_or, if_true] at h
        by_cases h2 : c = chQuestion
        · rw [if_pos h2] at h
          exact Bool.noConfusion (matchChunkLoop_failed fuel _ _ t true e hp1 h)
        · rw [if_neg h2, if_neg (fun h3 => hc2 h3.1), if_neg hc2] at h
          exact Bool.noConfusion (matchChunkLoop_failed fuel _ _ t true e hp1 h)
      | cons a s1 =>
        simp only [List.isEmpty_cons, Bool.false_or, Bool.false_eq_true, if_false,
          List.head?_cons] at h
        by_cases h2 : c = chQuestion
        · rw [if_pos h2] at h
          by_cases ha : a = Separator
          · exfalso
            rw [ha] at h
            simp only [decide_True] at h
            exact Bool.noConfusion (matchChunkLoop_failed fuel _ _ t true e hp1 h)
          · have hd : decide (some a = some Separator) = false := by simpa using ha
            rw [hd] at h
            obtain ⟨consumed, hs, hcount⟩ := ih _ _ t e hp1 h
            refine ⟨(a :: s1).take (utf8.DecodeRuneInString (a :: s1)).2 ++ consumed, ?_, ?_⟩
            · rw [List.append_assoc, ← hs, List.take_append_drop]
            · rw [Count_append, decode_take_no_sep a s1 ha, hcount, h2,
                Count_cons_ne chQuestion chunk1 Separator (by decide)]
              omega
        · rw [if_neg h2, if_neg (fun h3 => hc2 h3.1), if_neg hc2] at h
          simp only [List.head?_cons, List.tail_cons, List.drop_succ_cons, List.drop_zero] at h
          by_cases hca : c = a
          · have hd : decide (some c ≠ some a) = false := by simpa using hca
            rw [hd] at h
            obtain ⟨consumed, hs, hcount⟩ := ih _ _ t e hp1 h
            refine ⟨a :: consumed, by rw [hs]; rfl, ?_⟩
            rw [hca]
            by_cases hsep : a = Separator
            · rw [hsep, Count_cons_eq, Count_cons_eq, hcount]
            · rw [Count_cons_ne a _ _ hsep, Count_cons_ne a _ _ hsep, hcount]
          · exfalso
            have hd : decide (some c ≠ some a) = true := by simpa using hca
            rw [hd] at h
            exact Bool.noConfusion (matchChunkLoop_failed fuel _ _ t true e hp1 h)

/-- The star loop skips no separator, and the chunk it then matches consumes as many
separators as it has. -/
theorem starLoop_count (chunk : GoString) (lastChunk : Bool) (hp : plainPattern chunk) :
    ∀ (name t : GoString), filepath.starLoop chunk lastChunk name = some (.found t) →
      ∃ consumed : GoString, name = consumed ++ t ∧
        strings.Count consumed Separator = strings.Count chunk Separator := by
  intro name
  induction name with
  | nil => intro t h; simp [filepath.starLoop] at h
  | cons c rest ih =>
    intro t h
    unfold filepath.starLoop at h
    by_cases hc : c = Separator
    · rw [if_pos hc] at h; simp at h
    · rw [if_neg hc] at h
      have hskip : ∀ t1, filepath.starLoop chunk lastChunk rest = some (.found t1) →
          ∃ consumed : GoString, c :: rest = consumed ++ t1 ∧
            strings.Count consumed Separator = strings.Count chunk Separator := by
        intro t1 h1
        obtain ⟨consumed, hs, hcount⟩ := ih t1 h1
        exact ⟨c :: consumed, by rw [hs]; rfl, by rw [Count_cons_ne c _ _ hc, hcount]⟩
      cases hmc : filepath.matchChunk chunk rest with
      | none => rw [hmc] at h; simp at h
      | some res =>
        obtain ⟨t1, ok, err⟩ := res
        rw [hmc] at h
        simp only [] at h
        cases ok with
        | true =>
          simp only [if_true] at h
          by_cases hl : lastChunk = true ∧ t1 ≠ []
          · rw [if_pos hl] at h
            exact hskip t h
          · rw [if_neg hl] at h
            simp only [Option.some.injEq, filepath.StarResult.found.injEq] at h
            subst h
            obtain ⟨consumed, hs, hcount⟩ := matchChunkLoop_count _ chunk rest t1 err hp hmc
            exact ⟨c :: consumed, by rw [hs]; rfl, by rw [Count_cons_ne c _ _ hc, hcount]⟩
        | false =>
          simp only [Bool.false_eq_true, if_false] at h
          cases err with
          | true => simp at h
          | false =>
            simp only [Bool.false_eq_true, if_false] at h
            exact hskip t h

/-- A name that a plain pattern matches has as many separators as the pattern. -/
theorem matchLoop_count (fuel : Nat) :
    ∀ (p name : GoString) (e : Bool), plainPattern p →
      filepath.matchLoop fuel p name = some (true, e) →
      strings.Count name Separator = strings.Count p Separator := by
  induction fuel with
  | zero => intro p name e _ h; simp [filepath.matchLoop] at h
  | succ fuel ih =>
    intro p name e hp h
    unfold filepath.matchLoop at h
    by_cases hp0 : p = []
    · rw [if_pos hp0] at h
      simp only [Option.some.injEq, Prod.mk.injEq] at h
      have : name = [] := by
        cases name with
        | nil => rfl
        | cons a s => simp at h
      rw [this, hp0]
    · rw [if_neg hp0] at h
      have hempty := scanChunk_empty_chunk p
      obtain ⟨hpc, hpr, hcnt⟩ := scanChunk_plain p hp
      generalize filepath.scanChunk p = sc at hempty hpc hpr hcnt h
      obtain ⟨star, chunk, rest⟩ := sc
      simp only [] at hempty hpc hpr hcnt h
      rw [hcnt]
      by_cases h1 : star = true ∧ chunk = []
      · rw [if_pos h1] at h
        simp only [Option.some.injEq, Prod.mk.injEq, Bool.not_eq_true'] at h
        have hr := hempty h1.2
        rw [hr, h1.2]
        apply Count_eq_zero
        intro b hb hbs
        have hcon : strings.Contains name Separator = true :=
          (Contains_iff name Separator).mpr (hbs ▸ hb)
        rw [h.1] at hcon
        cases hcon
      · rw [if_neg h1] at h
        cases hmc : filepath.matchChunk chunk name with
        | none => rw [hmc] at h; simp at h
        | some res =>
          obtain ⟨t, ok, err⟩ := res
          rw [hmc] at h
          simp only [] at h
          by_cases h2 : ok = true ∧ (t = [] ∨ rest ≠ [])
          · rw [if_pos h2] at h
            have hok := h2.1
            subst hok
            obtain ⟨consumed, hs, hcount⟩ := matchChunkLoop_count _ chunk name t err hpc hmc
            rw [hs, Count_append, hcount, ih rest t e hpr h]
          · rw [if_neg h2] at h
            cases err with
            | true => simp at h
            | false =>
              simp only [Bool.false_eq_true, if_false] at h
              have hfin : some (false, false) = some (true, e) → False := by
                intro h3
                simp at h3
              cases star with
              | false =>
                simp only [Bool.false_eq_true, if_false] at h
                exact (hfin h).elim
              | true =>
                simp only [if_true] at h
                cases hsl : filepath.starLoop chunk (decide (rest = [])) name with
                | none => rw [hsl] at h; simp at h
                | some sr =>
                  rw [hsl] at h
                  cases sr with
                  | found t1 =>
                    simp only [] at h
                    obtain ⟨consumed, hs, hcount⟩ := starLoop_count chunk _ hpc name t1 hsl
                    rw [hs, Count_append, hcount, ih rest t1 e hpr h]
                  | bad => simp at h
                  | exhausted => exact (hfin h).elim

/-- C15: no recursive matching across directories. A pattern with a separator that is
built from literal characters, `*` and `?` only (no `[`, no backslash) is matched against
the full relative path, and a path that it matches has exactly as many separators as the
pattern; the same holds for `filepath.Match` with every such pattern and every name. In
particular `src/*.go` does not match `src/sub/main.go`. -/
theorem no_recursive_matching (pattern relPath : GoString)
    (hplain : plainPattern pattern)
    (hsep : strings.Contains pattern Separator = true)
    (hmatch : «matches» pattern relPath (filepath.Base relPath) = true) :
    strings.Count relPath Separator = strings.Count pattern Separator ∧
    (∀ p name : GoString, plainPattern p → (filepath.Match p name).1 = true →
      strings.Count name Separator = strings.Count p Separator) ∧
    «matches» (str "src/*.go") (str "src/sub/main.go") (filepath.Base (str "src/sub/main.go")) =
      false ∧
    «matches» (str "src/*.go") (str "src/main.go") (filepath.Base (str "src/main.go")) = true := by
  have key : ∀ p name : GoString, plainPattern p → (filepath.Match p name).1 = true →
      strings.Count name Separator = strings.Count p Separator := by
    intro p name hp hm
    have h := Match_eq p name
    have hm2 : filepath.Match p name = (true, (filepath.Match p name).2) := by
      rw [← hm]
    rw [hm2] at h
    exact matchLoop_count _ p name _ hp h
  refine ⟨?_, key, by decide, by decide⟩
  unfold «matches» at hmatch
  rw [hsep, if_pos rfl] at hmatch
  exact key pattern relPath hplain hmatch

/-- C15 at the pattern `src/*/?.go` and the path `src/a/b.go`, both with two
separators. -/
theorem no_recursive_matching_witness :
    plainPattern (str "src/*/?.go") ∧
    «matches» (str "src/*/?.go") (str "src/a/b.go") (filepath.Base (str "src/a/b.go")) = true ∧
    strings.Count (str "src/a/b.go") Separator = strings.Count (str "src/*/?.go") Separator :=
  ⟨by decide, by decide,
    (no_recursive_matching (str "src/*/?.go") (str "src/a/b.go") (by decide) (by decide)
      (by decide)).1⟩

end Codeprep
